import Mathlib

/-! Streaming tool-call extraction (`server/tools.go`).

A shallow embedding of the tool-call parser of the `server` package:
`parseObjects`, `parsePythonFunctionCall`, `parseJSONToolCalls`,
`deriveToolToken`, `parseJSON` and `ParseToolCalls`, together with the parts
of the Go standard library they call (`strings`, `unicode/utf8`, `regexp` for
the one pattern used, `encoding/json`).

Conventions.
* A Go `string` is a list of bytes (`Bytes`); `len` is `List.length` and
  `s[i:]` is `List.drop i s`, which faults when `i > len(s)`.
* The `*string` slot is `Option Bytes`: `none` is the nil pointer.
* A Go panic is the result `Res.panic`.
* `fmt.Printf`/`fmt.Println` only write a log and are left out.
-/

namespace Server

/-! ## Go strings -/

/-- A Go string, as its bytes. -/
abbrev Bytes := List Nat

/-- The rune `utf8.RuneError` (U+FFFD). -/
def runeError : Nat := 0xFFFD

/-- Go `utf8.EncodeRune` (surrogates and out-of-range runes encode U+FFFD). -/
def encodeRune (r : Nat) : Bytes :=
  if r < 0x80 then [r]
  else if r < 0x800 then [0xC0 + r / 64, 0x80 + r % 64]
  else if 0x10FFFF < r ∨ (0xD800 ≤ r ∧ r ≤ 0xDFFF) then [0xEF, 0xBF, 0xBD]
  else if r < 0x10000 then [0xE0 + r / 4096, 0x80 + (r / 64) % 64, 0x80 + r % 64]
  else [0xF0 + r / 262144, 0x80 + (r / 4096) % 64, 0x80 + (r / 64) % 64, 0x80 + r % 64]

/-- The bytes (UTF-8) of a string literal. -/
def ofString (s : String) : Bytes :=
  s.data.foldr (fun c acc => encodeRune c.toNat ++ acc) []

/-- The table `first`/`acceptRanges` of `unicode/utf8`: for a lead byte, the
sequence length and the accepted range of the second byte. -/
def leadInfo (p0 : Nat) : Option (Nat × Nat × Nat) :=
  if 0xC2 ≤ p0 ∧ p0 ≤ 0xDF then some (2, 0x80, 0xBF)
  else if p0 = 0xE0 then some (3, 0xA0, 0xBF)
  else if 0xE1 ≤ p0 ∧ p0 ≤ 0xEC then some (3, 0x80, 0xBF)
  else if p0 = 0xED then some (3, 0x80, 0x9F)
  else if 0xEE ≤ p0 ∧ p0 ≤ 0xEF then some (3, 0x80, 0xBF)
  else if p0 = 0xF0 then some (4, 0x90, 0xBF)
  else if 0xF1 ≤ p0 ∧ p0 ≤ 0xF3 then some (4, 0x80, 0xBF)
  else if p0 = 0xF4 then some (4, 0x80, 0x8F)
  else none

/-- A continuation byte (`locb ≤ b ≤ hicb`). -/
def isCont (b : Nat) : Bool := decide (0x80 ≤ b ∧ b ≤ 0xBF)

/-- Go `utf8.DecodeRune`: the first rune of `p` and its width in bytes; an
invalid or short sequence is `(RuneError, 1)`, the empty input `(RuneError, 0)`. -/
def decodeRune : Bytes → Nat × Nat
  | [] => (runeError, 0)
  | p0 :: rest =>
    if p0 < 0x80 then (p0, 1)
    else
      match leadInfo p0 with
      | none => (runeError, 1)
      | some (sz, lo, hi) =>
        if rest.length + 1 < sz then (runeError, 1)
        else
          match rest with
          | [] => (runeError, 1)
          | b1 :: r1 =>
            if b1 < lo ∨ hi < b1 then (runeError, 1)
            else if sz ≤ 2 then ((p0 % 32) * 64 + b1 % 64, 2)
            else
              match r1 with
              | [] => (runeError, 1)
              | b2 :: r2 =>
                if !isCont b2 then (runeError, 1)
                else if sz ≤ 3 then ((p0 % 16) * 4096 + (b1 % 64) * 64 + b2 % 64, 3)
                else
                  match r2 with
                  | [] => (runeError, 1)
                  | b3 :: _ =>
                    if !isCont b3 then (runeError, 1)
                    else ((p0 % 8) * 262144 + (b1 % 64) * 4096 + (b2 % 64) * 64 + b3 % 64, 4)

/-- Go `utf8.RuneStart`: the byte is not a continuation byte. -/
def runeStart (b : Nat) : Bool := !isCont b

/-- The start index chosen by `utf8.DecodeLastRune`: walk back from `end - 1`
over at most `UTFMax - 1` further bytes to the nearest rune start. `rev` is the
input reversed, so its head is the last byte. -/
def lastRuneStartBack : Bytes → Nat → Nat
  | [], _ => 0
  | _ :: _, 0 => 0
  | b :: rest, k + 1 => if runeStart b then 1 else 1 + lastRuneStartBack rest k

/-- Go `utf8.DecodeLastRune`: the last rune of `s` and its width. -/
def decodeLastRune (s : Bytes) : Nat × Nat :=
  match s.reverse with
  | [] => (runeError, 0)
  | last :: before =>
    if last < 0x80 then (last, 1)
    else
      -- `lim = max 0 (end - UTFMax)`: at most three bytes before the last one
      let back := min (1 + lastRuneStartBack before 3) s.length
      let (r, size) := decodeRune (s.drop (s.length - back))
      if size ≠ back then (runeError, 1) else (r, size)

/-- Go `unicode.IsSpace`. -/
def isSpaceRune (r : Nat) : Bool :=
  decide ((0x09 ≤ r ∧ r ≤ 0x0D) ∨ r = 0x20 ∨ r = 0x85 ∨ r = 0xA0 ∨ r = 0x1680 ∨
    (0x2000 ≤ r ∧ r ≤ 0x200A) ∨ r = 0x2028 ∨ r = 0x2029 ∨ r = 0x202F ∨ r = 0x205F ∨
    r = 0x3000)

/-- Go `strings.TrimLeftFunc(s, unicode.IsSpace)`, with `fuel ≥ len(s)`. -/
def trimLeftFuel : Nat → Bytes → Bytes
  | 0, s => s
  | fuel + 1, s =>
    match s with
    | [] => []
    | _ :: _ =>
      let (r, size) := decodeRune s
      if isSpaceRune r then trimLeftFuel fuel (s.drop size) else s

/-- Go `strings.TrimRightFunc(s, unicode.IsSpace)`, with `fuel ≥ len(s)`. -/
def trimRightFuel : Nat → Bytes → Bytes
  | 0, s => s
  | fuel + 1, s =>
    match s with
    | [] => []
    | _ :: _ =>
      let (r, size) := decodeLastRune s
      if isSpaceRune r then trimRightFuel fuel (s.take (s.length - size)) else s

/-- Go `strings.TrimSpace`: leading and trailing Unicode white space removed. -/
def TrimSpace (s : Bytes) : Bytes :=
  let l := trimLeftFuel s.length s
  trimRightFuel l.length l

/-- The number of fields of `strings.Fields`: maximal runs of runes that are
not white space. `inField` tells whether the previous rune was in a field. -/
def fieldsFuel : Nat → Bytes → Bool → Nat
  | 0, _, _ => 0
  | fuel + 1, s, inField =>
    match s with
    | [] => 0
    | _ :: _ =>
      let (r, size) := decodeRune s
      if isSpaceRune r then fieldsFuel fuel (s.drop size) false
      else (if inField then 0 else 1) + fieldsFuel fuel (s.drop size) true

/-- The value of `len(strings.Fields(s))`. -/
def lenFields (s : Bytes) : Nat := fieldsFuel s.length s false

/-- Go `strings.HasPrefix`. -/
def HasPrefix (s pre : Bytes) : Bool := pre.isPrefixOf s

/-- Go `strings.Contains`. -/
def Contains : Bytes → Bytes → Bool
  | [], substr => substr.isEmpty
  | c :: rest, substr => HasPrefix (c :: rest) substr || Contains rest substr

/-- Go `strings.Index`: the index of the first occurrence, `none` for -1. -/
def Index : Bytes → Bytes → Option Nat
  | [], substr => if substr.isEmpty then some 0 else none
  | c :: rest, substr =>
    if HasPrefix (c :: rest) substr then some 0 else (Index rest substr).map (· + 1)

/-- Go `strings.Count(s, sep)` for a separator `sep` of one byte. -/
def Count (s : Bytes) (sep : Nat) : Nat := s.count sep

/-- Go `strings.Split(s, sep)` (and the sequence of `strings.SplitSeq`) for a
separator of one byte: the pieces between the separators, at least one. -/
def Split : Bytes → Nat → List Bytes
  | [], _ => [[]]
  | b :: rest, sep =>
    if b = sep then [] :: Split rest sep
    else
      match Split rest sep with
      | [] => [[b]]
      | p :: ps => (b :: p) :: ps

/-- Go slice expression `s[n:]`: a run-time panic when `n > len(s)`. -/
def sliceFrom (s : Bytes) (n : Nat) : Option Bytes :=
  if n ≤ s.length then some (s.drop n) else none

/-- The function `isSpace` of `encoding/json`: space, tab, CR, LF. -/
def isJSONSpace (c : Nat) : Bool := decide (c = 0x20 ∨ c = 0x09 ∨ c = 0x0D ∨ c = 0x0A)

/-! ## Decoded JSON values and Go maps -/

/-- A value of Go type `any` as `encoding/json` produces it: `nil`, `bool`,
`float64` (kept as the number literal it was read from: rounding to `float64`
is not modelled), `string`, `[]any`, `map[string]any`. A map is the list of its
entries sorted by key, the order in which `json.Marshal` writes them. -/
inductive JVal where
  | null
  | bool (b : Bool)
  | num (lit : Bytes)
  | str (s : Bytes)
  | arr (xs : List JVal)
  | obj (kvs : List (Bytes × JVal))

/-- A Go `map[string]any`: `none` is the nil map. -/
abbrev GoMap := Option (List (Bytes × JVal))

mutual
/-- Structural equality test on decoded values. -/
def JVal.beq : JVal → JVal → Bool
  | .null, .null => true
  | .bool a, .bool b => a == b
  | .num a, .num b => a == b
  | .str a, .str b => a == b
  | .arr a, .arr b => JVal.beqList a b
  | .obj a, .obj b => JVal.beqObj a b
  | _, _ => false
/-- Structural equality test on lists of values. -/
def JVal.beqList : List JVal → List JVal → Bool
  | [], [] => true
  | a :: as, b :: bs => JVal.beq a b && JVal.beqList as bs
  | _, _ => false
/-- Structural equality test on map entries. -/
def JVal.beqObj : List (Bytes × JVal) → List (Bytes × JVal) → Bool
  | [], [] => true
  | (k, a) :: as, (l, b) :: bs => k == l && JVal.beq a b && JVal.beqObj as bs
  | _, _ => false
end

mutual
theorem JVal.eq_of_beq : ∀ (a b : JVal), JVal.beq a b = true → a = b
  | .null, .null, _ => rfl
  | .bool a, .bool b, h => by simp [JVal.beq] at h; rw [h]
  | .num a, .num b, h => by simp [JVal.beq] at h; rw [h]
  | .str a, .str b, h => by simp [JVal.beq] at h; rw [h]
  | .arr a, .arr b, h => by
      simp only [JVal.beq] at h; rw [JVal.eq_of_beqList a b h]
  | .obj a, .obj b, h => by
      simp only [JVal.beq] at h; rw [JVal.eq_of_beqObj a b h]
  | .null, .bool _, h | .null, .num _, h | .null, .str _, h | .null, .arr _, h
  | .null, .obj _, h | .bool _, .null, h | .bool _, .num _, h | .bool _, .str _, h
  | .bool _, .arr _, h | .bool _, .obj _, h | .num _, .null, h | .num _, .bool _, h
  | .num _, .str _, h | .num _, .arr _, h | .num _, .obj _, h | .str _, .null, h
  | .str _, .bool _, h | .str _, .num _, h | .str _, .arr _, h | .str _, .obj _, h
  | .arr _, .null, h | .arr _, .bool _, h | .arr _, .num _, h | .arr _, .str _, h
  | .arr _, .obj _, h | .obj _, .null, h | .obj _, .bool _, h | .obj _, .num _, h
  | .obj _, .str _, h | .obj _, .arr _, h => by
      simp [JVal.beq] at h
theorem JVal.eq_of_beqList : ∀ (a b : List JVal), JVal.beqList a b = true → a = b
  | [], [], _ => rfl
  | a :: as, b :: bs, h => by
      simp only [JVal.beqList, Bool.and_eq_true] at h
      rw [JVal.eq_of_beq a b h.1, JVal.eq_of_beqList as bs h.2]
  | [], _ :: _, h | _ :: _, [], h => by simp [JVal.beqList] at h
theorem JVal.eq_of_beqObj :
    ∀ (a b : List (Bytes × JVal)), JVal.beqObj a b = true → a = b
  | [], [], _ => rfl
  | (k, a) :: as, (l, b) :: bs, h => by
      simp only [JVal.beqObj, Bool.and_eq_true, beq_iff_eq] at h
      rw [h.1.1, JVal.eq_of_beq a b h.1.2, JVal.eq_of_beqObj as bs h.2]
  | [], _ :: _, h | _ :: _, [], h => by simp [JVal.beqObj] at h
end

mutual
theorem JVal.beq_self : ∀ (a : JVal), JVal.beq a a = true
  | .null => rfl
  | .bool a => by simp [JVal.beq]
  | .num a => by simp [JVal.beq]
  | .str a => by simp [JVal.beq]
  | .arr a => by simp only [JVal.beq]; exact JVal.beqList_self a
  | .obj a => by simp only [JVal.beq]; exact JVal.beqObj_self a
theorem JVal.beqList_self : ∀ (a : List JVal), JVal.beqList a a = true
  | [] => rfl
  | a :: as => by
      simp only [JVal.beqList, Bool.and_eq_true]
      exact ⟨JVal.beq_self a, JVal.beqList_self as⟩
theorem JVal.beqObj_self : ∀ (a : List (Bytes × JVal)), JVal.beqObj a a = true
  | [] => rfl
  | (k, a) :: as => by
      simp only [JVal.beqObj, Bool.and_eq_true, beq_iff_eq]
      exact ⟨⟨trivial, JVal.beq_self a⟩, JVal.beqObj_self as⟩
end

instance : DecidableEq JVal := fun a b =>
  if h : JVal.beq a b = true then isTrue (JVal.eq_of_beq a b h)
  else isFalse (fun e => h (e ▸ JVal.beq_self a))

/-- Go string comparison `a < b`: bytewise lexicographic. -/
def bytesLt : Bytes → Bytes → Bool
  | _, [] => false
  | [], _ :: _ => true
  | a :: as, b :: bs => decide (a < b) || (decide (a = b) && bytesLt as bs)

/-- Go map assignment `m[k] = v` on the sorted entry list. -/
def mapSet : List (Bytes × JVal) → Bytes → JVal → List (Bytes × JVal)
  | [], k, v => [(k, v)]
  | (k', v') :: rest, k, v =>
    if k = k' then (k, v) :: rest
    else if bytesLt k k' then (k, v) :: (k', v') :: rest
    else (k', v') :: mapSet rest k v

/-- Modelled from the spec: the canonical record `api.ToolCallFunction` of the
`api` package (its declaration is not among the sources): a function name and
an argument mapping (`api.ToolCallFunctionArguments`, a `map[string]any`). -/
structure ToolCallFunction where
  Name : Bytes
  Arguments : GoMap
  deriving DecidableEq

/-- Modelled from the spec: the canonical output unit `api.ToolCall` of the
`api` package: it wraps one `ToolCallFunction`. -/
structure ToolCall where
  Function : ToolCallFunction
  deriving DecidableEq

/-! ## The Python-call parser -/

/-- The class `\w` of Go `regexp`: ASCII letters, digits and `_`. -/
def isWordByte (b : Nat) : Bool :=
  decide ((0x30 ≤ b ∧ b ≤ 0x39) ∨ (0x41 ≤ b ∧ b ≤ 0x5A) ∨ b = 0x5F ∨ (0x61 ≤ b ∧ b ≤ 0x7A))

/-- The tail `(.*?)\)` of the pattern at the start of `s`: the lazy group takes
the bytes up to the first `)`, and `.` does not match a newline. Returns the
group and the text after the `)`. -/
def lazyArgs : Bytes → Option (Bytes × Bytes)
  | [] => none
  | b :: rest =>
    if b = 0x29 then some ([], rest)
    else if b = 0x0A then none
    else (lazyArgs rest).map (fun p => (b :: p.1, p.2))

/-- A match of `(\w+)\((.*?)\)` anchored at the start of `s`: the greedy `\w+`
takes the whole run of word bytes, which must be followed by `(`. Returns the
two groups and the text after the match. -/
def matchHere (s : Bytes) : Option (Bytes × Bytes × Bytes) :=
  match s.span isWordByte with
  | ([], _) => none
  | (w, 0x28 :: r) => (lazyArgs r).map (fun p => (w, p.1, p.2))
  | _ => none

/-- All successive leftmost matches, from left to right, with `fuel ≥ len(s)`. -/
def findAllFuel : Nat → Bytes → List (Bytes × Bytes)
  | 0, _ => []
  | fuel + 1, s =>
    match s with
    | [] => []
    | _ :: rest =>
      match matchHere s with
      | some (name, args, after) => (name, args) :: findAllFuel fuel after
      | none => findAllFuel fuel rest

/-- The value `pythonFuncRegex.FindAllStringSubmatchIndex(s, -1)` for
`pythonFuncRegex = (\w+)\((.*?)\)`, each match given by the texts of its two
groups `s[m[2]:m[3]]` and `s[m[4]:m[5]]`. -/
def pythonFuncRegex (s : Bytes) : List (Bytes × Bytes) := findAllFuel s.length s

/-- The loop over `strings.SplitSeq(args, ",")` of `parsePythonFunctionCall`:
one step for the piece `pair`. -/
def keywordPair (arguments : List (Bytes × JVal)) (pair : Bytes) : List (Bytes × JVal) :=
  let pair := TrimSpace pair
  let kv := Split pair 0x3D
  match kv with
  | [k, v] =>
    let key := TrimSpace k
    let value := TrimSpace v
    mapSet arguments key (JVal.str value)
  | _ => arguments

/-- The `arguments` map built for one match from its argument text. -/
def keywordArguments (args : Bytes) : List (Bytes × JVal) :=
  (Split args 0x2C).foldl keywordPair []

/-- The body of the loop `for _, match := range matches`. -/
def pythonStep (toolCalls : List ToolCall) (m : Bytes × Bytes) : List ToolCall :=
  let name := m.1
  let args := m.2
  if Contains args [0x3D] then
    toolCalls ++ [{ Function := { Name := name, Arguments := some (keywordArguments args) } }]
  else toolCalls

/-- The function `parsePythonFunctionCall` of tools.go. -/
def parsePythonFunctionCall (s : Bytes) : List ToolCall × Bool :=
  let found := pythonFuncRegex s
  if found.length = 0 then ([], false)
  else
    let toolCalls := found.foldl pythonStep []
    if toolCalls.length > 0 then (toolCalls, true) else ([], false)

/-! ## The scanner of `encoding/json` (`scanner.go`) -/

/-- The step functions of the scanner, by name. -/
inductive ScanStep where
  | stateBeginValueOrEmpty | stateBeginValue | stateBeginStringOrEmpty | stateBeginString
  | stateEndValue | stateEndTop | stateInString | stateInStringEsc
  | stateInStringEscU | stateInStringEscU1 | stateInStringEscU12 | stateInStringEscU123
  | stateNeg | state1 | state0 | stateDot | stateDot0 | stateE | stateESign | stateE0
  | stateT | stateTr | stateTru | stateF | stateFa | stateFal | stateFals
  | stateN | stateNu | stateNul | stateError
  deriving DecidableEq

/-- The entries of the scanner's `parseState` stack. -/
inductive ParseState where
  | parseObjectKey | parseObjectValue | parseArrayValue
  deriving DecidableEq

/-- The op codes returned by a step function. -/
inductive ScanOp where
  | scanContinue | scanBeginLiteral | scanBeginObject | scanObjectKey | scanObjectValue
  | scanEndObject | scanBeginArray | scanArrayValue | scanEndArray | scanSkipSpace
  | scanEnd | scanError
  deriving DecidableEq

/-- The scanner state: the current step function and the stack of open
composite values, innermost first. -/
structure scanner where
  step : ScanStep
  parseState : List ParseState
  deriving DecidableEq

/-- The constant `maxNestingDepth` of `scanner.go`. -/
def maxNestingDepth : Nat := 10000

/-- Method `scanner.reset`. -/
def scanner.reset : scanner := { step := .stateBeginValue, parseState := [] }

/-- Method `scanner.error`: record the error and stop scanning. -/
def scanner.error (s : scanner) : scanner × ScanOp :=
  ({ s with step := .stateError }, .scanError)

/-- Method `scanner.pushParseState`. -/
def pushParseState (s : scanner) (newParseState : ParseState) (successState : ScanOp) :
    scanner × ScanOp :=
  let s := { s with parseState := newParseState :: s.parseState }
  if s.parseState.length ≤ maxNestingDepth then (s, successState) else s.error

/-- Method `scanner.popParseState`. -/
def popParseState (s : scanner) : scanner :=
  match s.parseState with
  | [] => s
  | _ :: rest =>
    if rest.length = 0 then { step := .stateEndTop, parseState := rest }
    else { step := .stateEndValue, parseState := rest }

/-- Step `stateEndTop`: the top-level value is complete; a byte that is not
white space leaves the scanner in the error state, and the op is `scanEnd`. -/
def stateEndTop (s : scanner) (c : Nat) : scanner × ScanOp :=
  if !isJSONSpace c then ((s.error).1, .scanEnd) else (s, .scanEnd)

/-- Step `stateEndValue`: after a value, such as after a literal or a
closing bracket. -/
def stateEndValue (s : scanner) (c : Nat) : scanner × ScanOp :=
  match s.parseState with
  | [] => stateEndTop { s with step := .stateEndTop } c
  | ps :: rest =>
    if isJSONSpace c then ({ s with step := .stateEndValue }, .scanSkipSpace)
    else
      match ps with
      | .parseObjectKey =>
        if c = 0x3A then
          ({ step := .stateBeginValue, parseState := .parseObjectValue :: rest }, .scanObjectKey)
        else s.error
      | .parseObjectValue =>
        if c = 0x2C then
          ({ step := .stateBeginString, parseState := .parseObjectKey :: rest }, .scanObjectValue)
        else if c = 0x7D then (popParseState s, .scanEndObject)
        else s.error
      | .parseArrayValue =>
        if c = 0x2C then ({ s with step := .stateBeginValue }, .scanArrayValue)
        else if c = 0x5D then (popParseState s, .scanEndArray)
        else s.error

/-- Step `stateBeginValue`: at the beginning of a value. -/
def stateBeginValue (s : scanner) (c : Nat) : scanner × ScanOp :=
  if isJSONSpace c then (s, .scanSkipSpace)
  else if c = 0x7B then
    pushParseState { s with step := .stateBeginStringOrEmpty } .parseObjectKey .scanBeginObject
  else if c = 0x5B then
    pushParseState { s with step := .stateBeginValueOrEmpty } .parseArrayValue .scanBeginArray
  else if c = 0x22 then ({ s with step := .stateInString }, .scanBeginLiteral)
  else if c = 0x2D then ({ s with step := .stateNeg }, .scanBeginLiteral)
  else if c = 0x30 then ({ s with step := .state0 }, .scanBeginLiteral)
  else if c = 0x74 then ({ s with step := .stateT }, .scanBeginLiteral)
  else if c = 0x66 then ({ s with step := .stateF }, .scanBeginLiteral)
  else if c = 0x6E then ({ s with step := .stateN }, .scanBeginLiteral)
  else if 0x31 ≤ c ∧ c ≤ 0x39 then ({ s with step := .state1 }, .scanBeginLiteral)
  else s.error

/-- Step `stateBeginValueOrEmpty`: after `[`. -/
def stateBeginValueOrEmpty (s : scanner) (c : Nat) : scanner × ScanOp :=
  if isJSONSpace c then (s, .scanSkipSpace)
  else if c = 0x5D then stateEndValue s c
  else stateBeginValue s c

/-- Step `stateBeginString`: after `{"key": value,`. -/
def stateBeginString (s : scanner) (c : Nat) : scanner × ScanOp :=
  if isJSONSpace c then (s, .scanSkipSpace)
  else if c = 0x22 then ({ s with step := .stateInString }, .scanBeginLiteral)
  else s.error

/-- Step `stateBeginStringOrEmpty`: after `{`. -/
def stateBeginStringOrEmpty (s : scanner) (c : Nat) : scanner × ScanOp :=
  if isJSONSpace c then (s, .scanSkipSpace)
  else if c = 0x7D then
    stateEndValue { s with parseState := .parseObjectValue :: s.parseState.tail } c
  else stateBeginString s c

/-- Step `stateInString`. -/
def stateInString (s : scanner) (c : Nat) : scanner × ScanOp :=
  if c = 0x22 then ({ s with step := .stateEndValue }, .scanContinue)
  else if c = 0x5C then ({ s with step := .stateInStringEsc }, .scanContinue)
  else if c < 0x20 then s.error
  else (s, .scanContinue)

/-- Step `stateInStringEsc`: after a backslash in a string. -/
def stateInStringEsc (s : scanner) (c : Nat) : scanner × ScanOp :=
  if c = 0x62 ∨ c = 0x66 ∨ c = 0x6E ∨ c = 0x72 ∨ c = 0x74 ∨ c = 0x5C ∨ c = 0x2F ∨ c = 0x22 then
    ({ s with step := .stateInString }, .scanContinue)
  else if c = 0x75 then ({ s with step := .stateInStringEscU }, .scanContinue)
  else s.error

/-- A hexadecimal digit, as tested by the steps `stateInStringEscU...`. -/
def isHexDigit (c : Nat) : Bool :=
  decide ((0x30 ≤ c ∧ c ≤ 0x39) ∨ (0x61 ≤ c ∧ c ≤ 0x66) ∨ (0x41 ≤ c ∧ c ≤ 0x46))

/-- A decimal digit. -/
def isDigit (c : Nat) : Bool := decide (0x30 ≤ c ∧ c ≤ 0x39)

/-- The steps that accept one fixed class of byte and go to `next`, such as
`stateInStringEscU1` and `stateTr`. -/
def stateExpect (s : scanner) (accept : Bool) (next : ScanStep) : scanner × ScanOp :=
  if accept then ({ s with step := next }, .scanContinue) else s.error

/-- Step `state0`: after `0` in a number. -/
def state0 (s : scanner) (c : Nat) : scanner × ScanOp :=
  if c = 0x2E then ({ s with step := .stateDot }, .scanContinue)
  else if c = 0x65 ∨ c = 0x45 then ({ s with step := .stateE }, .scanContinue)
  else stateEndValue s c

/-- Step `state1`: after a non-zero digit in a number. -/
def state1 (s : scanner) (c : Nat) : scanner × ScanOp :=
  if isDigit c then ({ s with step := .state1 }, .scanContinue) else state0 s c

/-- Step `stateNeg`: after `-`. -/
def stateNeg (s : scanner) (c : Nat) : scanner × ScanOp :=
  if c = 0x30 then ({ s with step := .state0 }, .scanContinue)
  else if 0x31 ≤ c ∧ c ≤ 0x39 then ({ s with step := .state1 }, .scanContinue)
  else s.error

/-- Step `stateDot0`: after a digit following the decimal point. -/
def stateDot0 (s : scanner) (c : Nat) : scanner × ScanOp :=
  if isDigit c then (s, .scanContinue)
  else if c = 0x65 ∨ c = 0x45 then ({ s with step := .stateE }, .scanContinue)
  else stateEndValue s c

/-- Step `stateESign`: after `e` and an optional sign. -/
def stateESign (s : scanner) (c : Nat) : scanner × ScanOp :=
  if isDigit c then ({ s with step := .stateE0 }, .scanContinue) else s.error

/-- Step `stateE`: after the `e` of an exponent. -/
def stateE (s : scanner) (c : Nat) : scanner × ScanOp :=
  if c = 0x2B ∨ c = 0x2D then ({ s with step := .stateESign }, .scanContinue)
  else stateESign s c

/-- Step `stateE0`: after a digit of the exponent. -/
def stateE0 (s : scanner) (c : Nat) : scanner × ScanOp :=
  if isDigit c then (s, .scanContinue) else stateEndValue s c

/-- The call `s.step(s, c)`: run the current step function on the byte `c`. -/
def scanner.next (s : scanner) (c : Nat) : scanner × ScanOp :=
  match s.step with
  | .stateBeginValueOrEmpty => stateBeginValueOrEmpty s c
  | .stateBeginValue => stateBeginValue s c
  | .stateBeginStringOrEmpty => stateBeginStringOrEmpty s c
  | .stateBeginString => stateBeginString s c
  | .stateEndValue => stateEndValue s c
  | .stateEndTop => stateEndTop s c
  | .stateInString => stateInString s c
  | .stateInStringEsc => stateInStringEsc s c
  | .stateInStringEscU => stateExpect s (isHexDigit c) .stateInStringEscU1
  | .stateInStringEscU1 => stateExpect s (isHexDigit c) .stateInStringEscU12
  | .stateInStringEscU12 => stateExpect s (isHexDigit c) .stateInStringEscU123
  | .stateInStringEscU123 => stateExpect s (isHexDigit c) .stateInString
  | .stateNeg => stateNeg s c
  | .state1 => state1 s c
  | .state0 => state0 s c
  | .stateDot => stateExpect s (isDigit c) .stateDot0
  | .stateDot0 => stateDot0 s c
  | .stateE => stateE s c
  | .stateESign => stateESign s c
  | .stateE0 => stateE0 s c
  | .stateT => stateExpect s (c = 0x72) .stateTr
  | .stateTr => stateExpect s (c = 0x75) .stateTru
  | .stateTru => stateExpect s (c = 0x65) .stateEndValue
  | .stateF => stateExpect s (c = 0x61) .stateFa
  | .stateFa => stateExpect s (c = 0x6C) .stateFal
  | .stateFal => stateExpect s (c = 0x73) .stateFals
  | .stateFals => stateExpect s (c = 0x65) .stateEndValue
  | .stateN => stateExpect s (c = 0x75) .stateNu
  | .stateNu => stateExpect s (c = 0x6C) .stateNul
  | .stateNul => stateExpect s (c = 0x6C) .stateEndValue
  | .stateError => (s, .scanError)

/-- The scanner is inside an object or an array: the stack is not empty (and
the step function is then not `stateEndTop`). -/
def scanner.isOpen (s : scanner) : Prop := s.parseState ≠ [] ∧ s.step ≠ .stateEndTop

/-- What a step of the scanner gives when it starts inside an object or an
array: the op is not `scanEnd`, and either an error was found, or the scanner
is still inside a value, or the outermost value has just been closed. -/
def stepOpen (r : scanner × ScanOp) : Prop :=
  r.2 ≠ .scanEnd ∧
    (r.2 = .scanError ∨ r.1.isOpen ∨
      (r.1.parseState = [] ∧ (r.2 = .scanEndObject ∨ r.2 = .scanEndArray)))

/-- The outcome of `Decoder.readValue` on a fresh decoder: a complete value in
the first `n` bytes, a syntax error whose `Offset` is the count of bytes
scanned, or the end of the input (`io.EOF` when only white space was read,
`io.ErrUnexpectedEOF` otherwise). -/
inductive ReadResult where
  | value (n : Nat)
  | syntaxError (offset : Nat)
  | eof
  | unexpectedEOF
  deriving DecidableEq

/-- The function `nonSpace` of `stream.go`. -/
def nonSpace (b : Bytes) : Bool := b.any (fun c => !isJSONSpace c)

/-- The loop of `Decoder.readValue` over the bytes not yet scanned; `scanp` is
the number of bytes scanned so far and `buf` the whole input. -/
def readValueLoop (buf : Bytes) : scanner → Bytes → Nat → ReadResult
  | s, [], scanp =>
    if (s.next 0x20).2 = .scanEnd then .value scanp
    else if nonSpace buf then .unexpectedEOF
    else .eof
  | s, c :: rest, scanp =>
    match s.next c with
    | (_, .scanEnd) => .value scanp
    | (s', .scanEndObject) =>
      if (stateEndValue s' 0x20).2 = .scanEnd then .value (scanp + 1)
      else readValueLoop buf s' rest (scanp + 1)
    | (s', .scanEndArray) =>
      if (stateEndValue s' 0x20).2 = .scanEnd then .value (scanp + 1)
      else readValueLoop buf s' rest (scanp + 1)
    | (_, .scanError) => .syntaxError (scanp + 1)
    | (s', _) => readValueLoop buf s' rest (scanp + 1)

/-- Method `Decoder.readValue` of a decoder just created on the input `buf`. -/
def readValue (buf : Bytes) : ReadResult := readValueLoop buf scanner.reset buf 0

/-! ## Decoding into `map[string]any` (`decode.go`, `stream.go`) -/

/-- The value of a hexadecimal digit. -/
def hexVal (c : Nat) : Nat :=
  if 0x30 ≤ c ∧ c ≤ 0x39 then c - 0x30
  else if 0x61 ≤ c ∧ c ≤ 0x66 then c - 0x61 + 10
  else if 0x41 ≤ c ∧ c ≤ 0x46 then c - 0x41 + 10
  else 0

/-- Function `getu4`: the number written `\uXXXX` at the start of `s`, `none`
for -1. -/
def getu4 : Bytes → Option Nat
  | 0x5C :: 0x75 :: a :: b :: c :: d :: _ =>
    if isHexDigit a && isHexDigit b && isHexDigit c && isHexDigit d then
      some (((hexVal a * 16 + hexVal b) * 16 + hexVal c) * 16 + hexVal d)
    else none
  | _ => none

/-- Go `utf16.DecodeRune` on the results of two calls of `getu4`. -/
def utf16DecodeRune (r1 : Nat) (r2 : Option Nat) : Nat :=
  match r2 with
  | some r2 =>
    if 0xD800 ≤ r1 ∧ r1 < 0xDC00 ∧ 0xDC00 ≤ r2 ∧ r2 < 0xE000 then
      (r1 - 0xD800) * 1024 + (r2 - 0xDC00) + 0x10000
    else runeError
  | none => runeError

/-- Function `unquoteBytes` on a string literal the scanner has accepted, from
the byte after the opening quote: the decoded string (escapes resolved, bytes
that are not UTF-8 replaced by U+FFFD) and the text after the closing quote. -/
def unquoteFuel : Nat → Bytes → Option (Bytes × Bytes)
  | 0, _ => none
  | fuel + 1, s =>
    match s with
    | [] => none
    | c :: rest =>
      if c = 0x22 then some ([], rest)
      else if c = 0x5C then
        match rest with
        | [] => none
        | e :: rest1 =>
          if e = 0x75 then
            match getu4 s with
            | none => none
            | some rr =>
              let after := s.drop 6
              if 0xD800 ≤ rr ∧ rr < 0xE000 then
                let dec := utf16DecodeRune rr (getu4 after)
                if dec ≠ runeError then
                  (unquoteFuel fuel (after.drop 6)).map (fun p => (encodeRune dec ++ p.1, p.2))
                else (unquoteFuel fuel after).map (fun p => (encodeRune runeError ++ p.1, p.2))
              else (unquoteFuel fuel after).map (fun p => (encodeRune rr ++ p.1, p.2))
          else
            let out : Option Nat :=
              if e = 0x22 ∨ e = 0x5C ∨ e = 0x2F ∨ e = 0x27 then some e
              else if e = 0x62 then some 0x08
              else if e = 0x66 then some 0x0C
              else if e = 0x6E then some 0x0A
              else if e = 0x72 then some 0x0D
              else if e = 0x74 then some 0x09
              else none
            match out with
            | none => none
            | some b => (unquoteFuel fuel rest1).map (fun p => (b :: p.1, p.2))
      else if c < 0x20 then none
      else if c < 0x80 then (unquoteFuel fuel rest).map (fun p => (c :: p.1, p.2))
      else
        let (rr, size) := decodeRune s
        (unquoteFuel fuel (s.drop size)).map (fun p => (encodeRune rr ++ p.1, p.2))

/-- The bytes a number literal is made of, as `rescanLiteral` delimits it. -/
def isNumberByte (c : Nat) : Bool :=
  isDigit c || decide (c = 0x2E ∨ c = 0x65 ∨ c = 0x45 ∨ c = 0x2B ∨ c = 0x2D)

/-- The number written by a run of decimal digits. -/
def digitsVal (ds : Bytes) : Nat := ds.foldl (fun acc d => acc * 10 + (d - 0x30)) 0

/-- The least real that rounds to infinity as a `float64`: `2^1024 - 2^970`. -/
def float64Limit : Nat :=
  0xFFFFFFFFFFFFFC00000000000000000000000000000000000000000000000000000000000000000000000000000000000000000000000000000000000000000000000000000000000000000000000000000000000000000000000000000000000000000000000000000000000000000000000000000000000000000000000000

/-- Whether `strconv.ParseFloat(lit, 64)` fails with a range error on the JSON
number `lit`: its magnitude is at least `2^1024 - 2^970`, the least real that
rounds to infinity. (The exact decimal value is compared.) -/
def numberOverflows (lit : Bytes) : Bool :=
  let body := if lit.head? = some 0x2D then lit.drop 1 else lit
  let (intPart, r1) := body.span isDigit
  let (fracPart, r2) :=
    match r1 with
    | 0x2E :: r => r.span isDigit
    | _ => ([], r1)
  let (expNeg, expDigits) :=
    match r2 with
    | _ :: 0x2D :: r => (true, r)
    | _ :: 0x2B :: r => (false, r)
    | _ :: r => (false, r)
    | [] => (false, [])
  let mant := digitsVal (intPart ++ fracPart)
  let e := digitsVal expDigits
  let limit := float64Limit
  if expNeg then decide (limit * 10 ^ (e + fracPart.length) ≤ mant)
  else if fracPart.length ≤ e then decide (limit ≤ mant * 10 ^ (e - fracPart.length))
  else decide (limit * 10 ^ (fracPart.length - e) ≤ mant)

/-- The first error saved by `decodeState.saveError`, kept as the number of
bytes of the input that follow the literal it was raised on. -/
abbrev SavedError := Option Nat

mutual
/-- Method `decodeState.valueInterface` at the start of a value (white space
skipped first): the value, the text after it and the saved error. A number out
of range saves an `UnmarshalTypeError` and yields `nil`. -/
def valueInterface : Nat → Bytes → SavedError → Option (JVal × Bytes × SavedError)
  | 0, _, _ => none
  | fuel + 1, data, err =>
    match data.dropWhile isJSONSpace with
    | [] => none
    | c :: rest =>
      if c = 0x7B then
        match rest.dropWhile isJSONSpace with
        | 0x7D :: rest1 => some (.obj [], rest1, err)
        | _ => objectInterface fuel rest [] err
      else if c = 0x5B then
        match rest.dropWhile isJSONSpace with
        | 0x5D :: rest1 => some (.arr [], rest1, err)
        | _ => arrayInterface fuel rest [] err
      else if c = 0x22 then
        (unquoteFuel (rest.length + 1) rest).map (fun p => (.str p.1, p.2, err))
      else if c = 0x74 then some (.bool true, rest.drop 3, err)
      else if c = 0x66 then some (.bool false, rest.drop 4, err)
      else if c = 0x6E then some (.null, rest.drop 3, err)
      else
        let (lit, after) := (c :: rest).span isNumberByte
        if numberOverflows lit then some (.null, after, err.orElse (fun _ => some after.length))
        else some (.num lit, after, err)
/-- Method `decodeState.arrayInterface` after the `[` of an array that is not
empty: `v` holds the elements read so far. -/
def arrayInterface : Nat → Bytes → List JVal → SavedError → Option (JVal × Bytes × SavedError)
  | 0, _, _, _ => none
  | fuel + 1, data, v, err =>
    match valueInterface fuel data err with
    | none => none
    | some (x, rest, err1) =>
      match rest.dropWhile isJSONSpace with
      | 0x2C :: rest1 => arrayInterface fuel rest1 (v ++ [x]) err1
      | 0x5D :: rest1 => some (.arr (v ++ [x]), rest1, err1)
      | _ => none
/-- Method `decodeState.objectInterface` after the `{` of an object that is
not empty: `m` holds the entries read so far. -/
def objectInterface : Nat → Bytes → List (Bytes × JVal) → SavedError →
    Option (JVal × Bytes × SavedError)
  | 0, _, _, _ => none
  | fuel + 1, data, m, err =>
    match data.dropWhile isJSONSpace with
    | 0x22 :: rest =>
      match unquoteFuel (rest.length + 1) rest with
      | none => none
      | some (key, rest1) =>
        match rest1.dropWhile isJSONSpace with
        | 0x3A :: rest2 =>
          match valueInterface fuel rest2 err with
          | none => none
          | some (x, rest3, err1) =>
            match rest3.dropWhile isJSONSpace with
            | 0x2C :: rest4 => objectInterface fuel rest4 (mapSet m key x) err1
            | 0x7D :: rest4 => some (.obj (mapSet m key x), rest4, err1)
            | _ => none
        | _ => none
    | _ => none
end

/-- The outcome of `decoder.Decode(&obj)` for `var obj map[string]any` on a
decoder just created: success with the map and `decoder.InputOffset()`, or the
error (`Offset` given for the two kinds that carry one). -/
inductive DecodeResult where
  | ok (obj : GoMap) (inputOffset : Nat)
  | eof
  | unexpectedEOF
  | syntaxError (offset : Nat)
  | unmarshalTypeError (offset : Nat)
  | other
  deriving DecidableEq

/-- Method `decodeState.unmarshal` into a `*map[string]any` on the text `data`
of one complete value: an object fills a new map, `null` leaves the nil map,
an array or another literal is an `UnmarshalTypeError`. -/
def unmarshalMap (data : Bytes) : DecodeResult :=
  let body := data.dropWhile isJSONSpace
  match body with
  | [] => .other
  | c :: _ =>
    if c = 0x7B then
      match valueInterface (2 * data.length + 2) data none with
      | some (.obj m, _, none) => .ok (some m) data.length
      | some (_, _, some after) => .unmarshalTypeError (data.length - after + 1)
      | _ => .other
    else if c = 0x5B then .unmarshalTypeError (data.length - body.length + 1)
    else if c = 0x6E then .ok none data.length
    else .unmarshalTypeError data.length

/-- The calls `json.NewDecoder(strings.NewReader(s))` and `decoder.Decode(&obj)`. -/
def Decode (s : Bytes) : DecodeResult :=
  match readValue s with
  | .eof => .eof
  | .unexpectedEOF => .unexpectedEOF
  | .syntaxError offset => .syntaxError offset
  | .value n => unmarshalMap (s.take n)

/-- The loop of `parseObjects`; `rest` is `s[offset:]`, so that `offset += k`
is `rest.drop k`, and `none` means that the fuel ran out. -/
def parseObjectsFuel : Nat → Bytes → List GoMap → Option (List GoMap)
  | 0, rest, objs => if rest.length = 0 then some objs else none
  | fuel + 1, rest, objs =>
    if rest.length = 0 then some objs
    else
      match Decode rest with
      | .eof => some objs
      | .unexpectedEOF => some objs
      | .syntaxError offset => parseObjectsFuel fuel (rest.drop offset) objs
      | .unmarshalTypeError offset => parseObjectsFuel fuel (rest.drop offset) objs
      | .other => some []
      | .ok obj inputOffset => parseObjectsFuel fuel (rest.drop inputOffset) (objs ++ [obj])

/-- The function `parseObjects` of tools.go. Every turn of its loop advances
`offset`, so `len(s)` turns are enough (`parseObjectsFuel_isSome`). -/
def parseObjects (s : Bytes) : List GoMap :=
  match parseObjectsFuel s.length s [] with
  | some objs => objs
  | none => []

/-! ## The tool-call formats (`toolCallFormat`, `parseJSONToolCalls`) -/

/-- The anonymous struct type of the field `Function` of `toolCallFormat`. -/
structure FunctionFormat where
  Name : Bytes
  Arguments : GoMap
  Parameters : GoMap
  deriving DecidableEq

/-- The struct type `toolCallFormat` of tools.go; the fields in the order of
the declaration: `Name`, `Arguments`, `ToolName`, `Parameters`, `Function`
(`none` is the nil pointer), `ToolCalls`. -/
inductive toolCallFormat where
  | mk (Name : Bytes) (Arguments : GoMap) (ToolName : Bytes) (Parameters : GoMap)
      (Function : Option FunctionFormat) (ToolCalls : List toolCallFormat)

/-- Field `Name`. -/
def toolCallFormat.Name : toolCallFormat → Bytes
  | .mk n _ _ _ _ _ => n

/-- Field `Arguments`. -/
def toolCallFormat.Arguments : toolCallFormat → GoMap
  | .mk _ a _ _ _ _ => a

/-- Field `ToolName`. -/
def toolCallFormat.ToolName : toolCallFormat → Bytes
  | .mk _ _ t _ _ _ => t

/-- Field `Parameters`. -/
def toolCallFormat.Parameters : toolCallFormat → GoMap
  | .mk _ _ _ p _ _ => p

/-- Field `Function`. -/
def toolCallFormat.Function : toolCallFormat → Option FunctionFormat
  | .mk _ _ _ _ f _ => f

/-- Field `ToolCalls`. -/
def toolCallFormat.ToolCalls : toolCallFormat → List toolCallFormat
  | .mk _ _ _ _ _ c => c

/-- The zero value of `toolCallFormat` (`var format toolCallFormat`). -/
def toolCallFormat.zero : toolCallFormat := .mk [] none [] none none []

/-- The zero value of the struct behind `Function`. -/
def FunctionFormat.zero : FunctionFormat := { Name := [], Arguments := none, Parameters := none }

/-- Function `foldRune` of `encoding/json` on the runes that matter for an
ASCII field name: a lower-case ASCII letter folds to its upper case, U+017F
to `S` and U+212A to `K`; no other rune folds to an ASCII one, and such a rune
is kept as it is. -/
def foldRune (r : Nat) : Nat :=
  if 0x61 ≤ r ∧ r ≤ 0x7A then r - 0x20
  else if r = 0x17F then 0x53
  else if r = 0x212A then 0x4B
  else r

/-- Function `foldName` of `encoding/json`, with `fuel ≥ len(s)`. -/
def foldNameFuel : Nat → Bytes → Bytes
  | 0, _ => []
  | fuel + 1, s =>
    match s with
    | [] => []
    | c :: rest =>
      if c < 0x80 then foldRune c :: foldNameFuel fuel rest
      else
        let (r, n) := decodeRune s
        encodeRune (foldRune r) ++ foldNameFuel fuel (s.drop n)

/-- Function `foldName` of `encoding/json`. -/
def foldName (s : Bytes) : Bytes := foldNameFuel s.length s

/-- The field a JSON object key is stored in: the field whose name is the key,
or else the one whose name equals the key under case folding. -/
def lookupField (names : List Bytes) (key : Bytes) : Option Bytes :=
  if names.contains key then some key
  else names.find? (fun n => foldName n == foldName key)

/-- The JSON names of the fields of `toolCallFormat`. -/
def formatFields : List Bytes :=
  [ofString "name", ofString "arguments", ofString "tool_name", ofString "parameters",
   ofString "function", ofString "tool_calls"]

/-- Whether a JSON object key selects a field of `toolCallFormat`. -/
def isFormatKey (key : Bytes) : Bool := (lookupField formatFields key).isSome

/-- The JSON names of the fields of the struct behind `Function`. -/
def functionFields : List Bytes :=
  [ofString "name", ofString "arguments", ofString "parameters"]

/-- Decoding a JSON value into a field of type `string`: the new field value
and whether an `UnmarshalTypeError` was saved. `null` leaves the field. -/
def storeString (v : JVal) (old : Bytes) : Bytes × Bool :=
  match v with
  | .str s => (s, false)
  | .null => (old, false)
  | _ => (old, true)

/-- Decoding a JSON value into a field of type `map[string]any`: an object is
stored entry by entry, into a new map when the field is nil; `null` makes the
field nil. -/
def storeMap (v : JVal) (old : GoMap) : GoMap × Bool :=
  match v with
  | .obj kvs =>
    match old with
    | none => (some kvs, false)
    | some m => (some (kvs.foldl (fun m e => mapSet m e.1 e.2) m), false)
  | .null => (none, false)
  | _ => (old, true)

/-- Decoding the entries of a JSON object into the struct behind `Function`. -/
def storeFunctionFields : List (Bytes × JVal) → FunctionFormat → FunctionFormat × Bool
  | [], f => (f, false)
  | (key, v) :: rest, f =>
    let (f1, e1) : FunctionFormat × Bool :=
      match lookupField functionFields key with
      | none => (f, false)
      | some fld =>
        if fld = ofString "name" then
          let (x, e) := storeString v f.Name
          ({ f with Name := x }, e)
        else if fld = ofString "arguments" then
          let (x, e) := storeMap v f.Arguments
          ({ f with Arguments := x }, e)
        else
          let (x, e) := storeMap v f.Parameters
          ({ f with Parameters := x }, e)
    let (f2, e2) := storeFunctionFields rest f1
    (f2, e1 || e2)

/-- Decoding a JSON value into the field `Function`, a pointer to a struct:
an object fills the struct (allocated when the pointer is nil), `null` makes
the pointer nil. -/
def storeFunction (v : JVal) (old : Option FunctionFormat) : Option FunctionFormat × Bool :=
  match v with
  | .obj kvs =>
    let (f, e) := storeFunctionFields kvs (old.getD FunctionFormat.zero)
    (some f, e)
  | .null => (none, false)
  | _ => (some (old.getD FunctionFormat.zero), true)

/-- One entry of a JSON object, stored in the field `fld` of the struct, for
the fields other than `ToolCalls`. -/
def storeField (fld : Bytes) (v : JVal) : toolCallFormat → toolCallFormat × Bool
  | .mk name arguments toolName parameters function toolCalls =>
    if fld = ofString "name" then
      let (x, e) := storeString v name
      (.mk x arguments toolName parameters function toolCalls, e)
    else if fld = ofString "arguments" then
      let (x, e) := storeMap v arguments
      (.mk name x toolName parameters function toolCalls, e)
    else if fld = ofString "tool_name" then
      let (x, e) := storeString v toolName
      (.mk name arguments x parameters function toolCalls, e)
    else if fld = ofString "parameters" then
      let (x, e) := storeMap v parameters
      (.mk name arguments toolName x function toolCalls, e)
    else
      let (x, e) := storeFunction v function
      (.mk name arguments toolName parameters x toolCalls, e)

/-- The struct with the field `ToolCalls` replaced. -/
def toolCallFormat.setToolCalls (x : List toolCallFormat) : toolCallFormat → toolCallFormat
  | .mk name arguments toolName parameters function _ =>
    .mk name arguments toolName parameters function x

mutual
/-- The call `json.Unmarshal(data, &format)` of `parseJSONToolCalls`, where
`data` is the output of `json.Marshal`, given as the value it encodes (an
object is written with its keys sorted): the struct after the call and whether
an error is returned. An object is stored field by field, `null` is ignored. -/
def Unmarshal : JVal → toolCallFormat → toolCallFormat × Bool
  | .obj kvs, f => unmarshalFields kvs f
  | .null, f => (f, false)
  | _, f => (f, true)
/-- The entries of a JSON object, stored one after the other in the fields
their keys select; an entry with an unknown key is skipped. For the field
`ToolCalls`, a slice of structs, the elements of an array are decoded into the
elements the slice already has, and into zero values beyond them; `null` makes
the slice nil. -/
def unmarshalFields : List (Bytes × JVal) → toolCallFormat → toolCallFormat × Bool
  | [], f => (f, false)
  | (key, v) :: rest, f =>
    let (f1, e1) : toolCallFormat × Bool :=
      match lookupField formatFields key with
      | none => (f, false)
      | some fld =>
        if fld = ofString "tool_calls" then
          match v with
          | .arr xs =>
            let (x, e) := unmarshalSlice xs f.ToolCalls
            (f.setToolCalls x, e)
          | .null => (f.setToolCalls [], false)
          | _ => (f, true)
        else storeField fld v f
    let (f2, e2) := unmarshalFields rest f1
    (f2, e1 || e2)
/-- The elements of a JSON array, decoded into the elements of a slice. -/
def unmarshalSlice : List JVal → List toolCallFormat → List toolCallFormat × Bool
  | [], _ => ([], false)
  | x :: xs, old =>
    let (f, e1) := Unmarshal x (old.headD toolCallFormat.zero)
    let (fs, e2) := unmarshalSlice xs old.tail
    (f :: fs, e1 || e2)
end

/-- One entry of a JSON object, stored in the field its key selects: the body
of the loop of `unmarshalFields`, by itself. -/
def unmarshalEntry (key : Bytes) (v : JVal) (f : toolCallFormat) : toolCallFormat × Bool :=
  match lookupField formatFields key with
  | none => (f, false)
  | some fld =>
    if fld = ofString "tool_calls" then
      match v with
      | .arr xs =>
        let (x, e) := unmarshalSlice xs f.ToolCalls
        (f.setToolCalls x, e)
      | .null => (f.setToolCalls [], false)
      | _ => (f, true)
    else storeField fld v f

/-- The output of `json.Marshal(obj)` for a `map[string]any`, given as the
value it encodes: `null` for the nil map. -/
def Marshal (obj : GoMap) : JVal :=
  match obj with
  | none => .null
  | some m => .obj m

/-- The closure `toArray` of `parseJSONToolCalls`: the type assertion
`v.([]any)`, `none` for the nil slice. -/
def toArray (v : JVal) : Option (List JVal) :=
  match v with
  | .arr xs => some xs
  | _ => none

/-- The closure `makeToolCall` of `parseJSONToolCalls`; `none` is the result
`(api.ToolCall{}, false)`. -/
def makeToolCall (f : toolCallFormat) : Option ToolCall :=
  if f.Name ≠ [] ∧ f.Arguments ≠ none then
    some { Function := { Name := f.Name, Arguments := f.Arguments } }
  else if f.Name ≠ [] ∧ f.Parameters ≠ none then
    some { Function := { Name := f.Name, Arguments := f.Parameters } }
  else if f.ToolName ≠ [] ∧ f.Parameters ≠ none then
    some { Function := { Name := f.ToolName, Arguments := f.Parameters } }
  else
    match f.Function with
    | none => none
    | some fn =>
      if fn.Name ≠ [] then
        let args := if fn.Arguments = none then fn.Parameters else fn.Arguments
        if args ≠ none then some { Function := { Name := fn.Name, Arguments := args } }
        else none
      else none

/-- The loop `calls = append(calls, call)` over a list of formats. -/
def collectCalls (fs : List toolCallFormat) : List ToolCall :=
  fs.foldl (fun calls f =>
    match makeToolCall f with
    | some call => calls ++ [call]
    | none => calls) []

/-- The body of the loop of the array case of `parseJSONToolCalls`. -/
def arrayItem (calls : List ToolCall) (item : JVal) : List ToolCall :=
  match item with
  | .obj itemMap =>
    match Unmarshal (Marshal (some itemMap)) toolCallFormat.zero with
    | (format, false) =>
      match makeToolCall format with
      | some call => calls ++ [call]
      | none => calls
    | (_, true) => calls
  | _ => calls

/-- The function `parseJSONToolCalls` of tools.go. Its argument is a map, so
the type assertion of `toArray` fails and the array case is never entered. -/
def parseJSONToolCalls (obj : GoMap) : List ToolCall × Bool :=
  let asAny : JVal := match obj with
    | none => .null
    | some m => .obj m
  let fromArray : List ToolCall :=
    match toArray asAny with
    | some arr => arr.foldl arrayItem []
    | none => []
  if fromArray.length > 0 then (fromArray, true)
  else
    match Unmarshal (Marshal obj) toolCallFormat.zero with
    | (_, true) => ([], false)
    | (format, false) =>
      let calls := if format.ToolCalls.length > 0 then collectCalls format.ToolCalls else []
      if calls.length > 0 then (calls, true)
      else
        match makeToolCall format with
        | some call => ([call], true)
        | none => ([], false)

/-- The function `parseJSON` of tools.go. -/
def parseJSON (s : Bytes) : List ToolCall × Bool :=
  let objs := parseObjects s
  let tcs := objs.foldl (fun tcs obj =>
    let (toolCalls, ok) := parseJSONToolCalls obj
    if ok then tcs ++ toolCalls else tcs) []
  if tcs.length > 0 then (tcs, true) else ([], false)

/-! ## The dispatcher (`deriveToolToken`, `ParseToolCalls`) -/

/-- The function `deriveToolToken` of tools.go: the token, the flag
`partial` and the flag `ok`. The last byte `s[len(s)-1]` is read only when
`len(s) > 1`. -/
def deriveToolToken (s : Bytes) (pre : Bytes) : Bytes × Bool × Bool :=
  if lenFields s > 1 then ([], false, false)
  else if pre = [0x5B] ∧ s.length > 1 ∧ s.getLast? = some 0x5D then (s, false, true)
  else if pre = [0x3C] ∧ s.length > 1 ∧ s.getLast? = some 0x3E then (s, false, true)
  else ([], true, true)

/-- What a call of `ParseToolCalls` does: it returns the calls and the flags
`partial` and `ok`, leaving `slot` in the variable that `toolToken` points to
(`none` when `toolToken` is nil), or it panics. -/
inductive Res where
  | ret (calls : List ToolCall) (part : Bool) (ok : Bool) (slot : Option Bytes)
  | panic
  deriving DecidableEq

/-- The outcome of the block `if toolToken == nil || *toolToken == ""` of the
`[` and `<` branches: the function returns at once, or goes on with the token
now in the slot. -/
inductive TokenStep where
  | done (r : Res)
  | go (tok : Bytes)
  deriving DecidableEq

/-- The block `if toolToken == nil || *toolToken == "" { ... }` followed by
the read of `*toolToken`. With a nil `toolToken` and a derived token, the
assignment `*toolToken = toolTok` is a nil dereference. -/
def tokenStep (s : Bytes) (toolToken : Option Bytes) (pre : Bytes) : TokenStep :=
  match toolToken with
  | none =>
    let (_, part, ok) := deriveToolToken s pre
    if !ok then .done (.ret [] false false none)
    else if part then .done (.ret [] true true none)
    else .done .panic
  | some t =>
    if t.length = 0 then
      let (toolTok, part, ok) := deriveToolToken s pre
      if !ok then .done (.ret [] false false (some t))
      else if part then .done (.ret [] true true (some t))
      else .go toolTok
    else .go t

/-- The end of the `[` and `<` branches, after the recursive call has
returned `r`: `if toolCalls, partial, ok := ...; ok { return toolCalls,
partial, true }; return nil, true, true`. -/
def afterRecursion (r : Res) : Res :=
  match r with
  | .ret toolCalls part true slot => .ret toolCalls part true slot
  | .ret _ _ false slot => .ret [] true true slot
  | .panic => .panic

/-- The function `ParseToolCalls` of tools.go, with a bound `fuel` on the
depth of the recursion; `none` means that the bound was reached. -/
def ParseToolCallsFuel : Nat → Bytes → Option Bytes → Option Res
  | 0, _, _ => none
  | fuel + 1, s, toolToken =>
    let s := TrimSpace s
    if s.length = 0 then some (.ret [] false false toolToken)
    else if HasPrefix s [0x5B] then
      if HasPrefix s [0x5B, 0x7B] then
        match parseJSON s with
        | (calls, true) => some (.ret calls false true toolToken)
        | (_, false) => some (.ret [] true true toolToken)
      else
        match parsePythonFunctionCall s with
        | (tc, true) => some (.ret tc false true toolToken)
        | (_, false) =>
          if Count s 0x28 > Count s 0x29 then some (.ret [] true true toolToken)
          else
            match tokenStep s toolToken [0x5B] with
            | .done r => some r
            | .go tok =>
              match sliceFrom s tok.length with
              | none => some .panic
              | some r =>
                (ParseToolCallsFuel fuel (TrimSpace r) (some tok)).map afterRecursion
    else if HasPrefix s [0x7B] || HasPrefix s [0x60, 0x60, 0x60] then
      match parseJSON s with
      | (calls, true) => some (.ret calls false true toolToken)
      | (_, false) => some (.ret [] true true toolToken)
    else if HasPrefix s [0x3C] then
      match tokenStep s toolToken [0x3C] with
      | .done r => some r
      | .go tok =>
        match sliceFrom s tok.length with
        | none => some .panic
        | some r =>
          (ParseToolCallsFuel fuel (TrimSpace r) (some tok)).map afterRecursion
    else if Contains s [0x28] || lenFields s = 1 then
      match parsePythonFunctionCall s with
      | (tc, true) => some (.ret tc false true toolToken)
      | (_, false) => some (.ret [] true true toolToken)
    else some (.ret [] false false toolToken)

/-- The function `ParseToolCalls` of tools.go. Each recursive call is on a
shorter text, so the depth `len(s) + 1` is never reached
(`ParseToolCalls_isSome`). -/
def ParseToolCalls (s : Bytes) (toolToken : Option Bytes) : Option Res :=
  ParseToolCallsFuel (s.length + 1) s toolToken

/-- The outcome `NoMatch`: the triple `(nil, false, false)`. -/
def NoMatch (slot : Option Bytes) : Res := .ret [] false false slot

/-- The outcome `Partial`: the triple `(nil, true, true)`. -/
def Partial (slot : Option Bytes) : Res := .ret [] true true slot

/-- The outcome `Complete`: the triple `(calls, false, true)`. -/
def Complete (calls : List ToolCall) (slot : Option Bytes) : Res := .ret calls false true slot

/-! ## The text of an array of tool-call objects -/

/-- One element of a JSON array of tool-call objects: the text of the element,
the white space between the element and the `,` or `]` after it, and the name
and the arguments the element gives. -/
structure ArrayElem where
  text : Bytes
  space : Bytes
  name : Bytes
  arguments : List (Bytes × JVal)

/-- The map that an element `{"name": n, "arguments": {...}}` decodes to. -/
def ArrayElem.object (x : ArrayElem) : List (Bytes × JVal) :=
  [(ofString "arguments", .obj x.arguments), (ofString "name", .str x.name)]

/-- The ToolCall that carries the name and the arguments of an element. -/
def ArrayElem.call (x : ArrayElem) : ToolCall :=
  { Function := { Name := x.name, Arguments := some x.arguments } }

/-- The text of a JSON array after its `[`: the elements, with `,` between
them and `]` after the last one. -/
def arrayText : List ArrayElem → Bytes
  | [] => []
  | x :: rest =>
    x.text ++ (x.space ++ (if rest.isEmpty then 0x5D else 0x2C) :: arrayText rest)

/-! ## Texts of wrapped objects -/

/-- The text `<toolcall>`. -/
def toolcallOpen : Bytes := ofString "<toolcall>"

/-- The text `</toolcall>`. -/
def toolcallClose : Bytes := ofString "</toolcall>"

/-- One wrapped object: the text of the object, the white space between the
object and `</toolcall>`, the white space after `</toolcall>`, and the map the
object decodes to. -/
structure WrappedElem where
  text : Bytes
  inner : Bytes
  outer : Bytes
  object : List (Bytes × JVal)

/-- The text in which each object is wrapped as `<toolcall>`…`</toolcall>`. -/
def wrappedText : List WrappedElem → Bytes
  | [] => []
  | x :: rest =>
    toolcallOpen ++ (x.text ++ (x.inner ++ (toolcallClose ++ (x.outer ++ wrappedText rest))))

/-! ## The shapes of a tool call, as the specification lists them -/

/-- Following the specification: the shape `name` + `arguments`. -/
def specNameArguments (f : toolCallFormat) : Option ToolCall :=
  if f.Name ≠ [] ∧ f.Arguments ≠ none then
    some { Function := { Name := f.Name, Arguments := f.Arguments } }
  else none

/-- Following the specification: the shape `name` + `parameters`, the
parameters treated as arguments. -/
def specNameParameters (f : toolCallFormat) : Option ToolCall :=
  if f.Name ≠ [] ∧ f.Parameters ≠ none then
    some { Function := { Name := f.Name, Arguments := f.Parameters } }
  else none

/-- Following the specification: the shape `tool_name` + `parameters`. -/
def specToolNameParameters (f : toolCallFormat) : Option ToolCall :=
  if f.ToolName ≠ [] ∧ f.Parameters ≠ none then
    some { Function := { Name := f.ToolName, Arguments := f.Parameters } }
  else none

/-- Following the specification: the shape of a nested `function` object that
carries `name` and either `arguments` or `parameters`. -/
def specFunction (f : toolCallFormat) : Option ToolCall :=
  match f.Function with
  | none => none
  | some fn =>
    if fn.Name = [] then none
    else
      match fn.Arguments, fn.Parameters with
      | some a, _ => some { Function := { Name := fn.Name, Arguments := some a } }
      | none, some p => some { Function := { Name := fn.Name, Arguments := some p } }
      | none, none => none

/-- The first attempt that succeeds, in the order of the list. -/
def firstShape {α : Type} : List (Option α) → Option α
  | [] => none
  | some x :: _ => some x
  | none :: rest => firstShape rest

/-- Following the specification: the single-object shapes 2 to 5, in their
order of priority. -/
def specSingleShape (f : toolCallFormat) : Option ToolCall :=
  firstShape [specNameArguments f, specNameParameters f, specToolNameParameters f,
    specFunction f]

/-- Following the specification: the shape of a `tool_calls` array, each
element taken by the single-object shapes, at least one success required. -/
def specToolCalls (f : toolCallFormat) : Option (List ToolCall) :=
  let calls := f.ToolCalls.filterMap specSingleShape
  if calls.length > 0 then some calls else none

/-- Following the specification: the order of priority as the specification
states it, with the `tool_calls` array last. -/
def specPriority (f : toolCallFormat) : Option (List ToolCall) :=
  firstShape [(specNameArguments f).map (fun c => [c]),
    (specNameParameters f).map (fun c => [c]),
    (specToolNameParameters f).map (fun c => [c]),
    (specFunction f).map (fun c => [c]),
    specToolCalls f]

/-- The same shapes with the `tool_calls` array tried first. -/
def toolCallsFirstPriority (f : toolCallFormat) : Option (List ToolCall) :=
  firstShape [specToolCalls f,
    (specNameArguments f).map (fun c => [c]),
    (specNameParameters f).map (fun c => [c]),
    (specToolNameParameters f).map (fun c => [c]),
    (specFunction f).map (fun c => [c])]

/-- A decoded object that has no other keys than `name` and `arguments`: each
of the two entries is there or not. -/
def nameArgumentsObject (name arguments : Option JVal) : List (Bytes × JVal) :=
  (match arguments with
    | some v => [(ofString "arguments", v)]
    | none => []) ++
  (match name with
    | some v => [(ofString "name", v)]
    | none => [])

/-- Following the specification: the reference definition of the token
deriver for the opening byte `opener`, with the matching closing byte. -/
def deriveToolTokenSpec (s : Bytes) (opener : Nat) : Bytes × Bool × Bool :=
  let closer := if opener = 0x5B then 0x5D else 0x3E
  if lenFields s > 1 then ([], false, false)
  else if s.length > 1 ∧ s.getLast? = some closer then (s, false, true)
  else ([], true, true)

/-! ## The token of the template (`Model.TemplateToolToken`, model.go) -/

/-- The loop of the function `checkValid` of `encoding/json` and the method
`scanner.eof` after it: whether the bytes are one JSON value, white space
around it allowed. An error leaves the scanner at the step `stateError`, and a
complete top-level value at the step `stateEndTop`. -/
def checkValidLoop : scanner → Bytes → Bool
  | s, [] =>
    if s.step = .stateError then false
    else if s.step = .stateEndTop then true
    else decide ((s.next 0x20).1.step = .stateEndTop)
  | s, c :: rest =>
    match s.next c with
    | (_, .scanError) => false
    | (s', _) => checkValidLoop s' rest

/-- The function `checkValid` of `encoding/json`. -/
def checkValid (data : Bytes) : Bool := checkValidLoop scanner.reset data

/-- The call `json.Unmarshal(data, &jsonTest)` for `var jsonTest any`: whether
it returns an error. The text must be valid JSON, and a number out of the
range of `float64` is an error too. -/
def unmarshalAnyFails (data : Bytes) : Bool :=
  if !checkValid data then true
  else
    match valueInterface (2 * data.length + 2) data none with
    | some (_, _, none) => false
    | _ => true

/-- The slice expression `s[i:j]` for `i ≤ j ≤ len(s)`. -/
def slice (s : Bytes) (i j : Nat) : Bytes := (s.drop i).take (j - i)

/-- The method `Model.TemplateToolToken` of model.go, from the text the
sub-template for `ToolCalls` renders on the test call: `rendered` is
`b.String()`, and `none` when the template has no such sub-template or its
execution fails. The results are the output, the token, and the flag. -/
def TemplateToolToken (rendered : Option Bytes) : Bytes × Bytes × Bool :=
  match rendered with
  | none => ([], [], false)
  | some b =>
    let output := TrimSpace b
    if Contains output [0x3C] then
      match Index output [0x3C], Index output [0x3E] with
      | some start, some end' =>
        if end' > start then (output, slice output start (end' + 1), true)
        else ([], [], false)
      | _, _ => ([], [], false)
    else if Contains output [0x5B] then
      match Index output [0x5B], Index output [0x5D] with
      | some start, some end' =>
        if end' > start then
          let token := slice output start (end' + 1)
          if lenFields token > 1 then ([], [], false)
          else if unmarshalAnyFails token then (output, token, true)
          else ([], [], false)
        else ([], [], false)
      | _, _ => ([], [], false)
    else ([], [], false)

/-! ## One call of the dispatcher, up to its recursive call -/

/-- What the body of `ParseToolCalls` comes to: a return statement or a panic
with no recursive call made, or the recursive call
`ParseToolCalls(s, toolToken)` on the text `s` with the token `tok` in the
slot. -/
inductive CallStep where
  | result (r : Res)
  | recurse (s : Bytes) (tok : Bytes)
  deriving DecidableEq

/-- The body of `ParseToolCalls` of tools.go up to the recursive call, which is
reached at one place in the `[` branch and at one place in the `<` branch,
with the text `strings.TrimSpace(s[len(*toolToken):])`. -/
def callStep (s : Bytes) (toolToken : Option Bytes) : CallStep :=
  let s := TrimSpace s
  if s.length = 0 then .result (.ret [] false false toolToken)
  else if HasPrefix s [0x5B] then
    if HasPrefix s [0x5B, 0x7B] then
      match parseJSON s with
      | (calls, true) => .result (.ret calls false true toolToken)
      | (_, false) => .result (.ret [] true true toolToken)
    else
      match parsePythonFunctionCall s with
      | (tc, true) => .result (.ret tc false true toolToken)
      | (_, false) =>
        if Count s 0x28 > Count s 0x29 then .result (.ret [] true true toolToken)
        else
          match tokenStep s toolToken [0x5B] with
          | .done r => .result r
          | .go tok =>
            match sliceFrom s tok.length with
            | none => .result .panic
            | some r => .recurse (TrimSpace r) tok
  else if HasPrefix s [0x7B] || HasPrefix s [0x60, 0x60, 0x60] then
    match parseJSON s with
    | (calls, true) => .result (.ret calls false true toolToken)
    | (_, false) => .result (.ret [] true true toolToken)
  else if HasPrefix s [0x3C] then
    match tokenStep s toolToken [0x3C] with
    | .done r => .result r
    | .go tok =>
      match sliceFrom s tok.length with
      | none => .result .panic
      | some r => .recurse (TrimSpace r) tok
  else if Contains s [0x28] || lenFields s = 1 then
    match parsePythonFunctionCall s with
    | (tc, true) => .result (.ret tc false true toolToken)
    | (_, false) => .result (.ret [] true true toolToken)
  else .result (.ret [] false false toolToken)

/-- The number of recursive calls, one inside the other, that a call of
`ParseToolCalls` makes, counted up to the bound `fuel`. -/
def recursionDepth : Nat → Bytes → Option Bytes → Nat
  | 0, _, _ => 0
  | fuel + 1, s, toolToken =>
    match callStep s toolToken with
    | .result _ => 0
    | .recurse s' tok => recursionDepth fuel s' (some tok) + 1

/-! ## The occurrences of a Python call, as the specification words them -/

/-- Following the specification: the text `s` starts with an occurrence
`identifier(args)` that is followed by `r`. The identifier `w` is a run of
letters, digits and `_` that is not empty, and the argument text `a` is the
text up to the first `)`, on one line. -/
def specStartsCall (s w a r : Bytes) : Prop :=
  w ≠ [] ∧ (∀ c ∈ w, isWordByte c = true) ∧ 0x29 ∉ a ∧ 0x0A ∉ a ∧
    s = w ++ 0x28 :: (a ++ 0x29 :: r)

instance (s w a r : Bytes) : Decidable (specStartsCall s w a r) := by
  unfold specStartsCall
  infer_instance

/-- Following the specification: `l` is the sequence of the non-overlapping
occurrences `identifier(args)` of the text, from left to right, each given by
its identifier and its argument text. An occurrence is taken where one starts,
the search goes on after its `)`, and a byte at which no occurrence starts is
stepped over. -/
inductive SpecOccurrences : Bytes → List (Bytes × Bytes) → Prop where
  | done : SpecOccurrences [] []
  | call (s w a r : Bytes) (l : List (Bytes × Bytes)) :
      specStartsCall s w a r → SpecOccurrences r l → SpecOccurrences s ((w, a) :: l)
  | skip (c : Nat) (r : Bytes) (l : List (Bytes × Bytes)) :
      (∀ w a r' : Bytes, ¬ specStartsCall (c :: r) w a r') → SpecOccurrences r l →
      SpecOccurrences (c :: r) l

/-! ## Termination: the fuel is enough -/

theorem trimLeftFuel_length_le (fuel : Nat) (s : Bytes) :
    (trimLeftFuel fuel s).length ≤ s.length := by
  induction fuel generalizing s with
  | zero => simp [trimLeftFuel]
  | succ n ih =>
    cases s with
    | nil => simp [trimLeftFuel]
    | cons c rest =>
      simp only [trimLeftFuel]
      split
      · exact le_trans (ih _) (by simp)
      · exact le_refl _

theorem trimRightFuel_length_le (fuel : Nat) (s : Bytes) :
    (trimRightFuel fuel s).length ≤ s.length := by
  induction fuel generalizing s with
  | zero => simp [trimRightFuel]
  | succ n ih =>
    cases s with
    | nil => simp [trimRightFuel]
    | cons c rest =>
      simp only [trimRightFuel]
      split
      · exact le_trans (ih _) (by simp)
      · exact le_refl _

theorem TrimSpace_length_le (s : Bytes) : (TrimSpace s).length ≤ s.length := by
  unfold TrimSpace
  exact le_trans (trimRightFuel_length_le _ _) (trimLeftFuel_length_le _ _)

theorem deriveToolToken_tok (s pre tok : Bytes) (part ok : Bool)
    (h : deriveToolToken s pre = (tok, part, ok)) (hp : part = false) (hok : ok = true) :
    tok = s ∧ 1 < s.length := by
  unfold deriveToolToken at h
  split at h
  · simp only [Prod.mk.injEq] at h; rw [← h.2.2] at hok; simp at hok
  · split at h
    · rename_i h1
      simp only [Prod.mk.injEq] at h
      exact ⟨h.1.symm, h1.2.1⟩
    · split at h
      · rename_i h1
        simp only [Prod.mk.injEq] at h
        exact ⟨h.1.symm, h1.2.1⟩
      · simp only [Prod.mk.injEq] at h; rw [← h.2.1] at hp; simp at hp

theorem tokenStep_go (s : Bytes) (toolToken : Option Bytes) (pre tok : Bytes)
    (h : tokenStep s toolToken pre = .go tok) :
    (toolToken = some tok ∧ tok ≠ []) ∨
      (toolToken = some [] ∧ tok = s ∧ 1 < s.length) := by
  unfold tokenStep at h
  cases toolToken with
  | none =>
    simp only at h
    split at h <;> try split at h
    all_goals simp at h
  | some t =>
    simp only at h
    split at h
    · rename_i ht
      have ht' : t = [] := List.length_eq_zero.mp ht
      generalize hd : deriveToolToken s pre = d at h
      obtain ⟨toolTok, part, ok⟩ := d
      simp only at h
      split at h
      · simp at h
      · split at h
        · simp at h
        · rename_i hok hpart
          simp only [TokenStep.go.injEq] at h
          have := deriveToolToken_tok s pre toolTok part ok hd (by simpa using hpart) (by simpa using hok)
          right
          exact ⟨by rw [ht'], by rw [← h]; exact this.1, this.2⟩
    · rename_i ht
      simp only [TokenStep.go.injEq] at h
      left
      exact ⟨by rw [h], by rw [← h]; intro h0; exact ht (by rw [h0]; rfl)⟩

theorem tokenStep_go_pos (s : Bytes) (toolToken : Option Bytes) (pre tok : Bytes)
    (h : tokenStep s toolToken pre = .go tok) : 0 < tok.length := by
  rcases tokenStep_go s toolToken pre tok h with h1 | h1
  · exact List.length_pos.mpr h1.2
  · rw [h1.2.1]; omega

theorem sliceFrom_length (s r : Bytes) (n : Nat) (h : sliceFrom s n = some r) :
    r.length = s.length - n := by
  unfold sliceFrom at h
  split at h
  · simp only [Option.some.injEq] at h; rw [← h]; simp
  · simp at h

theorem ParseToolCallsFuel_isSome (fuel : Nat) :
    ∀ (s : Bytes) (toolToken : Option Bytes), s.length < fuel →
      ∃ r, ParseToolCallsFuel fuel s toolToken = some r := by
  induction fuel with
  | zero => intro s _ h; omega
  | succ n ih =>
    intro s toolToken hlen
    have hrec : ∀ (pre tok r : Bytes), tokenStep (TrimSpace s) toolToken pre = .go tok →
        sliceFrom (TrimSpace s) tok.length = some r →
        ∃ x, (ParseToolCallsFuel n (TrimSpace r) (some tok)).map afterRecursion = some x := by
      intro pre tok r hgo hsl
      have h1 := tokenStep_go_pos _ _ _ _ hgo
      have h2 := sliceFrom_length _ _ _ hsl
      have h3 := TrimSpace_length_le s
      have h4 := TrimSpace_length_le r
      have h5 : (TrimSpace s).length ≠ 0 ∨ (TrimSpace s).length = 0 := by omega
      have hlt : (TrimSpace r).length < n := by
        unfold sliceFrom at hsl
        split at hsl
        · omega
        · simp at hsl
      obtain ⟨x, hx⟩ := ih (TrimSpace r) (some tok) hlt
      exact ⟨afterRecursion x, by rw [hx]; rfl⟩
    simp only [ParseToolCallsFuel]
    split
    · exact ⟨_, rfl⟩
    · split
      · split
        · split <;> exact ⟨_, rfl⟩
        · split
          · exact ⟨_, rfl⟩
          · split
            · exact ⟨_, rfl⟩
            · split
              · exact ⟨_, rfl⟩
              · split
                · exact ⟨_, rfl⟩
                · exact hrec _ _ _ (by assumption) (by assumption)
      · split
        · split <;> exact ⟨_, rfl⟩
        · split
          · split
            · exact ⟨_, rfl⟩
            · split
              · exact ⟨_, rfl⟩
              · exact hrec _ _ _ (by assumption) (by assumption)
          · split
            · split <;> exact ⟨_, rfl⟩
            · exact ⟨_, rfl⟩

theorem ParseToolCalls_isSome (s : Bytes) (toolToken : Option Bytes) :
    ∃ r, ParseToolCalls s toolToken = some r :=
  ParseToolCallsFuel_isSome (s.length + 1) s toolToken (Nat.lt_succ_self _)

theorem readValueLoop_syntaxError_lt (buf : Bytes) :
    ∀ (data : Bytes) (s : scanner) (scanp off : Nat),
      readValueLoop buf s data scanp = .syntaxError off → scanp < off := by
  intro data
  induction data with
  | nil =>
    intro s scanp off h
    simp only [readValueLoop] at h
    split at h
    · simp at h
    · split at h <;> simp at h
  | cons c rest ih =>
    intro s scanp off h
    simp only [readValueLoop] at h
    split at h
    · simp at h
    · split at h
      · simp at h
      · exact Nat.lt_of_succ_lt (ih _ _ _ h)
    · split at h
      · simp at h
      · exact Nat.lt_of_succ_lt (ih _ _ _ h)
    · simp only [ReadResult.syntaxError.injEq] at h; omega
    · exact Nat.lt_of_succ_lt (ih _ _ _ h)

set_option linter.unusedTactic false in
set_option linter.unreachableTactic false in
set_option linter.unnecessarySeqFocus false in
theorem unmarshalMap_pos (data : Bytes) :
    (∀ obj n, unmarshalMap data = .ok obj n → 0 < n) ∧
    (∀ off, unmarshalMap data = .unmarshalTypeError off → 0 < off) ∧
    (∀ off, unmarshalMap data ≠ .syntaxError off) ∧
    unmarshalMap data ≠ .eof ∧ unmarshalMap data ≠ .unexpectedEOF := by
  have hpos : data.dropWhile isJSONSpace ≠ [] → 0 < data.length := by
    intro h
    cases data with
    | nil => simp at h
    | cons c r => simp
  unfold unmarshalMap
  simp only
  split
  · simp
  · rename_i c r hbody
    have hd := hpos (by rw [hbody]; simp)
    split
    · split
      · refine ⟨?_, ?_, ?_, ?_, ?_⟩ <;> intros <;> simp_all <;> omega
      · refine ⟨?_, ?_, ?_, ?_, ?_⟩ <;> intros <;> simp_all <;> omega
      · simp
    · split
      · refine ⟨?_, ?_, ?_, ?_, ?_⟩ <;> intros <;> simp_all <;> omega
      · split
        · refine ⟨?_, ?_, ?_, ?_, ?_⟩ <;> intros <;> simp_all <;> omega
        · refine ⟨?_, ?_, ?_, ?_, ?_⟩ <;> intros <;> simp_all <;> omega

theorem Decode_pos (s : Bytes) :
    (∀ obj n, Decode s = .ok obj n → 0 < n) ∧
    (∀ off, Decode s = .unmarshalTypeError off → 0 < off) ∧
    (∀ off, Decode s = .syntaxError off → 0 < off) := by
  unfold Decode
  split
  · simp
  · simp
  · rename_i off hr
    refine ⟨by simp, by simp, ?_⟩
    intro off' h
    simp only [DecodeResult.syntaxError.injEq] at h
    have := readValueLoop_syntaxError_lt s s scanner.reset 0 off hr
    omega
  · have h := unmarshalMap_pos (s.take ‹Nat›)
    exact ⟨h.1, h.2.1, fun off hh => absurd hh (h.2.2.1 off)⟩

theorem parseObjectsFuel_isSome (fuel : Nat) :
    ∀ (rest : Bytes) (objs : List GoMap), rest.length ≤ fuel →
      ∃ r, parseObjectsFuel fuel rest objs = some r := by
  induction fuel with
  | zero =>
    intro rest objs h
    have : rest.length = 0 := by omega
    exact ⟨objs, by simp [parseObjectsFuel, this]⟩
  | succ n ih =>
    intro rest objs h
    simp only [parseObjectsFuel]
    split
    · exact ⟨_, rfl⟩
    · rename_i hne
      have hd := Decode_pos rest
      split
      · exact ⟨_, rfl⟩
      · exact ⟨_, rfl⟩
      · rename_i off hdec
        have := hd.2.2 off hdec
        exact ih _ _ (by simp only [List.length_drop]; omega)
      · rename_i off hdec
        have := hd.2.1 off hdec
        exact ih _ _ (by simp only [List.length_drop]; omega)
      · exact ⟨_, rfl⟩
      · rename_i obj k hdec
        have := hd.1 obj k hdec
        exact ih _ _ (by simp only [List.length_drop]; omega)

theorem parseObjects_eq (s : Bytes) :
    parseObjectsFuel s.length s [] = some (parseObjects s) := by
  obtain ⟨r, hr⟩ := parseObjectsFuel_isSome s.length s [] (le_refl _)
  simp [parseObjects, hr]

/-! ## The dispatcher and the slot -/

theorem tokenStep_some_ne (s t pre : Bytes) (ht : t ≠ []) :
    tokenStep s (some t) pre = .go t := by
  have : t.length ≠ 0 := fun h => ht (List.length_eq_zero.mp h)
  simp [tokenStep, this]

theorem tokenStep_done_slot (s : Bytes) (toolToken : Option Bytes) (pre : Bytes)
    (calls : List ToolCall) (part ok : Bool) (slot : Option Bytes)
    (h : tokenStep s toolToken pre = .done (.ret calls part ok slot)) : slot = toolToken := by
  unfold tokenStep at h
  cases toolToken with
  | none =>
    simp only at h
    split at h
    · simp only [TokenStep.done.injEq, Res.ret.injEq] at h; exact h.2.2.2.symm
    · split at h
      · simp only [TokenStep.done.injEq, Res.ret.injEq] at h; exact h.2.2.2.symm
      · simp at h
  | some t =>
    simp only at h
    split at h
    · split at h
      · simp only [TokenStep.done.injEq, Res.ret.injEq] at h; exact h.2.2.2.symm
      · split at h
        · simp only [TokenStep.done.injEq, Res.ret.injEq] at h; exact h.2.2.2.symm
        · simp at h
    · simp at h

theorem afterRecursion_ok (x : Res) (calls : List ToolCall) (part ok : Bool)
    (slot : Option Bytes) (h : afterRecursion x = .ret calls part ok slot) :
    ok = true ∧ ∃ calls' part' ok', x = .ret calls' part' ok' slot := by
  unfold afterRecursion at h
  split at h
  · simp only [Res.ret.injEq] at h
    exact ⟨h.2.2.1.symm, _, _, _, by rw [h.2.2.2]⟩
  · simp only [Res.ret.injEq] at h
    exact ⟨h.2.2.1.symm, _, _, _, by rw [h.2.2.2]⟩
  · simp at h

/-- What one call does to the slot: a call that returns leaves the slot as it
was, unless the slot held the empty string. -/
theorem ParseToolCallsFuel_slot (fuel : Nat) :
    ∀ (s : Bytes) (toolToken : Option Bytes) (calls : List ToolCall) (part ok : Bool)
      (slot : Option Bytes),
      ParseToolCallsFuel fuel s toolToken = some (.ret calls part ok slot) →
      slot = toolToken ∨ toolToken = some [] := by
  induction fuel with
  | zero => intro s toolToken calls part ok slot h; simp [ParseToolCallsFuel] at h
  | succ n ih =>
    intro s toolToken calls part ok slot h
    have hrec : ∀ (pre tok r : Bytes), tokenStep (TrimSpace s) toolToken pre = .go tok →
        (ParseToolCallsFuel n (TrimSpace r) (some tok)).map afterRecursion
          = some (.ret calls part ok slot) →
        slot = toolToken ∨ toolToken = some [] := by
      intro pre tok r hgo hmap
      cases hx : ParseToolCallsFuel n (TrimSpace r) (some tok) with
      | none => rw [hx] at hmap; simp at hmap
      | some x =>
        rw [hx] at hmap
        simp only [Option.map_some', Option.some.injEq] at hmap
        obtain ⟨_, calls', part', ok', hx'⟩ := afterRecursion_ok x calls part ok slot hmap
        rw [hx'] at hx
        rcases tokenStep_go _ _ _ _ hgo with h1 | h1
        · rcases ih _ _ _ _ _ _ hx with h2 | h2
          · left; rw [h2, h1.1]
          · exact absurd (Option.some.inj h2) h1.2
        · right; exact h1.1
    have hdone : ∀ (pre : Bytes) (r : Res), tokenStep (TrimSpace s) toolToken pre = .done r →
        some r = some (Res.ret calls part ok slot) → slot = toolToken ∨ toolToken = some [] := by
      intro pre r hd hr
      simp only [Option.some.injEq] at hr
      rw [hr] at hd
      exact Or.inl (tokenStep_done_slot _ _ _ _ _ _ _ hd)
    simp only [ParseToolCallsFuel] at h
    split at h
    · simp only [Option.some.injEq, Res.ret.injEq] at h; exact Or.inl h.2.2.2.symm
    · split at h
      · split at h
        · split at h <;>
            (simp only [Option.some.injEq, Res.ret.injEq] at h; exact Or.inl h.2.2.2.symm)
        · split at h
          · simp only [Option.some.injEq, Res.ret.injEq] at h; exact Or.inl h.2.2.2.symm
          · split at h
            · simp only [Option.some.injEq, Res.ret.injEq] at h; exact Or.inl h.2.2.2.symm
            · split at h
              · exact hdone _ _ (by assumption) h
              · split at h
                · simp at h
                · exact hrec _ _ _ (by assumption) h
      · split at h
        · split at h <;>
            (simp only [Option.some.injEq, Res.ret.injEq] at h; exact Or.inl h.2.2.2.symm)
        · split at h
          · split at h
            · exact hdone _ _ (by assumption) h
            · split at h
              · simp at h
              · exact hrec _ _ _ (by assumption) h
          · split at h
            · split at h <;>
                (simp only [Option.some.injEq, Res.ret.injEq] at h; exact Or.inl h.2.2.2.symm)
            · simp only [Option.some.injEq, Res.ret.injEq] at h; exact Or.inl h.2.2.2.symm

/-- A call that returns `ok = false` has come to its end without a recursive
call: it has not written the slot, whatever the slot held. -/
theorem ParseToolCallsFuel_notOk_slot (fuel : Nat) (s : Bytes) (toolToken : Option Bytes)
    (calls : List ToolCall) (part : Bool) (slot : Option Bytes)
    (h : ParseToolCallsFuel fuel s toolToken = some (.ret calls part false slot)) :
    slot = toolToken := by
  cases fuel with
  | zero => simp [ParseToolCallsFuel] at h
  | succ n =>
    have hrec : ∀ (o : Option Res), o.map afterRecursion = some (.ret calls part false slot) →
        slot = toolToken := by
      intro o hmap
      cases o with
      | none => simp at hmap
      | some x =>
        simp only [Option.map_some', Option.some.injEq] at hmap
        have := (afterRecursion_ok x calls part false slot hmap).1
        simp at this
    have hdone : ∀ (pre : Bytes) (r : Res), tokenStep (TrimSpace s) toolToken pre = .done r →
        some r = some (Res.ret calls part false slot) → slot = toolToken := by
      intro pre r hd hr
      simp only [Option.some.injEq] at hr
      rw [hr] at hd
      exact tokenStep_done_slot _ _ _ _ _ _ _ hd
    simp only [ParseToolCallsFuel] at h
    split at h
    · simp only [Option.some.injEq, Res.ret.injEq] at h; exact h.2.2.2.symm
    · split at h
      · split at h
        · split at h <;>
            (simp only [Option.some.injEq, Res.ret.injEq] at h; exact h.2.2.2.symm)
        · split at h
          · simp only [Option.some.injEq, Res.ret.injEq] at h; exact h.2.2.2.symm
          · split at h
            · simp only [Option.some.injEq, Res.ret.injEq] at h; exact h.2.2.2.symm
            · split at h
              · exact hdone _ _ (by assumption) h
              · split at h
                · simp at h
                · exact hrec _ h
      · split at h
        · split at h <;>
            (simp only [Option.some.injEq, Res.ret.injEq] at h; exact h.2.2.2.symm)
        · split at h
          · split at h
            · exact hdone _ _ (by assumption) h
            · split at h
              · simp at h
              · exact hrec _ h
          · split at h
            · split at h <;>
                (simp only [Option.some.injEq, Res.ret.injEq] at h; exact h.2.2.2.symm)
            · simp only [Option.some.injEq, Res.ret.injEq] at h; exact h.2.2.2.symm

/-! ## Claims about the Python-call parser -/

theorem foldl_pythonStep (found : List (Bytes × Bytes)) (acc : List ToolCall) :
    found.foldl pythonStep acc =
      acc ++ (found.filter (fun m => Contains m.2 [0x3D])).map
        (fun m => ({ Function := { Name := m.1, Arguments := some (keywordArguments m.2) } } :
          ToolCall)) := by
  induction found generalizing acc with
  | nil => simp
  | cons m rest ih =>
    simp only [List.foldl_cons, ih, pythonStep, List.filter_cons]
    split <;> simp

theorem Split_ne_nil (s : Bytes) (sep : Nat) : Split s sep ≠ [] := by
  cases s with
  | nil => simp [Split]
  | cons b rest =>
    simp only [Split]
    split
    · simp
    · split <;> simp

theorem Split_not_mem (v : Bytes) (sep : Nat) (h : sep ∉ v) : Split v sep = [v] := by
  induction v with
  | nil => simp [Split]
  | cons b rest ih =>
    have hb : b ≠ sep := fun e => h (by simp [e])
    have hr : sep ∉ rest := fun e => h (by simp [e])
    simp [Split, hb, ih hr]

theorem Split_append (k v : Bytes) (sep : Nat) (h : sep ∉ k) :
    Split (k ++ sep :: v) sep = k :: Split v sep := by
  induction k with
  | nil => simp [Split]
  | cons b rest ih =>
    have hb : b ≠ sep := fun e => h (by simp [e])
    have hr : sep ∉ rest := fun e => h (by simp [e])
    simp [Split, hb, ih hr]

theorem Split_length (s : Bytes) (sep : Nat) : (Split s sep).length = Count s sep + 1 := by
  induction s with
  | nil => simp [Split, Count]
  | cons b rest ih =>
    simp only [Split, Count] at *
    by_cases hb : b = sep
    · simp [hb, ih]
    · have : (b == sep) = false := by simpa using hb
      simp only [hb, if_false, List.count_cons, this]
      split
      · rename_i h0; exact absurd h0 (Split_ne_nil rest sep)
      · rename_i p ps h0
        rw [h0] at ih
        simpa using ih

/-! ## Objects with a name and arguments -/

theorem unmarshalFields_cons (key : Bytes) (v : JVal) (rest : List (Bytes × JVal))
    (f : toolCallFormat) :
    unmarshalFields ((key, v) :: rest) f =
      ((unmarshalFields rest (unmarshalEntry key v f).1).1,
        (unmarshalEntry key v f).2 || (unmarshalFields rest (unmarshalEntry key v f).1).2) := by
  cases v <;> simp only [unmarshalFields, unmarshalEntry]

theorem unmarshalFields_filter (obj : List (Bytes × JVal)) :
    ∀ f : toolCallFormat,
      unmarshalFields obj f = unmarshalFields (obj.filter (fun e => isFormatKey e.1)) f := by
  induction obj with
  | nil => intro f; rfl
  | cons e rest ih =>
    intro f
    obtain ⟨key, v⟩ := e
    cases hk : lookupField formatFields key with
    | none =>
      have hf : isFormatKey key = false := by simp [isFormatKey, hk]
      have he : unmarshalEntry key v f = (f, false) := by simp only [unmarshalEntry, hk]
      simp only [List.filter_cons, hf, Bool.false_eq_true, if_false]
      rw [unmarshalFields_cons, he, ← ih f]
      simp
    | some fld =>
      have hf : isFormatKey key = true := by simp [isFormatKey, hk]
      simp only [List.filter_cons, hf, if_true]
      rw [unmarshalFields_cons, unmarshalFields_cons, ih]

theorem unmarshalFields_name_arguments (n : Bytes) (a : List (Bytes × JVal)) :
    unmarshalFields [(ofString "arguments", .obj a), (ofString "name", .str n)]
        toolCallFormat.zero
      = (.mk n (some a) [] none none [], false) := by
  have h1 : lookupField formatFields (ofString "arguments") = some (ofString "arguments") := by
    decide
  have h2 : lookupField formatFields (ofString "name") = some (ofString "name") := by decide
  have h3 : ofString "arguments" ≠ ofString "tool_calls" := by decide
  have h4 : ofString "name" ≠ ofString "tool_calls" := by decide
  have h5 : ofString "arguments" ≠ ofString "name" := by decide
  simp only [unmarshalFields, h1, h2, h3, h4, h5, if_false, storeField, toolCallFormat.zero,
    storeMap, storeString, if_true, Bool.or_self]

/-- An object whose recognised entries are a non-empty string `name` and an
object `arguments` is one tool call. -/
theorem parseJSONToolCalls_name_arguments (obj : List (Bytes × JVal)) (n : Bytes)
    (a : List (Bytes × JVal)) (hn : n ≠ [])
    (hobj : obj.filter (fun e => isFormatKey e.1)
      = [(ofString "arguments", .obj a), (ofString "name", .str n)]) :
    parseJSONToolCalls (some obj)
      = ([{ Function := { Name := n, Arguments := some a } }], true) := by
  have hu : Unmarshal (Marshal (some obj)) toolCallFormat.zero
      = (.mk n (some a) [] none none [], false) := by
    simp only [Marshal, Unmarshal]
    rw [unmarshalFields_filter, hobj, unmarshalFields_name_arguments]
  simp only [parseJSONToolCalls, toArray, List.length_nil, gt_iff_lt, lt_self_iff_false,
    if_false, hu, toolCallFormat.ToolCalls, makeToolCall, toolCallFormat.Name,
    toolCallFormat.Arguments]
  simp [hn]

theorem parseObjectsFuel_nil (fuel : Nat) (objs : List GoMap) :
    parseObjectsFuel fuel [] objs = some objs := by
  cases fuel <;> simp [parseObjectsFuel]

theorem parseObjects_single (t : Bytes) (obj : GoMap) (hne : t ≠ [])
    (h : Decode t = .ok obj t.length) : parseObjects t = [obj] := by
  have hlen : t.length ≠ 0 := fun h0 => hne (List.length_eq_zero.mp h0)
  obtain ⟨k, hk⟩ : ∃ k, t.length = k + 1 := ⟨t.length - 1, by omega⟩
  have hf : parseObjectsFuel t.length t [] = some [obj] := by
    rw [hk]
    simp only [parseObjectsFuel, hlen, if_false, h, List.drop_length, List.nil_append]
    exact parseObjectsFuel_nil _ _
  simp [parseObjects, hf]

theorem parseJSON_single (t : Bytes) (obj : GoMap) (calls : List ToolCall)
    (hobjs : parseObjects t = [obj]) (hcalls : parseJSONToolCalls obj = (calls, true))
    (hne : calls ≠ []) : parseJSON t = (calls, true) := by
  have hpos : 0 < calls.length := List.length_pos.mpr hne
  simp [parseJSON, hobjs, hcalls, hpos]

/-! ## The scanner reads a composite value by itself -/

theorem stateEndValue_space (s : scanner) :
    (stateEndValue s 0x20).2 = .scanEnd ↔ s.parseState = [] := by
  obtain ⟨step, stack⟩ := s
  cases stack with
  | nil => simp [stateEndValue, stateEndTop, isJSONSpace]
  | cons ps rest => simp [stateEndValue, isJSONSpace]

theorem stepOpen_error (s : scanner) : stepOpen s.error := by
  simp [stepOpen, scanner.error]

theorem stepOpen_mk (step : ScanStep) (stack : List ParseState) (op : ScanOp)
    (h1 : stack ≠ []) (h2 : step ≠ .stateEndTop) (h3 : op ≠ .scanEnd) :
    stepOpen ({ step := step, parseState := stack }, op) := by
  simp [stepOpen, scanner.isOpen, h1, h2, h3]

theorem stepOpen_push (s : scanner) (p : ParseState) (op : ScanOp)
    (h2 : s.step ≠ .stateEndTop) (h3 : op ≠ .scanEnd) :
    stepOpen (pushParseState s p op) := by
  unfold pushParseState
  simp only
  split
  · exact stepOpen_mk _ _ _ (by simp) h2 h3
  · exact stepOpen_error _

theorem stepOpen_endValue (step : ScanStep) (ps : ParseState) (rest : List ParseState)
    (c : Nat) : stepOpen (stateEndValue { step := step, parseState := ps :: rest } c) := by
  simp only [stateEndValue]
  split
  · exact stepOpen_mk _ _ _ (by simp) (by simp) (by simp)
  · cases ps <;> simp only
    · split
      · exact stepOpen_mk _ _ _ (by simp) (by simp) (by simp)
      · exact stepOpen_error _
    · split
      · exact stepOpen_mk _ _ _ (by simp) (by simp) (by simp)
      · split
        · cases rest <;> simp [stepOpen, popParseState, scanner.isOpen]
        · exact stepOpen_error _
    · split
      · exact stepOpen_mk _ _ _ (by simp) (by simp) (by simp)
      · split
        · cases rest <;> simp [stepOpen, popParseState, scanner.isOpen]
        · exact stepOpen_error _

theorem stepOpen_beginValue (step : ScanStep) (stack : List ParseState) (c : Nat)
    (h1 : stack ≠ []) (h2 : step ≠ .stateEndTop) :
    stepOpen (stateBeginValue { step := step, parseState := stack } c) := by
  simp only [stateBeginValue]
  repeat' split
  all_goals first
    | exact stepOpen_mk _ _ _ h1 h2 (by simp)
    | exact stepOpen_mk _ _ _ h1 (by simp) (by simp)
    | exact stepOpen_push _ _ _ (by simp) (by simp)

theorem stepOpen_expect (step : ScanStep) (stack : List ParseState) (b : Bool)
    (next : ScanStep) (h1 : stack ≠ []) (h2 : next ≠ .stateEndTop) :
    stepOpen (stateExpect { step := step, parseState := stack } b next) := by
  simp only [stateExpect]
  split
  · exact stepOpen_mk _ _ _ h1 h2 (by simp)
  · exact stepOpen_error _

end Server
namespace Server

set_option linter.unusedTactic false in
set_option linter.unreachableTactic false in
theorem next_open (s : scanner) (c : Nat) (h : s.isOpen) : stepOpen (s.next c) := by
  obtain ⟨step, stack⟩ := s
  obtain ⟨hs, ht⟩ := h
  cases stack with
  | nil => exact absurd rfl hs
  | cons ps rest =>
    cases step <;>
      simp only [scanner.next, stateBeginValueOrEmpty, stateBeginStringOrEmpty,
        stateBeginString, stateInString, stateInStringEsc, stateNeg,
        state1, state0, stateDot0, stateE, stateESign, stateE0, List.tail_cons] <;>
      (try exact absurd rfl ht) <;>
      (repeat' split) <;>
      first
        | exact stepOpen_endValue _ _ _ _
        | exact stepOpen_beginValue _ _ _ (List.cons_ne_nil _ _) ht
        | exact stepOpen_expect _ _ _ _ (List.cons_ne_nil _ _) (by decide)
        | exact stepOpen_error _
        | exact stepOpen_mk _ _ _ (List.cons_ne_nil _ _) (by decide) (by decide)
        | simp [stepOpen]

theorem readValueLoop_value_le (buf : Bytes) :
    ∀ (data : Bytes) (s : scanner) (scanp n : Nat),
      readValueLoop buf s data scanp = .value n → n ≤ scanp + data.length := by
  intro data
  induction data with
  | nil =>
    intro s scanp n h
    simp only [readValueLoop] at h
    split at h
    · simp only [ReadResult.value.injEq] at h; simp [h]
    · split at h <;> simp at h
  | cons c rest ih =>
    intro s scanp n h
    simp only [readValueLoop] at h
    simp only [List.length_cons]
    split at h
    · simp only [ReadResult.value.injEq] at h; omega
    · split at h
      · simp only [ReadResult.value.injEq] at h; omega
      · have := ih _ _ _ h; omega
    · split at h
      · simp only [ReadResult.value.injEq] at h; omega
      · have := ih _ _ _ h; omega
    · simp at h
    · have := ih _ _ _ h; omega

/-- Inside an object or an array, the value the scanner finds does not depend
on the text that follows it. -/
theorem readValueLoop_open_append (buf buf' rest : Bytes) :
    ∀ (data : Bytes) (s : scanner) (scanp n : Nat), s.isOpen →
      readValueLoop buf s data scanp = .value n →
      readValueLoop buf' s (data ++ rest) scanp = .value n := by
  intro data
  induction data with
  | nil =>
    intro s scanp n hopen h
    have h1 := (next_open s 0x20 hopen).1
    simp only [readValueLoop, h1, if_false] at h
    split at h <;> simp at h
  | cons c d ih =>
    intro s scanp n hopen h
    have hst := next_open s c hopen
    simp only [List.cons_append, readValueLoop] at h ⊢
    revert h
    revert hst
    generalize s.next c = r
    obtain ⟨s', op⟩ := r
    intro hst h
    unfold stepOpen at hst
    obtain ⟨h1, h2⟩ := hst
    simp only at h1 h2
    have hopen' : op ≠ .scanError → s'.parseState ≠ [] → s'.isOpen := by
      intro he hp
      rcases h2 with h2 | h2 | h2
      · exact absurd h2 he
      · exact h2
      · exact absurd h2.1 hp
    cases op with
    | scanEnd => exact absurd rfl h1
    | scanError => simp at h
    | scanEndObject =>
      simp only at h ⊢
      by_cases hsv : (stateEndValue s' 0x20).2 = .scanEnd
      · simp only [hsv, if_true] at h ⊢; exact h
      · simp only [hsv, if_false] at h ⊢
        exact ih _ _ _ (hopen' (by simp) (fun hp => hsv ((stateEndValue_space s').mpr hp))) h
    | scanEndArray =>
      simp only at h ⊢
      by_cases hsv : (stateEndValue s' 0x20).2 = .scanEnd
      · simp only [hsv, if_true] at h ⊢; exact h
      · simp only [hsv, if_false] at h ⊢
        exact ih _ _ _ (hopen' (by simp) (fun hp => hsv ((stateEndValue_space s').mpr hp))) h
    | _ =>
      simp only at h ⊢
      refine ih _ _ _ (hopen' (by simp) ?_) h
      rcases h2 with h2 | h2 | h2
      · simp at h2
      · exact h2.1
      · simp at h2

theorem next_reset_space (x : Nat) (h : isJSONSpace x = true) :
    scanner.reset.next x = (scanner.reset, .scanSkipSpace) := by
  simp [scanner.next, scanner.reset, stateBeginValue, h]

theorem next_reset_brace :
    scanner.reset.next 0x7B
      = ({ step := .stateBeginStringOrEmpty, parseState := [.parseObjectKey] },
          .scanBeginObject) := by
  decide

theorem next_reset_separator (c : Nat) (hc : c = 0x2C ∨ c = 0x5D) :
    (scanner.reset.next c).2 = .scanError := by
  rcases hc with hc | hc <;> subst hc <;> decide

/-- The value the scanner finds in a text that starts an object does not
depend on the text that follows the object. -/
theorem readValueLoop_object_append (buf buf' body rest : Bytes) :
    ∀ (w : Bytes) (scanp n : Nat), (∀ x ∈ w, isJSONSpace x = true) →
      readValueLoop buf scanner.reset (w ++ 0x7B :: body) scanp = .value n →
      readValueLoop buf' scanner.reset ((w ++ 0x7B :: body) ++ rest) scanp = .value n := by
  intro w
  induction w with
  | nil =>
    intro scanp n _ h
    simp only [List.nil_append, List.cons_append, readValueLoop, next_reset_brace] at h ⊢
    exact readValueLoop_open_append buf buf' rest body _ _ _
      ⟨by simp, by simp⟩ h
  | cons x w ih =>
    intro scanp n hw h
    have hx : isJSONSpace x = true := hw x (by simp)
    simp only [List.cons_append, readValueLoop, next_reset_space x hx] at h ⊢
    exact ih _ _ (fun y hy => hw y (by simp [hy])) h

theorem readValueLoop_separator (buf rest : Bytes) (c : Nat) (hc : c = 0x2C ∨ c = 0x5D) :
    ∀ (w : Bytes) (scanp : Nat), (∀ x ∈ w, isJSONSpace x = true) →
      readValueLoop buf scanner.reset (w ++ c :: rest) scanp
        = .syntaxError (scanp + w.length + 1) := by
  intro w
  induction w with
  | nil =>
    intro scanp _
    have h := next_reset_separator c hc
    simp only [List.nil_append, readValueLoop, List.length_nil, Nat.add_zero]
    revert h
    generalize scanner.reset.next c = r
    obtain ⟨s', op⟩ := r
    intro h
    simp only at h
    subst h
    rfl
  | cons x w ih =>
    intro scanp hw
    have hx : isJSONSpace x = true := hw x (by simp)
    simp only [List.cons_append, readValueLoop, next_reset_space x hx, List.length_cons]
    exact (ih _ (fun y hy => hw y (by simp [hy]))).trans (by congr 1; omega)

/-- White space and then `,` or `]` is a syntax error at that byte. -/
theorem Decode_separator (w rest : Bytes) (c : Nat) (hc : c = 0x2C ∨ c = 0x5D)
    (hw : ∀ x ∈ w, isJSONSpace x = true) :
    Decode (w ++ c :: rest) = .syntaxError (w.length + 1) := by
  simp only [Decode, readValue, readValueLoop_separator _ rest c hc w 0 hw, Nat.zero_add]

theorem unmarshalMap_ok_some (data : Bytes) (m : List (Bytes × JVal)) (k : Nat)
    (h : unmarshalMap data = .ok (some m) k) :
    k = data.length ∧ ∃ body, data.dropWhile isJSONSpace = 0x7B :: body := by
  unfold unmarshalMap at h
  simp only at h
  split at h
  · simp at h
  · rename_i c r hbody
    split at h
    · rename_i hc
      subst hc
      refine ⟨?_, r, hbody⟩
      split at h
      · simp only [DecodeResult.ok.injEq] at h; exact h.2.symm
      · simp at h
      · simp at h
    · split at h
      · simp at h
      · split at h <;> simp at h

theorem dropWhile_decompose (data body : Bytes) (c : Nat)
    (h : data.dropWhile isJSONSpace = c :: body) :
    ∃ w, (∀ x ∈ w, isJSONSpace x = true) ∧ data = w ++ c :: body := by
  refine ⟨data.takeWhile isJSONSpace, ?_, ?_⟩
  · intro x hx
    exact List.mem_takeWhile_imp hx
  · rw [← h, List.takeWhile_append_dropWhile]

/-- A text that decodes, as a whole, to an object decodes to the same object
when more text follows it. -/
theorem Decode_append (e rest : Bytes) (obj : List (Bytes × JVal))
    (h : Decode e = .ok (some obj) e.length) :
    Decode (e ++ rest) = .ok (some obj) e.length := by
  unfold Decode at h
  split at h
  · simp at h
  · simp at h
  · simp at h
  · rename_i n hr
    have hle := readValueLoop_value_le e e scanner.reset 0 n hr
    obtain ⟨hk, body, hbody⟩ := unmarshalMap_ok_some _ _ _ h
    have hn : n = e.length := by
      simp only [List.length_take] at hk
      omega
    subst hn
    rw [List.take_length] at hbody h
    obtain ⟨w, hw, he⟩ := dropWhile_decompose e body _ hbody
    have hr' : readValue (e ++ rest) = .value e.length := by
      unfold readValue at hr ⊢
      have := readValueLoop_object_append e (e ++ rest) body rest w 0 e.length hw
        (by rw [← he]; exact hr)
      rw [← he] at this
      exact this
    simp only [Decode, hr', List.take_left']
    exact h

/-! ## Arrays of tool-call objects -/

theorem parseObjectsFuel_arrayText (items : List ArrayElem) :
    ∀ (fuel : Nat) (objs : List GoMap),
      (∀ x ∈ items, Decode x.text = .ok (some x.object) x.text.length ∧
        ∀ c ∈ x.space, isJSONSpace c = true) →
      (arrayText items).length ≤ fuel →
      parseObjectsFuel fuel (arrayText items) objs
        = some (objs ++ items.map (fun x => some x.object)) := by
  induction items with
  | nil =>
    intro fuel objs _ _
    simp [arrayText, parseObjectsFuel_nil]
  | cons x rest ih =>
    intro fuel objs hitems hfuel
    obtain ⟨hdec, hsp⟩ := hitems x (by simp)
    have hpos := (Decode_pos x.text).1 _ _ hdec
    have hsep : (if rest.isEmpty then 0x5D else 0x2C) = 0x2C ∨
        (if rest.isEmpty then 0x5D else 0x2C) = 0x5D := by
      split <;> simp
    generalize hc : (if rest.isEmpty then 0x5D else 0x2C) = sep at hsep
    simp only [arrayText, hc] at hfuel ⊢
    simp only [List.length_append, List.length_cons] at hfuel
    obtain ⟨g, hg⟩ : ∃ g, fuel = g + 2 := ⟨fuel - 2, by omega⟩
    subst hg
    have h1 := Decode_append x.text (x.space ++ sep :: arrayText rest) x.object hdec
    have h2 := Decode_separator x.space (arrayText rest) sep hsep hsp
    have hne1 : (x.text ++ (x.space ++ sep :: arrayText rest)).length ≠ 0 := by
      simp only [List.length_append, List.length_cons]; omega
    have hne2 : (x.space ++ sep :: arrayText rest).length ≠ 0 := by
      simp only [List.length_append, List.length_cons]; omega
    have hd1 : (x.text ++ (x.space ++ sep :: arrayText rest)).drop x.text.length
        = x.space ++ sep :: arrayText rest := List.drop_left' rfl
    have hd2 : (x.space ++ sep :: arrayText rest).drop (x.space.length + 1)
        = arrayText rest := by
      rw [show x.space ++ sep :: arrayText rest = (x.space ++ [sep]) ++ arrayText rest by simp]
      exact List.drop_left' (by simp)
    rw [parseObjectsFuel]
    simp only [hne1, if_false, h1, hd1]
    rw [parseObjectsFuel]
    simp only [hne2, if_false, h2, hd2]
    rw [ih g _ (fun y hy => hitems y (by simp [hy])) (by omega)]
    simp

theorem parseObjects_array (items : List ArrayElem)
    (hvalid : readValue (0x5B :: arrayText items) = .value (arrayText items).length.succ)
    (hitems : ∀ x ∈ items, Decode x.text = .ok (some x.object) x.text.length ∧
        ∀ c ∈ x.space, isJSONSpace c = true) :
    parseObjects (0x5B :: arrayText items) = items.map (fun x => some x.object) := by
  have hdec : Decode (0x5B :: arrayText items) = .unmarshalTypeError 1 := by
    have ht : (0x5B :: arrayText items).take (arrayText items).length.succ
        = 0x5B :: arrayText items := by
      simp
    simp only [Decode, hvalid, ht]
    simp [unmarshalMap, isJSONSpace]
  have hf : parseObjectsFuel (0x5B :: arrayText items).length (0x5B :: arrayText items) []
      = some (items.map (fun x => some x.object)) := by
    simp only [List.length_cons]
    rw [parseObjectsFuel]
    simp only [List.length_cons, Nat.succ_ne_zero, if_false, hdec, List.drop_succ_cons,
      List.drop_zero]
    rw [parseObjectsFuel_arrayText items _ _ hitems (le_refl _)]
    simp
  unfold parseObjects
  rw [hf]

theorem parseJSONToolCalls_elem (x : ArrayElem) (hn : x.name ≠ []) :
    parseJSONToolCalls (some x.object) = ([x.call], true) := by
  apply parseJSONToolCalls_name_arguments x.object x.name x.arguments hn
  have h1 : isFormatKey (ofString "arguments") = true := by decide
  have h2 : isFormatKey (ofString "name") = true := by decide
  simp [ArrayElem.object, List.filter_cons, h1, h2]

theorem foldl_parseJSON_elems (items : List ArrayElem) (hn : ∀ x ∈ items, x.name ≠ []) :
    ∀ tcs : List ToolCall,
      (items.map (fun x => some x.object)).foldl (fun tcs obj =>
        let (toolCalls, ok) := parseJSONToolCalls obj
        if ok then tcs ++ toolCalls else tcs) tcs
      = tcs ++ items.map ArrayElem.call := by
  induction items with
  | nil => intro tcs; simp
  | cons x rest ih =>
    intro tcs
    simp only [List.map_cons, List.foldl_cons, parseJSONToolCalls_elem x (hn x (by simp)),
      if_true]
    rw [ih (fun y hy => hn y (by simp [hy]))]
    simp

/-! ## Strict prefixes of a JSON array -/

theorem next_reset_bracket :
    scanner.reset.next 0x5B
      = ({ step := .stateBeginValueOrEmpty, parseState := [.parseArrayValue] },
          .scanBeginArray) := by
  decide

/-- Inside an object or an array, a text that is cut before the end of the
value is not a value and has no syntax error: the scanner comes to the end of
the input. -/
theorem readValueLoop_cut (buf buf' q : Bytes) (hq : q ≠ []) :
    ∀ (p : Bytes) (s : scanner) (scanp : Nat), s.isOpen →
      readValueLoop buf s (p ++ q) scanp = .value (scanp + (p ++ q).length) →
      readValueLoop buf' s p scanp = .unexpectedEOF ∨
        readValueLoop buf' s p scanp = .eof := by
  have hqlen : 0 < q.length := List.length_pos.mpr hq
  intro p
  induction p with
  | nil =>
    intro s scanp hopen _
    have h1 := (next_open s 0x20 hopen).1
    simp only [readValueLoop, h1, if_false]
    split
    · exact Or.inl rfl
    · exact Or.inr rfl
  | cons c d ih =>
    intro s scanp hopen h
    have hst := next_open s c hopen
    simp only [List.cons_append, readValueLoop, List.length_cons, List.length_append] at h ⊢
    revert h
    revert hst
    generalize s.next c = r
    obtain ⟨s', op⟩ := r
    intro hst h
    unfold stepOpen at hst
    obtain ⟨h1, h2⟩ := hst
    simp only at h1 h2
    have hopen' : op ≠ .scanError → s'.parseState ≠ [] → s'.isOpen := by
      intro he hp
      rcases h2 with h2 | h2 | h2
      · exact absurd h2 he
      · exact h2
      · exact absurd h2.1 hp
    have hrec : s'.isOpen →
        readValueLoop buf s' (d ++ q) (scanp + 1) = .value (scanp + (d.length + q.length + 1)) →
        readValueLoop buf' s' d (scanp + 1) = .unexpectedEOF ∨
          readValueLoop buf' s' d (scanp + 1) = .eof := by
      intro ho hv
      apply ih s' (scanp + 1) ho
      rw [hv, List.length_append]
      congr 1
      omega
    cases op with
    | scanEnd => exact absurd rfl h1
    | scanError => simp at h
    | scanEndObject =>
      simp only at h ⊢
      by_cases hsv : (stateEndValue s' 0x20).2 = .scanEnd
      · simp only [hsv, if_true, ReadResult.value.injEq] at h; omega
      · simp only [hsv, if_false] at h ⊢
        exact hrec (hopen' (by simp) (fun hp => hsv ((stateEndValue_space s').mpr hp))) h
    | scanEndArray =>
      simp only at h ⊢
      by_cases hsv : (stateEndValue s' 0x20).2 = .scanEnd
      · simp only [hsv, if_true, ReadResult.value.injEq] at h; omega
      · simp only [hsv, if_false] at h ⊢
        exact hrec (hopen' (by simp) (fun hp => hsv ((stateEndValue_space s').mpr hp))) h
    | _ =>
      simp only at h ⊢
      refine hrec (hopen' (by simp) ?_) h
      rcases h2 with h2 | h2 | h2
      · simp at h2
      · exact h2.1
      · simp at h2

/-- A strict prefix of a valid JSON array is not decoded: the decoder comes to
the end of the input. -/
theorem Decode_cut (p q : Bytes) (hq : q ≠ [])
    (hvalid : readValue (0x5B :: (p ++ q)) = .value (0x5B :: (p ++ q)).length) :
    Decode (0x5B :: p) = .unexpectedEOF ∨ Decode (0x5B :: p) = .eof := by
  unfold readValue at hvalid
  simp only [readValueLoop, next_reset_bracket, List.length_cons] at hvalid
  have h := readValueLoop_cut (0x5B :: (p ++ q)) (0x5B :: p) q hq p
    { step := .stateBeginValueOrEmpty, parseState := [.parseArrayValue] } 1
    ⟨by simp, by simp⟩ (by rw [hvalid]; congr 1; omega)
  unfold Decode readValue
  simp only [readValueLoop, next_reset_bracket]
  rcases h with h | h <;> rw [h]
  · exact Or.inl rfl
  · exact Or.inr rfl

theorem parseJSON_cut (p q : Bytes) (hq : q ≠ [])
    (hvalid : readValue (0x5B :: (p ++ q)) = .value (0x5B :: (p ++ q)).length) :
    parseJSON (0x5B :: p) = ([], false) := by
  have hobjs : parseObjects (0x5B :: p) = [] := by
    unfold parseObjects
    simp only [List.length_cons]
    rw [parseObjectsFuel]
    rcases Decode_cut p q hq hvalid with h | h <;> simp [h]
  simp [parseJSON, hobjs]

/-- A text that starts with `[{` and is a strict prefix of a valid JSON array
is Partial, whatever the slot holds. -/
theorem ParseToolCalls_cut (s1 : Bytes) (toolToken : Option Bytes) (p q : Bytes)
    (hq : q ≠ []) (htrim : TrimSpace s1 = 0x5B :: 0x7B :: p)
    (hvalid : readValue (0x5B :: 0x7B :: (p ++ q))
      = .value (0x5B :: 0x7B :: (p ++ q)).length) :
    ParseToolCalls s1 toolToken = some (Partial toolToken) := by
  have hjson := parseJSON_cut (0x7B :: p) q hq hvalid
  simp [ParseToolCalls, ParseToolCallsFuel, htrim, HasPrefix, List.isPrefixOf, hjson, Partial]

end Server
namespace Server

/-- The text `[` by itself: Partial while the slot is nil or empty, and a
panic when the slot holds a token of two bytes or more. -/
theorem ParseToolCalls_bracket (s1 : Bytes) (htrim : TrimSpace s1 = [0x5B]) :
    ParseToolCalls s1 none = some (Partial none) ∧
    ParseToolCalls s1 (some []) = some (Partial (some [])) ∧
    ∀ t : Bytes, 2 ≤ t.length → ParseToolCalls s1 (some t) = some Res.panic := by
  have hpy : parsePythonFunctionCall [0x5B] = ([], false) := by decide
  have hcount : ¬ (Count [0x5B] 0x28 > Count [0x5B] 0x29) := by decide
  have hd : deriveToolToken [0x5B] [0x5B] = ([], true, true) := by decide
  have hp1 : HasPrefix [0x5B] [0x5B] = true := by decide
  have hp2 : HasPrefix [0x5B] [0x5B, 0x7B] = false := by decide
  refine ⟨?_, ?_, ?_⟩
  · simp [ParseToolCalls, ParseToolCallsFuel, htrim, hpy, hcount, hp1, hp2, tokenStep, hd,
      Partial]
  · simp [ParseToolCalls, ParseToolCallsFuel, htrim, hpy, hcount, hp1, hp2, tokenStep, hd,
      Partial]
  · intro t ht
    have hne : t ≠ [] := by intro h; rw [h] at ht; simp at ht
    have hs : sliceFrom [0x5B] t.length = none := by
      simp only [sliceFrom, List.length_singleton]
      rw [if_neg (by omega)]
    simp [ParseToolCalls, ParseToolCallsFuel, htrim, hpy, hcount, hp1, hp2,
      tokenStep_some_ne _ _ _ hne, hs]

/-! ## The loop of `parseObjects`, one turn at a time -/

/-- With enough fuel, the result of the loop does not depend on the fuel. -/
theorem parseObjectsFuel_enough (f : Nat) :
    ∀ (g : Nat) (rest : Bytes) (objs : List GoMap), rest.length ≤ f → rest.length ≤ g →
      parseObjectsFuel f rest objs = parseObjectsFuel g rest objs := by
  induction f with
  | zero =>
    intro g rest objs hf _
    have : rest = [] := List.length_eq_zero.mp (by omega)
    subst this
    rw [parseObjectsFuel_nil, parseObjectsFuel_nil]
  | succ n ih =>
    intro g rest objs hf hg
    by_cases h0 : rest.length = 0
    · have : rest = [] := List.length_eq_zero.mp h0
      subst this
      rw [parseObjectsFuel_nil, parseObjectsFuel_nil]
    · obtain ⟨g', hg'⟩ : ∃ g', g = g' + 1 := ⟨g - 1, by omega⟩
      subst hg'
      have hd := Decode_pos rest
      simp only [parseObjectsFuel, h0, if_false]
      split
      · rfl
      · rfl
      · rename_i off hdec
        have := hd.2.2 off hdec
        exact ih _ _ _ (by simp only [List.length_drop]; omega)
          (by simp only [List.length_drop]; omega)
      · rename_i off hdec
        have := hd.2.1 off hdec
        exact ih _ _ _ (by simp only [List.length_drop]; omega)
          (by simp only [List.length_drop]; omega)
      · rfl
      · rename_i obj k hdec
        have := hd.1 obj k hdec
        exact ih _ _ _ (by simp only [List.length_drop]; omega)
          (by simp only [List.length_drop]; omega)

/-- A turn of the loop on a syntax error: the loop goes on after `offset` bytes. -/
theorem parseObjects_turn_syntaxError (rest : Bytes) (objs : List GoMap) (offset : Nat)
    (h : Decode rest = .syntaxError offset) :
    parseObjectsFuel rest.length rest objs
      = parseObjectsFuel (rest.drop offset).length (rest.drop offset) objs := by
  have hpos := (Decode_pos rest).2.2 offset h
  cases rest with
  | nil => simp
  | cons c r =>
    simp only [List.length_cons, parseObjectsFuel, Nat.succ_ne_zero, if_false, h]
    exact parseObjectsFuel_enough _ _ _ _ (by simp only [List.length_drop, List.length_cons]; omega)
      (le_refl _)

/-- A turn of the loop on a decoded object: it is appended and the loop goes
on after the bytes read. -/
theorem parseObjects_turn_ok (rest : Bytes) (objs : List GoMap) (obj : GoMap) (n : Nat)
    (h : Decode rest = .ok obj n) :
    parseObjectsFuel rest.length rest objs
      = parseObjectsFuel (rest.drop n).length (rest.drop n) (objs ++ [obj]) := by
  have hpos := (Decode_pos rest).1 obj n h
  cases rest with
  | nil =>
    exfalso
    have : Decode [] = .eof := by decide
    rw [this] at h
    simp at h
  | cons c r =>
    simp only [List.length_cons, parseObjectsFuel, Nat.succ_ne_zero, if_false, h]
    exact parseObjectsFuel_enough _ _ _ _ (by simp only [List.length_drop, List.length_cons]; omega)
      (le_refl _)

/-- A turn of the loop at the end of the input: the loop returns. -/
theorem parseObjects_turn_eof (rest : Bytes) (objs : List GoMap)
    (h : Decode rest = .eof ∨ Decode rest = .unexpectedEOF) :
    parseObjectsFuel rest.length rest objs = some objs := by
  cases rest with
  | nil => exact parseObjectsFuel_nil _ _
  | cons c r =>
    simp only [List.length_cons, parseObjectsFuel, Nat.succ_ne_zero, if_false]
    rcases h with h | h <;> rw [h]

/-! ## Text that is not JSON, and truncated objects -/

theorem readValueLoop_badStart (buf rest : Bytes) (c : Nat)
    (hc : (scanner.reset.next c).2 = .scanError) :
    ∀ (w : Bytes) (scanp : Nat), (∀ x ∈ w, isJSONSpace x = true) →
      readValueLoop buf scanner.reset (w ++ c :: rest) scanp
        = .syntaxError (scanp + w.length + 1) := by
  intro w
  induction w with
  | nil =>
    intro scanp _
    simp only [List.nil_append, readValueLoop, List.length_nil, Nat.add_zero]
    revert hc
    generalize scanner.reset.next c = r
    obtain ⟨s', op⟩ := r
    intro h
    simp only at h
    subst h
    rfl
  | cons x w ih =>
    intro scanp hw
    have hx : isJSONSpace x = true := hw x (by simp)
    simp only [List.cons_append, readValueLoop, next_reset_space x hx, List.length_cons]
    exact (ih _ (fun y hy => hw y (by simp [hy]))).trans (by congr 1; omega)

/-- White space and then a byte that cannot start a JSON value is a syntax
error at that byte. -/
theorem Decode_badStart (w rest : Bytes) (c : Nat)
    (hc : (scanner.reset.next c).2 = .scanError) (hw : ∀ x ∈ w, isJSONSpace x = true) :
    Decode (w ++ c :: rest) = .syntaxError (w.length + 1) := by
  simp only [Decode, readValue, readValueLoop_badStart _ rest c hc w 0 hw, Nat.zero_add]

/-- The bytes `to` (the start of `toolcall`) are a syntax error at the `o`:
`t` starts the literal `true`. -/
theorem Decode_to (rest : Bytes) : Decode (0x74 :: 0x6F :: rest) = .syntaxError 2 := by
  have h1 : scanner.reset.next 0x74 = ({ step := .stateT, parseState := [] }, .scanBeginLiteral) := by
    decide
  have h2 : (scanner.next { step := .stateT, parseState := [] } 0x6F)
      = ({ step := .stateError, parseState := [] }, .scanError) := by
    decide
  simp only [Decode, readValue, readValueLoop, h1, h2]

theorem readValueLoop_spaces (buf : Bytes) (hbuf : nonSpace buf = false) :
    ∀ (w : Bytes) (scanp : Nat), (∀ x ∈ w, isJSONSpace x = true) →
      readValueLoop buf scanner.reset w scanp = .eof := by
  intro w
  induction w with
  | nil =>
    intro scanp _
    have h : (scanner.reset.next 0x20).2 ≠ .scanEnd := by decide
    simp [readValueLoop, h, hbuf]
  | cons x w ih =>
    intro scanp hw
    have hx : isJSONSpace x = true := hw x (by simp)
    simp only [readValueLoop, next_reset_space x hx]
    exact ih _ (fun y hy => hw y (by simp [hy]))

/-- White space alone is the end of the input. -/
theorem Decode_spaces (w : Bytes) (hw : ∀ x ∈ w, isJSONSpace x = true) : Decode w = .eof := by
  have hbuf : nonSpace w = false := by
    simp only [nonSpace, List.any_eq_false, Bool.not_eq_true', Bool.not_eq_false]
    simpa using hw
  simp only [Decode, readValue, readValueLoop_spaces w hbuf w 0 hw]

/-- A text cut before the end of an object (white space before the object
allowed) is not a value and has no syntax error. -/
theorem readValueLoop_object_cut (buf buf' body q : Bytes) (hq : q ≠ []) :
    ∀ (w p : Bytes) (scanp : Nat), (∀ x ∈ w, isJSONSpace x = true) →
      p ++ q = w ++ 0x7B :: body →
      readValueLoop buf scanner.reset (w ++ 0x7B :: body) scanp
        = .value (scanp + (w ++ 0x7B :: body).length) →
      readValueLoop buf' scanner.reset p scanp = .unexpectedEOF ∨
        readValueLoop buf' scanner.reset p scanp = .eof := by
  have hend : ∀ scanp, readValueLoop buf' scanner.reset [] scanp = .unexpectedEOF ∨
      readValueLoop buf' scanner.reset [] scanp = .eof := by
    intro scanp
    have h : (scanner.reset.next 0x20).2 ≠ .scanEnd := by decide
    simp only [readValueLoop, h, if_false]
    split
    · exact Or.inl rfl
    · exact Or.inr rfl
  intro w
  induction w with
  | nil =>
    intro p scanp _ hp hv
    cases p with
    | nil => exact hend scanp
    | cons c p' =>
      simp only [List.nil_append, List.cons_append, List.cons.injEq] at hp
      obtain ⟨hc, hp'⟩ := hp
      subst hc
      simp only [List.nil_append, readValueLoop, next_reset_brace, List.length_cons] at hv ⊢
      apply readValueLoop_cut buf buf' q hq p' _ (scanp + 1) ⟨by simp, by simp⟩
      rw [hp', hv]
      congr 1
      omega
  | cons x w ih =>
    intro p scanp hw hp hv
    have hx : isJSONSpace x = true := hw x (by simp)
    cases p with
    | nil => exact hend scanp
    | cons c p' =>
      simp only [List.cons_append, List.cons.injEq] at hp
      obtain ⟨hc, hp'⟩ := hp
      subst hc
      simp only [List.cons_append, readValueLoop, next_reset_space c hx, List.length_cons] at hv ⊢
      refine ih p' (scanp + 1) (fun y hy => hw y (by simp [hy])) hp' (hv.trans ?_)
      congr 1
      simp only [List.length_append, List.length_cons]
      omega

/-- A truncated object is not decoded: the decoder comes to the end of the
input. -/
theorem Decode_object_cut (p q e : Bytes) (hq : q ≠ []) (he : p ++ q = e)
    (hobj : ∃ body, e.dropWhile isJSONSpace = 0x7B :: body)
    (hvalid : readValue e = .value e.length) :
    Decode p = .unexpectedEOF ∨ Decode p = .eof := by
  obtain ⟨body, hbody⟩ := hobj
  obtain ⟨w, hw, hwe⟩ := dropWhile_decompose e body _ hbody
  unfold readValue at hvalid
  have h := readValueLoop_object_cut e p body q hq w p 0 hw (by rw [he, hwe])
    (by rw [← hwe, hvalid]; simp)
  unfold Decode readValue
  rcases h with h | h <;> rw [h]
  · exact Or.inl rfl
  · exact Or.inr rfl

/-! ## Wrapped objects -/

theorem parseObjects_skip (w rest : Bytes) (objs : List GoMap) (c : Nat)
    (hc : (scanner.reset.next c).2 = .scanError) (hw : ∀ x ∈ w, isJSONSpace x = true) :
    parseObjectsFuel (w ++ c :: rest).length (w ++ c :: rest) objs
      = parseObjectsFuel rest.length rest objs := by
  rw [parseObjects_turn_syntaxError _ _ _ (Decode_badStart w rest c hc hw)]
  have hd : (w ++ c :: rest).drop (w.length + 1) = rest := by
    rw [show w ++ c :: rest = (w ++ [c]) ++ rest by simp]
    exact List.drop_left' (by simp)
  rw [hd]

theorem parseObjects_skip_byte (rest : Bytes) (objs : List GoMap) (c : Nat)
    (hc : (scanner.reset.next c).2 = .scanError) :
    parseObjectsFuel (c :: rest).length (c :: rest) objs
      = parseObjectsFuel rest.length rest objs :=
  parseObjects_skip [] rest objs c hc (by simp)

theorem parseObjects_skip_to (rest : Bytes) (objs : List GoMap) :
    parseObjectsFuel (0x74 :: 0x6F :: rest).length (0x74 :: 0x6F :: rest) objs
      = parseObjectsFuel rest.length rest objs := by
  rw [parseObjects_turn_syntaxError _ _ _ (Decode_to rest)]
  rfl

/-- The loop of `parseObjects` steps over white space and `<toolcall>`. -/
theorem parseObjects_skip_open (w tail : Bytes) (objs : List GoMap)
    (hw : ∀ x ∈ w, isJSONSpace x = true) :
    parseObjectsFuel (w ++ (toolcallOpen ++ tail)).length (w ++ (toolcallOpen ++ tail)) objs
      = parseObjectsFuel tail.length tail objs := by
  have ho : toolcallOpen = [0x3C, 0x74, 0x6F, 0x6F, 0x6C, 0x63, 0x61, 0x6C, 0x6C, 0x3E] := by
    decide
  rw [ho]
  simp only [List.cons_append, List.nil_append]
  rw [parseObjects_skip w _ objs 0x3C (by decide) hw, parseObjects_skip_to,
    parseObjects_skip_byte _ objs 0x6F (by decide), parseObjects_skip_byte _ objs 0x6C (by decide),
    parseObjects_skip_byte _ objs 0x63 (by decide), parseObjects_skip_byte _ objs 0x61 (by decide),
    parseObjects_skip_byte _ objs 0x6C (by decide), parseObjects_skip_byte _ objs 0x6C (by decide),
    parseObjects_skip_byte _ objs 0x3E (by decide)]

/-- The loop of `parseObjects` steps over white space and `</toolcall>`. -/
theorem parseObjects_skip_close (w tail : Bytes) (objs : List GoMap)
    (hw : ∀ x ∈ w, isJSONSpace x = true) :
    parseObjectsFuel (w ++ (toolcallClose ++ tail)).length (w ++ (toolcallClose ++ tail)) objs
      = parseObjectsFuel tail.length tail objs := by
  have ho : toolcallClose
      = [0x3C, 0x2F, 0x74, 0x6F, 0x6F, 0x6C, 0x63, 0x61, 0x6C, 0x6C, 0x3E] := by
    decide
  rw [ho]
  simp only [List.cons_append, List.nil_append]
  rw [parseObjects_skip w _ objs 0x3C (by decide) hw,
    parseObjects_skip_byte _ objs 0x2F (by decide), parseObjects_skip_to,
    parseObjects_skip_byte _ objs 0x6F (by decide), parseObjects_skip_byte _ objs 0x6C (by decide),
    parseObjects_skip_byte _ objs 0x63 (by decide), parseObjects_skip_byte _ objs 0x61 (by decide),
    parseObjects_skip_byte _ objs 0x6C (by decide), parseObjects_skip_byte _ objs 0x6C (by decide),
    parseObjects_skip_byte _ objs 0x3E (by decide)]

theorem parseObjects_wrappedText (items : List WrappedElem) :
    ∀ (w : Bytes) (objs : List GoMap), (∀ x ∈ w, isJSONSpace x = true) →
      (∀ x ∈ items, Decode x.text = .ok (some x.object) x.text.length ∧
        (∀ c ∈ x.inner, isJSONSpace c = true) ∧ (∀ c ∈ x.outer, isJSONSpace c = true)) →
      parseObjectsFuel (w ++ wrappedText items).length (w ++ wrappedText items) objs
        = some (objs ++ items.map (fun x => some x.object)) := by
  induction items with
  | nil =>
    intro w objs hw _
    simp only [wrappedText, List.append_nil, List.map_nil]
    exact parseObjects_turn_eof w objs (Or.inl (Decode_spaces w hw))
  | cons x rest ih =>
    intro w objs hw hitems
    obtain ⟨hdec, hin, hout⟩ := hitems x (by simp)
    simp only [wrappedText]
    rw [parseObjects_skip_open w _ objs hw,
      parseObjects_turn_ok _ objs _ _ (Decode_append x.text _ x.object hdec),
      List.drop_left' rfl, parseObjects_skip_close x.inner _ _ hin,
      ih x.outer _ hout (fun y hy => hitems y (by simp [hy]))]
    simp

/-! ## The results of the dispatcher, by cases -/

theorem tokenStep_done_cases (s : Bytes) (toolToken : Option Bytes) (pre : Bytes) (r : Res)
    (h : tokenStep s toolToken pre = .done r) :
    r = .ret [] false false toolToken ∨ r = .ret [] true true toolToken ∨ r = .panic := by
  unfold tokenStep at h
  cases toolToken with
  | none =>
    simp only at h
    split at h
    · simp only [TokenStep.done.injEq] at h; exact Or.inl h.symm
    · split at h
      · simp only [TokenStep.done.injEq] at h; exact Or.inr (Or.inl h.symm)
      · simp only [TokenStep.done.injEq] at h; exact Or.inr (Or.inr h.symm)
  | some t =>
    simp only at h
    split at h
    · split at h
      · simp only [TokenStep.done.injEq] at h; exact Or.inl h.symm
      · split at h
        · simp only [TokenStep.done.injEq] at h; exact Or.inr (Or.inl h.symm)
        · simp at h
    · simp at h

/-- Every result of `ParseToolCalls` has a property that holds of the results
of its return statements and is kept by the end of the `[` and `<` branches. -/
theorem ParseToolCallsFuel_cases (P : Res → Prop)
    (hNoMatch : ∀ slot, P (.ret [] false false slot))
    (hPartial : ∀ slot, P (.ret [] true true slot))
    (hJSON : ∀ s calls slot, parseJSON s = (calls, true) → P (.ret calls false true slot))
    (hPython : ∀ s tc slot, parsePythonFunctionCall s = (tc, true) →
      P (.ret tc false true slot))
    (hPanic : P .panic)
    (hRec : ∀ r, P r → P (afterRecursion r)) (fuel : Nat) :
    ∀ (s : Bytes) (toolToken : Option Bytes) (r : Res),
      ParseToolCallsFuel fuel s toolToken = some r → P r := by
  induction fuel with
  | zero => intro s toolToken r h; simp [ParseToolCallsFuel] at h
  | succ n ih =>
    intro s toolToken r h
    have hrec : ∀ (t : Bytes) (tok : Bytes),
        (ParseToolCallsFuel n t (some tok)).map afterRecursion = some r → P r := by
      intro t tok hmap
      cases hx : ParseToolCallsFuel n t (some tok) with
      | none => rw [hx] at hmap; simp at hmap
      | some x =>
        rw [hx] at hmap
        simp only [Option.map_some', Option.some.injEq] at hmap
        rw [← hmap]
        exact hRec x (ih _ _ _ hx)
    have hdone : ∀ (pre : Bytes) (x : Res), tokenStep (TrimSpace s) toolToken pre = .done x →
        some x = some r → P r := by
      intro pre x hd hr
      simp only [Option.some.injEq] at hr
      subst hr
      rcases tokenStep_done_cases _ _ _ _ hd with h1 | h1 | h1 <;> rw [h1]
      · exact hNoMatch _
      · exact hPartial _
      · exact hPanic
    simp only [ParseToolCallsFuel] at h
    split at h
    · simp only [Option.some.injEq] at h; rw [← h]; exact hNoMatch _
    · split at h
      · split at h
        · split at h
          · simp only [Option.some.injEq] at h; rw [← h]; exact hJSON _ _ _ (by assumption)
          · simp only [Option.some.injEq] at h; rw [← h]; exact hPartial _
        · split at h
          · simp only [Option.some.injEq] at h; rw [← h]; exact hPython _ _ _ (by assumption)
          · split at h
            · simp only [Option.some.injEq] at h; rw [← h]; exact hPartial _
            · split at h
              · exact hdone _ _ (by assumption) h
              · split at h
                · simp only [Option.some.injEq] at h; rw [← h]; exact hPanic
                · exact hrec _ _ h
      · split at h
        · split at h
          · simp only [Option.some.injEq] at h; rw [← h]; exact hJSON _ _ _ (by assumption)
          · simp only [Option.some.injEq] at h; rw [← h]; exact hPartial _
        · split at h
          · split at h
            · exact hdone _ _ (by assumption) h
            · split at h
              · simp only [Option.some.injEq] at h; rw [← h]; exact hPanic
              · exact hrec _ _ h
          · split at h
            · split at h
              · simp only [Option.some.injEq] at h; rw [← h]
                exact hPython _ _ _ (by assumption)
              · simp only [Option.some.injEq] at h; rw [← h]; exact hPartial _
            · simp only [Option.some.injEq] at h; rw [← h]; exact hNoMatch _

theorem parseJSON_ok_ne_nil (s : Bytes) (calls : List ToolCall)
    (h : parseJSON s = (calls, true)) : calls ≠ [] := by
  unfold parseJSON at h
  simp only at h
  split at h
  · rename_i hpos
    simp only [Prod.mk.injEq, and_true] at h
    rw [← h]
    exact List.length_pos.mp hpos
  · simp at h

theorem parsePythonFunctionCall_ok_ne_nil (s : Bytes) (tc : List ToolCall)
    (h : parsePythonFunctionCall s = (tc, true)) : tc ≠ [] := by
  unfold parsePythonFunctionCall at h
  simp only at h
  split at h
  · simp at h
  · split at h
    · rename_i hpos
      simp only [Prod.mk.injEq, and_true] at h
      rw [← h]
      exact List.length_pos.mp hpos
    · simp at h

/-! ## The names of the calls -/

theorem makeToolCall_name (f : toolCallFormat) (c : ToolCall) (h : makeToolCall f = some c) :
    c.Function.Name ≠ [] := by
  unfold makeToolCall at h
  split at h
  · rename_i h1
    simp only [Option.some.injEq] at h
    rw [← h]; exact h1.1
  · split at h
    · rename_i h1
      simp only [Option.some.injEq] at h
      rw [← h]; exact h1.1
    · split at h
      · rename_i h1
        simp only [Option.some.injEq] at h
        rw [← h]; exact h1.1
      · split at h
        · simp at h
        · rename_i fn _
          by_cases h1 : fn.Name = []
          · simp [h1] at h
          · simp only [ne_eq, h1, not_false_eq_true, if_true] at h
            split at h
            all_goals first
              | (simp only [Option.some.injEq] at h; rw [← h]; exact h1)
              | (simp at h; done)
              | (simp at h; rw [← h.2]; exact h1)

theorem foldl_makeToolCall_name (fs : List toolCallFormat) :
    ∀ (acc : List ToolCall), (∀ c ∈ acc, c.Function.Name ≠ []) →
      ∀ c ∈ fs.foldl (fun calls f =>
          match makeToolCall f with
          | some call => calls ++ [call]
          | none => calls) acc,
        c.Function.Name ≠ [] := by
  induction fs with
  | nil => intro acc hacc c hc; exact hacc c hc
  | cons f rest ih =>
    intro acc hacc
    simp only [List.foldl_cons]
    apply ih
    cases hm : makeToolCall f with
    | none => exact hacc
    | some call =>
      intro c hc
      simp only [List.mem_append, List.mem_singleton] at hc
      rcases hc with hc | hc
      · exact hacc c hc
      · rw [hc]; exact makeToolCall_name f call hm

theorem parseJSONToolCalls_name (obj : GoMap) :
    ∀ c ∈ (parseJSONToolCalls obj).1, c.Function.Name ≠ [] := by
  have hno : ∀ c ∈ ([] : List ToolCall), c.Function.Name ≠ [] := by
    intro c hc; simp at hc
  have key : ∀ r : toolCallFormat × Bool,
      ∀ c : ToolCall, c ∈ (match r with
        | (_, true) => (([] : List ToolCall), false)
        | (format, false) =>
          let calls := if format.ToolCalls.length > 0 then collectCalls format.ToolCalls else []
          if calls.length > 0 then (calls, true)
          else
            match makeToolCall format with
            | some call => ([call], true)
            | none => ([], false)).1 → c.Function.Name ≠ [] := by
    intro r
    obtain ⟨format, e⟩ := r
    cases e with
    | true => exact hno
    | false =>
      simp only
      generalize hcalls :
        (if format.ToolCalls.length > 0 then collectCalls format.ToolCalls else []) = calls
      have hcn : ∀ c ∈ calls, c.Function.Name ≠ [] := by
        rw [← hcalls]
        split
        · exact foldl_makeToolCall_name _ [] hno
        · exact hno
      by_cases hp : calls.length > 0
      · simp only [hp, if_true]
        exact hcn
      · simp only [hp, if_false]
        cases hm : makeToolCall format with
        | none => exact hno
        | some call =>
          intro c hc
          simp only [List.mem_singleton] at hc
          rw [hc]; exact makeToolCall_name _ _ hm
  cases obj with
  | none => exact key (Unmarshal (Marshal none) toolCallFormat.zero)
  | some m => exact key (Unmarshal (Marshal (some m)) toolCallFormat.zero)

theorem parseJSON_name (s : Bytes) : ∀ c ∈ (parseJSON s).1, c.Function.Name ≠ [] := by
  have hfold : ∀ (objs : List GoMap) (acc : List ToolCall),
      (∀ c ∈ acc, c.Function.Name ≠ []) →
      ∀ c ∈ objs.foldl (fun tcs obj =>
          let (toolCalls, ok) := parseJSONToolCalls obj
          if ok then tcs ++ toolCalls else tcs) acc,
        c.Function.Name ≠ [] := by
    intro objs
    induction objs with
    | nil => intro acc hacc c hc; exact hacc c hc
    | cons obj rest ih =>
      intro acc hacc
      simp only [List.foldl_cons]
      apply ih
      have hn := parseJSONToolCalls_name obj
      revert hn
      generalize parseJSONToolCalls obj = r
      obtain ⟨toolCalls, ok⟩ := r
      intro hn
      simp only at hn ⊢
      split
      · intro c hc
        simp only [List.mem_append] at hc
        rcases hc with hc | hc
        · exact hacc c hc
        · exact hn c hc
      · exact hacc
  unfold parseJSON
  simp only
  split
  · exact hfold _ [] (by intro c hc; simp at hc)
  · intro c hc; simp at hc

theorem matchHere_name (s name args after : Bytes)
    (h : matchHere s = some (name, args, after)) : name ≠ [] := by
  unfold matchHere at h
  split at h
  · simp at h
  · rename_i w r hw hspan
    cases hl : lazyArgs r with
    | none => rw [hl] at h; simp at h
    | some p =>
      rw [hl] at h
      simp only [Option.map_some', Option.some.injEq, Prod.mk.injEq] at h
      rw [← h.1]
      exact hw
  · simp at h

theorem findAllFuel_name (fuel : Nat) :
    ∀ (s : Bytes), ∀ m ∈ findAllFuel fuel s, m.1 ≠ [] := by
  induction fuel with
  | zero => intro s m hm; simp [findAllFuel] at hm
  | succ n ih =>
    intro s m hm
    cases s with
    | nil => simp [findAllFuel] at hm
    | cons c rest =>
      simp only [findAllFuel] at hm
      split at hm
      · rename_i name args after hmatch
        simp only [List.mem_cons] at hm
        rcases hm with hm | hm
        · rw [hm]; exact matchHere_name _ _ _ _ hmatch
        · exact ih _ m hm
      · exact ih _ m hm

theorem parsePythonFunctionCall_name (s : Bytes) :
    ∀ c ∈ (parsePythonFunctionCall s).1, c.Function.Name ≠ [] := by
  have hmap : ∀ c ∈ ((pythonFuncRegex s).filter (fun m => Contains m.2 [0x3D])).map
      (fun m => ({ Function := { Name := m.1, Arguments := some (keywordArguments m.2) } } :
        ToolCall)), c.Function.Name ≠ [] := by
    intro c hc
    simp only [List.mem_map, List.mem_filter] at hc
    obtain ⟨m, ⟨hm, _⟩, hc⟩ := hc
    rw [← hc]
    exact findAllFuel_name _ _ m hm
  unfold parsePythonFunctionCall
  simp only [foldl_pythonStep, List.nil_append]
  split
  · intro c hc; simp at hc
  · split
    · exact hmap
    · intro c hc; simp at hc

/-! ## The shapes of a tool call -/

theorem makeToolCall_eq_spec (f : toolCallFormat) : makeToolCall f = specSingleShape f := by
  unfold makeToolCall specSingleShape specNameArguments specNameParameters
    specToolNameParameters specFunction
  by_cases h1 : f.Name ≠ [] ∧ f.Arguments ≠ none
  · rw [if_pos h1, if_pos h1]; rfl
  · by_cases h2 : f.Name ≠ [] ∧ f.Parameters ≠ none
    · rw [if_neg h1, if_pos h2, if_neg h1, if_pos h2]; rfl
    · by_cases h3 : f.ToolName ≠ [] ∧ f.Parameters ≠ none
      · rw [if_neg h1, if_neg h2, if_pos h3, if_neg h1, if_neg h2, if_pos h3]; rfl
      · rw [if_neg h1, if_neg h2, if_neg h3, if_neg h1, if_neg h2, if_neg h3]
        simp only [firstShape]
        cases f.Function with
        | none => rfl
        | some fn =>
          simp only
          by_cases h4 : fn.Name = []
          · simp [h4, firstShape]
          · cases ha : fn.Arguments with
            | some a => simp [h4, firstShape]
            | none =>
              cases hp : fn.Parameters with
              | some p => simp [h4, firstShape]
              | none => simp [h4, firstShape]

theorem foldl_collect_eq_filterMap (fs : List toolCallFormat) :
    ∀ acc : List ToolCall,
      fs.foldl (fun calls f =>
          match makeToolCall f with
          | some call => calls ++ [call]
          | none => calls) acc
        = acc ++ fs.filterMap specSingleShape := by
  induction fs with
  | nil => intro acc; simp
  | cons f rest ih =>
    intro acc
    rw [List.foldl_cons, ih, List.filterMap_cons, makeToolCall_eq_spec]
    cases specSingleShape f <;> simp

theorem collectCalls_eq_filterMap (fs : List toolCallFormat) :
    collectCalls fs = fs.filterMap specSingleShape :=
  (foldl_collect_eq_filterMap fs []).trans (by simp)

theorem firstShape_singleton (a b c d : Option ToolCall) :
    firstShape [a.map (fun x => [x]), b.map (fun x => [x]), c.map (fun x => [x]),
        d.map (fun x => [x])]
      = (firstShape [a, b, c, d]).map (fun x => [x]) := by
  cases a <;> cases b <;> cases c <;> cases d <;> rfl

theorem toolCallsFirstPriority_eq (f : toolCallFormat) :
    toolCallsFirstPriority f =
      match specToolCalls f with
      | some calls => some calls
      | none => (specSingleShape f).map (fun x => [x]) := by
  unfold toolCallsFirstPriority specSingleShape
  rw [← firstShape_singleton]
  cases specToolCalls f <;> rfl

/-- The result of `parseJSONToolCalls` from the struct that `json.Unmarshal`
fills: the `tool_calls` array comes first, then the four single-object shapes. -/
theorem parseJSONToolCalls_eq_priority (obj : GoMap) :
    parseJSONToolCalls obj =
      match Unmarshal (Marshal obj) toolCallFormat.zero with
      | (_, true) => ([], false)
      | (f, false) =>
        match toolCallsFirstPriority f with
        | some calls => (calls, true)
        | none => ([], false) := by
  have key : ∀ r : toolCallFormat × Bool,
      (match r with
        | (_, true) => (([] : List ToolCall), false)
        | (format, false) =>
          let calls := if format.ToolCalls.length > 0 then collectCalls format.ToolCalls else []
          if calls.length > 0 then (calls, true)
          else
            match makeToolCall format with
            | some call => ([call], true)
            | none => ([], false)) =
      (match r with
        | (_, true) => ([], false)
        | (f, false) =>
          match toolCallsFirstPriority f with
          | some calls => (calls, true)
          | none => ([], false)) := by
    intro r
    obtain ⟨f, e⟩ := r
    cases e with
    | true => rfl
    | false =>
      have hcalls : (if f.ToolCalls.length > 0 then collectCalls f.ToolCalls else [])
          = f.ToolCalls.filterMap specSingleShape := by
        rw [collectCalls_eq_filterMap]
        cases f.ToolCalls <;> simp
      simp only [hcalls, makeToolCall_eq_spec, toolCallsFirstPriority_eq, specToolCalls]
      by_cases hp : (f.ToolCalls.filterMap specSingleShape).length > 0
      · simp only [hp, if_true]
      · simp only [hp, if_false]
        cases specSingleShape f <;> rfl
  cases obj with
  | none => exact key (Unmarshal (Marshal none) toolCallFormat.zero)
  | some m => exact key (Unmarshal (Marshal (some m)) toolCallFormat.zero)

/-! ## `strings.Index` and `strings.Contains` for one byte -/

theorem HasPrefix_singleton (x c : Nat) (rest : Bytes) :
    HasPrefix (x :: rest) [c] = decide (c = x) := by
  by_cases h : c = x <;> simp [HasPrefix, List.isPrefixOf, h]

theorem Contains_singleton (s : Bytes) (c : Nat) : Contains s [c] = true ↔ c ∈ s := by
  induction s with
  | nil => simp [Contains]
  | cons x rest ih =>
    simp only [Contains, HasPrefix_singleton, Bool.or_eq_true, decide_eq_true_eq, ih,
      List.mem_cons]

theorem Index_singleton (pre post : Bytes) (c : Nat) (h : c ∉ pre) :
    Index (pre ++ c :: post) [c] = some pre.length := by
  induction pre with
  | nil => simp [Index, HasPrefix_singleton]
  | cons x rest ih =>
    have hx : c ≠ x := fun e => h (by simp [e])
    have hr : c ∉ rest := fun e => h (by simp [e])
    simp [Index, HasPrefix_singleton, hx, ih hr]

theorem Index_singleton_none (s : Bytes) (c : Nat) (h : c ∉ s) : Index s [c] = none := by
  induction s with
  | nil => simp [Index]
  | cons x rest ih =>
    have hx : c ≠ x := fun e => h (by simp [e])
    have hr : c ∉ rest := fun e => h (by simp [e])
    simp [Index, HasPrefix_singleton, hx, ih hr]

/-! ## The depth of the recursion does not matter -/

theorem ParseToolCallsFuel_enough (f : Nat) :
    ∀ (g : Nat) (s : Bytes) (toolToken : Option Bytes), s.length < f → s.length < g →
      ParseToolCallsFuel f s toolToken = ParseToolCallsFuel g s toolToken := by
  induction f with
  | zero => intro g s _ h; omega
  | succ n ih =>
    intro g s toolToken hf hg
    obtain ⟨g', hg'⟩ : ∃ g', g = g' + 1 := ⟨g - 1, by omega⟩
    subst hg'
    have hrec : ∀ (pre tok r : Bytes), tokenStep (TrimSpace s) toolToken pre = .go tok →
        sliceFrom (TrimSpace s) tok.length = some r →
        ParseToolCallsFuel n (TrimSpace r) (some tok)
          = ParseToolCallsFuel g' (TrimSpace r) (some tok) := by
      intro pre tok r hgo hsl
      have h1 := tokenStep_go_pos _ _ _ _ hgo
      have h3 := TrimSpace_length_le s
      have h4 := TrimSpace_length_le r
      have h2 := sliceFrom_length _ _ _ hsl
      have h5 : tok.length ≤ (TrimSpace s).length := by
        unfold sliceFrom at hsl
        split at hsl
        · assumption
        · simp at hsl
      exact ih _ _ _ (by omega) (by omega)
    simp only [ParseToolCallsFuel]
    split
    · rfl
    · split
      · split
        · rfl
        · split
          · rfl
          · split
            · rfl
            · split
              · rfl
              · split
                · rfl
                · rw [hrec _ _ _ (by assumption) (by assumption)]
      · split
        · rfl
        · split
          · split
            · rfl
            · split
              · rfl
              · rw [hrec _ _ _ (by assumption) (by assumption)]
          · rfl

/-- The result of `ParseToolCalls` is the result at any depth above `len(s)`. -/
theorem ParseToolCalls_eq_fuel (s : Bytes) (toolToken : Option Bytes) (fuel : Nat)
    (h : s.length < fuel) :
    ParseToolCallsFuel fuel s toolToken = ParseToolCalls s toolToken :=
  ParseToolCallsFuel_enough _ _ _ _ h (Nat.lt_succ_self _)

/-! ## `strings.TrimSpace` twice -/

theorem isSpaceRune_runeError : isSpaceRune runeError = false := by decide

theorem decodeRune_size_pos (s : Bytes) (h : s ≠ []) : 0 < (decodeRune s).2 := by
  rcases s with _ | ⟨p0, _ | ⟨b1, _ | ⟨b2, _ | ⟨b3, r3⟩⟩⟩⟩
  · exact absurd rfl h
  all_goals
    simp only [decodeRune]
    repeat' split
    all_goals simp

theorem decodeRune_append (u rest : Bytes) (h : isSpaceRune (decodeRune u).1 = true) :
    decodeRune (u ++ rest) = decodeRune u := by
  rcases u with _ | ⟨p0, _ | ⟨b1, _ | ⟨b2, _ | ⟨b3, r3⟩⟩⟩⟩
  · simp [decodeRune, isSpaceRune_runeError] at h
  all_goals
    simp only [decodeRune, List.cons_append, List.nil_append, List.length_cons, List.length_nil,
      List.length_append] at h ⊢
    by_cases hp : p0 < 0x80
    · simp only [hp, if_true]
    · simp only [hp, if_false] at h ⊢
      cases hl : leadInfo p0 with
      | none => simp only [hl] at h; first | done | exact absurd h (by decide)
      | some t =>
        obtain ⟨sz, lo, hi⟩ := t
        rw [hl] at h
        simp only at h ⊢
        repeat' split at h
        all_goals first
          | exact absurd h (by decide)
          | (rw [if_neg (by omega)]; simp [*])

theorem decodeLastRune_size_pos (s : Bytes) (h : s ≠ []) : 0 < (decodeLastRune s).2 := by
  unfold decodeLastRune
  cases hr : s.reverse with
  | nil => exact absurd (List.reverse_eq_nil_iff.mp hr) h
  | cons last before =>
    have hlen : 0 < s.length := List.length_pos.mpr h
    simp only
    split
    · simp
    · generalize decodeRune _ = d
      obtain ⟨r, size⟩ := d
      simp only
      split
      · simp
      · rename_i hsz
        simp only [ne_eq, Decidable.not_not] at hsz
        simp only [hsz]
        omega

theorem trimLeftFuel_spec (fuel : Nat) :
    ∀ s : Bytes, s.length ≤ fuel →
      trimLeftFuel fuel s = [] ∨ isSpaceRune (decodeRune (trimLeftFuel fuel s)).1 = false := by
  induction fuel with
  | zero =>
    intro s h
    have : s = [] := List.length_eq_zero.mp (by omega)
    subst this
    exact Or.inl rfl
  | succ n ih =>
    intro s h
    cases s with
    | nil => exact Or.inl rfl
    | cons c rest =>
      have hpos := decodeRune_size_pos (c :: rest) (by simp)
      simp only [trimLeftFuel]
      by_cases hsp : isSpaceRune (decodeRune (c :: rest)).1 = true
      · simp only [hsp, if_true]
        apply ih
        simp only [List.length_drop, List.length_cons] at h ⊢
        omega
      · simp only [hsp, Bool.false_eq_true, if_false]
        exact Or.inr trivial

theorem trimLeftFuel_id (fuel : Nat) (s : Bytes)
    (h : s = [] ∨ isSpaceRune (decodeRune s).1 = false) : trimLeftFuel fuel s = s := by
  cases fuel with
  | zero => rfl
  | succ n =>
    cases s with
    | nil => rfl
    | cons c rest =>
      rcases h with h | h
      · simp at h
      · simp only [trimLeftFuel, h, Bool.false_eq_true, if_false]

theorem trimRightFuel_spec (fuel : Nat) :
    ∀ s : Bytes, s.length ≤ fuel →
      trimRightFuel fuel s = [] ∨
        isSpaceRune (decodeLastRune (trimRightFuel fuel s)).1 = false := by
  induction fuel with
  | zero =>
    intro s h
    have : s = [] := List.length_eq_zero.mp (by omega)
    subst this
    exact Or.inl rfl
  | succ n ih =>
    intro s h
    cases s with
    | nil => exact Or.inl rfl
    | cons c rest =>
      have hpos := decodeLastRune_size_pos (c :: rest) (by simp)
      simp only [trimRightFuel]
      by_cases hsp : isSpaceRune (decodeLastRune (c :: rest)).1 = true
      · simp only [hsp, if_true]
        apply ih
        simp only [List.length_take, List.length_cons] at h ⊢
        omega
      · simp only [hsp, Bool.false_eq_true, if_false]
        exact Or.inr trivial

theorem trimRightFuel_id (fuel : Nat) (s : Bytes)
    (h : s = [] ∨ isSpaceRune (decodeLastRune s).1 = false) : trimRightFuel fuel s = s := by
  cases fuel with
  | zero => rfl
  | succ n =>
    cases s with
    | nil => rfl
    | cons c rest =>
      rcases h with h | h
      · simp at h
      · simp only [trimRightFuel, h, Bool.false_eq_true, if_false]

theorem trimRightFuel_take (fuel : Nat) :
    ∀ s : Bytes, ∃ m, trimRightFuel fuel s = s.take m := by
  induction fuel with
  | zero => intro s; exact ⟨s.length, by simp [trimRightFuel]⟩
  | succ n ih =>
    intro s
    cases s with
    | nil => exact ⟨0, rfl⟩
    | cons c rest =>
      simp only [trimRightFuel]
      split
      · obtain ⟨m, hm⟩ := ih (List.take ((c :: rest).length - (decodeLastRune (c :: rest)).2)
          (c :: rest))
        exact ⟨min m ((c :: rest).length - (decodeLastRune (c :: rest)).2), by
          rw [hm, List.take_take]⟩
      · exact ⟨(c :: rest).length, by simp⟩

/-- Go `strings.TrimSpace` does nothing to a text that it has trimmed. -/
theorem TrimSpace_idem (s : Bytes) : TrimSpace (TrimSpace s) = TrimSpace s := by
  have hl := trimLeftFuel_spec s.length s (le_refl _)
  have hu := trimRightFuel_spec (trimLeftFuel s.length s).length (trimLeftFuel s.length s)
    (le_refl _)
  obtain ⟨m, hm⟩ := trimRightFuel_take (trimLeftFuel s.length s).length
    (trimLeftFuel s.length s)
  have hfirst : TrimSpace s = [] ∨ isSpaceRune (decodeRune (TrimSpace s)).1 = false := by
    by_cases hnil : TrimSpace s = []
    · exact Or.inl hnil
    · right
      rcases hl with hl | hl
      · exfalso
        apply hnil
        simp only [TrimSpace, hl]
        rfl
      · cases hsp : isSpaceRune (decodeRune (TrimSpace s)).1 with
        | false => rfl
        | true =>
          have happ := decodeRune_append (TrimSpace s)
            ((trimLeftFuel s.length s).drop m) hsp
          have hsplit : TrimSpace s ++ (trimLeftFuel s.length s).drop m
              = trimLeftFuel s.length s := by
            have : TrimSpace s = (trimLeftFuel s.length s).take m := hm
            rw [this, List.take_append_drop]
          rw [hsplit] at happ
          rw [happ, hsp] at hl
          exact hl
  have h1 : trimLeftFuel (TrimSpace s).length (TrimSpace s) = TrimSpace s :=
    trimLeftFuel_id _ _ hfirst
  show trimRightFuel (trimLeftFuel (TrimSpace s).length (TrimSpace s)).length
      (trimLeftFuel (TrimSpace s).length (TrimSpace s)) = TrimSpace s
  rw [h1]
  exact trimRightFuel_id _ _ hu

/-! ## Strip and recurse -/

/-- `ParseToolCalls` trims its text first: trimming it before the call
changes nothing. -/
theorem ParseToolCalls_TrimSpace (x : Bytes) (toolToken : Option Bytes) :
    ParseToolCalls (TrimSpace x) toolToken = ParseToolCalls x toolToken := by
  have h1 : ParseToolCalls (TrimSpace x) toolToken
      = ParseToolCallsFuel (x.length + 1) (TrimSpace x) toolToken :=
    (ParseToolCalls_eq_fuel _ _ _ (by have := TrimSpace_length_le x; omega)).symm
  rw [h1]
  simp only [ParseToolCalls, ParseToolCallsFuel, TrimSpace_idem]

theorem matchHere_no_paren (s : Bytes) (h : 0x28 ∉ s) : matchHere s = none := by
  unfold matchHere
  split
  · rfl
  · rename_i w r _ hspan
    exfalso
    apply h
    have hs : s = w ++ 0x28 :: r := by
      have h1 := List.span_eq_take_drop isWordByte s
      rw [hspan] at h1
      simp only [Prod.mk.injEq] at h1
      rw [h1.1, h1.2, List.takeWhile_append_dropWhile]
    rw [hs]
    simp
  · rfl

theorem findAllFuel_no_paren (fuel : Nat) :
    ∀ s : Bytes, 0x28 ∉ s → findAllFuel fuel s = [] := by
  induction fuel with
  | zero => intro s _; rfl
  | succ n ih =>
    intro s h
    cases s with
    | nil => rfl
    | cons c rest =>
      simp only [findAllFuel, matchHere_no_paren _ h]
      exact ih rest (fun hr => h (by simp [hr]))

theorem parsePythonFunctionCall_no_paren (s : Bytes) (h : 0x28 ∉ s) :
    parsePythonFunctionCall s = ([], false) := by
  simp [parsePythonFunctionCall, pythonFuncRegex, findAllFuel_no_paren _ s h]

theorem Count_no_paren (s : Bytes) (h : 0x28 ∉ s) : Count s 0x28 = 0 := by
  simp [Count, List.count_eq_zero_of_not_mem h]

theorem sliceFrom_append (t rest : Bytes) : sliceFrom (t ++ rest) t.length = some rest := by
  simp [sliceFrom]

/-- The `<` branch, and the `[` branch for a text that is neither JSON nor a
Python call, with a token in the slot: the token is stripped and the result is
that of the recursive call on the remainder, a failure turned into Partial. -/
theorem ParseToolCalls_strip (s t rest : Bytes) (ht : t ≠ [])
    (hs : TrimSpace s = t ++ rest)
    (hbranch : HasPrefix (TrimSpace s) [0x3C] = true ∨
      (HasPrefix (TrimSpace s) [0x5B] = true ∧ HasPrefix (TrimSpace s) [0x5B, 0x7B] = false ∧
        Contains (TrimSpace s) [0x28] = false)) :
    ParseToolCalls s (some t) = (ParseToolCalls rest (some t)).map afterRecursion := by
  have hlen : (TrimSpace s).length ≠ 0 := by
    rw [hs]
    simp only [List.length_append]
    have := List.length_pos.mpr ht
    omega
  have hrec : ParseToolCallsFuel s.length (TrimSpace rest) (some t)
      = ParseToolCalls rest (some t) := by
    rw [← ParseToolCalls_TrimSpace rest]
    apply ParseToolCalls_eq_fuel
    have h1 := TrimSpace_length_le s
    have h2 := TrimSpace_length_le rest
    have h3 := List.length_pos.mpr ht
    rw [hs, List.length_append] at h1
    omega
  have hL : ParseToolCalls s (some t) = ParseToolCallsFuel (s.length + 1) s (some t) := rfl
  rw [hL]
  rcases hbranch with h | ⟨h1, h2, h3⟩
  · have hb : HasPrefix (TrimSpace s) [0x5B] = false := by
      cases hts : TrimSpace s with
      | nil => rfl
      | cons c r =>
        rw [hts] at h
        simp only [HasPrefix_singleton, decide_eq_true_eq] at h
        subst h
        rfl
    have hb2 : HasPrefix (TrimSpace s) [0x7B] = false := by
      cases hts : TrimSpace s with
      | nil => rfl
      | cons c r =>
        rw [hts] at h
        simp only [HasPrefix_singleton, decide_eq_true_eq] at h
        subst h
        rfl
    have hb3 : HasPrefix (TrimSpace s) [0x60, 0x60, 0x60] = false := by
      cases hts : TrimSpace s with
      | nil => rfl
      | cons c r =>
        rw [hts] at h
        simp only [HasPrefix_singleton, decide_eq_true_eq] at h
        subst h
        simp [HasPrefix, List.isPrefixOf]
    simp only [ParseToolCallsFuel, hlen, if_false, hb, hb2, hb3, h,
      Bool.false_eq_true, Bool.or_self, if_true, tokenStep_some_ne _ _ _ ht]
    rw [hs, sliceFrom_append]
    simp only
    rw [hrec]
  · have hno : 0x28 ∉ TrimSpace s := by
      intro hm
      have := (Contains_singleton _ _).mpr hm
      rw [h3] at this
      exact absurd this (by simp)
    have hcount : ¬ (Count (TrimSpace s) 0x28 > Count (TrimSpace s) 0x29) := by
      rw [Count_no_paren _ hno]; omega
    simp only [ParseToolCallsFuel, hlen, if_false, h1, h2, if_true,
      Bool.false_eq_true, parsePythonFunctionCall_no_paren _ hno, hcount,
      tokenStep_some_ne _ _ _ ht]
    rw [hs, sliceFrom_append]
    simp only
    rw [hrec]

/-! ## The recursive call of the dispatcher -/

/-- One call of `ParseToolCalls` is its body up to the recursive call, then the
recursive call and the end of the branch. -/
theorem ParseToolCallsFuel_callStep (fuel : Nat) (s : Bytes) (toolToken : Option Bytes) :
    ParseToolCallsFuel (fuel + 1) s toolToken =
      match callStep s toolToken with
      | .result r => some r
      | .recurse s' tok => (ParseToolCallsFuel fuel s' (some tok)).map afterRecursion := by
  simp only [ParseToolCallsFuel, callStep]
  repeat' split
  all_goals first | rfl | simp_all

/-- The recursive call: the token stripped is not empty, it is the token that
the slot held or, for a slot with the empty string, the whole trimmed text,
derived as a token of more than one byte; the text of the recursive call is
what is left after the token, trimmed. -/
theorem callStep_recurse (s : Bytes) (toolToken : Option Bytes) (s' tok : Bytes)
    (h : callStep s toolToken = .recurse s' tok) :
    tok ≠ [] ∧ tok.length ≤ (TrimSpace s).length ∧
      s' = TrimSpace ((TrimSpace s).drop tok.length) ∧
      (toolToken = some tok ∨ (toolToken = some [] ∧ tok = TrimSpace s ∧ 1 < tok.length)) := by
  have key : ∀ pre tok0 r : Bytes, tokenStep (TrimSpace s) toolToken pre = .go tok0 →
      sliceFrom (TrimSpace s) tok0.length = some r →
      CallStep.recurse (TrimSpace r) tok0 = .recurse s' tok →
      tok ≠ [] ∧ tok.length ≤ (TrimSpace s).length ∧
        s' = TrimSpace ((TrimSpace s).drop tok.length) ∧
        (toolToken = some tok ∨ (toolToken = some [] ∧ tok = TrimSpace s ∧ 1 < tok.length)) := by
    intro pre tok0 r hts hsl hk
    simp only [CallStep.recurse.injEq] at hk
    obtain ⟨hk1, hk2⟩ := hk
    subst hk2
    have hpos := tokenStep_go_pos _ _ _ _ hts
    have hle : tok0.length ≤ (TrimSpace s).length := by
      by_cases hle : tok0.length ≤ (TrimSpace s).length
      · exact hle
      · simp [sliceFrom, hle] at hsl
    have hr : r = (TrimSpace s).drop tok0.length := by
      simp only [sliceFrom, hle, if_true, Option.some.injEq] at hsl
      exact hsl.symm
    refine ⟨List.length_pos.mp hpos, hle, by rw [← hk1, hr], ?_⟩
    rcases tokenStep_go _ _ _ _ hts with h1 | h1
    · exact Or.inl h1.1
    · exact Or.inr ⟨h1.1, h1.2.1, by rw [h1.2.1]; exact h1.2.2⟩
  unfold callStep at h
  simp only at h
  repeat' split at h
  all_goals first
    | (exfalso; simp at h; done)
    | exact key _ _ _ (by assumption) (by assumption) h

/-- The text of a recursive call is shorter than the text of its caller, by
the length of the token at least. -/
theorem callStep_shorter (s : Bytes) (toolToken : Option Bytes) (s' tok : Bytes)
    (h : callStep s toolToken = .recurse s' tok) :
    s'.length + tok.length ≤ s.length ∧ s'.length < s.length := by
  obtain ⟨h1, h2, h3, _⟩ := callStep_recurse s toolToken s' tok h
  have h4 := TrimSpace_length_le s
  have h5 := TrimSpace_length_le ((TrimSpace s).drop tok.length)
  have h6 := List.length_pos.mpr h1
  rw [← h3, List.length_drop] at h5
  constructor <;> omega

/-- The number of recursive calls, one inside the other, is at most the
length of the text. -/
theorem recursionDepth_le (fuel : Nat) :
    ∀ (s : Bytes) (toolToken : Option Bytes), recursionDepth fuel s toolToken ≤ s.length := by
  induction fuel with
  | zero => intro s toolToken; simp [recursionDepth]
  | succ n ih =>
    intro s toolToken
    simp only [recursionDepth]
    cases hc : callStep s toolToken with
    | result r => simp
    | recurse s' tok =>
      simp only
      have h1 := (callStep_shorter s toolToken s' tok hc).2
      have h2 := ih s' (some tok)
      omega

/-! ## The writing of the slot -/

theorem TrimSpace_nil : TrimSpace [] = [] := by decide

/-- A call that returns without a recursive call leaves the slot as it was. -/
theorem callStep_result_slot (s : Bytes) (toolToken : Option Bytes) (calls : List ToolCall)
    (part ok : Bool) (slot : Option Bytes)
    (h : callStep s toolToken = .result (.ret calls part ok slot)) : slot = toolToken := by
  unfold callStep at h
  simp only at h
  repeat' split at h
  all_goals first
    | (simp only [CallStep.result.injEq, Res.ret.injEq] at h; exact h.2.2.2.symm)
    | (simp only [CallStep.result.injEq] at h; subst h;
       exact tokenStep_done_slot _ _ _ _ _ _ _ (by assumption))
    | (exfalso; simp at h)

/-- The recursive call on the empty text returns NoMatch. -/
theorem ParseToolCallsFuel_nil (fuel : Nat) (toolToken : Option Bytes) :
    ParseToolCallsFuel (fuel + 1) [] toolToken = some (.ret [] false false toolToken) := by
  simp [ParseToolCallsFuel, TrimSpace_nil]

/-- A call with the empty string in the slot that derives the whole trimmed
text as the token writes it into the slot, recurses on the empty text and
returns Partial. -/
theorem ParseToolCalls_recurse_whole (s : Bytes) (s' : Bytes)
    (h : callStep s (some []) = .recurse s' (TrimSpace s)) (hlen : 1 < (TrimSpace s).length) :
    ParseToolCalls s (some []) = some (.ret [] true true (some (TrimSpace s))) := by
  obtain ⟨_, _, h3, _⟩ := callStep_recurse s (some []) s' (TrimSpace s) h
  rw [List.drop_length, TrimSpace_nil] at h3
  have hs : ∃ n, s.length = n + 1 := by
    have := TrimSpace_length_le s
    exact ⟨s.length - 1, by omega⟩
  obtain ⟨n, hn⟩ := hs
  unfold ParseToolCalls
  rw [ParseToolCallsFuel_callStep, h]
  simp only
  rw [h3, hn, ParseToolCallsFuel_nil]
  rfl

/-- A call that returns with the slot changed: the slot held the empty string,
it now holds the whole trimmed text, and the result is Partial. -/
theorem ParseToolCalls_write (s : Bytes) (toolToken : Option Bytes) (calls : List ToolCall)
    (part ok : Bool) (slot : Option Bytes)
    (h : ParseToolCalls s toolToken = some (.ret calls part ok slot)) (hne : slot ≠ toolToken) :
    toolToken = some [] ∧ slot = some (TrimSpace s) ∧ 1 < (TrimSpace s).length ∧
      calls = [] ∧ part = true ∧ ok = true := by
  have h0 := h
  unfold ParseToolCalls at h
  rw [ParseToolCallsFuel_callStep] at h
  cases hc : callStep s toolToken with
  | result r =>
    rw [hc] at h
    simp only [Option.some.injEq] at h
    subst h
    exact absurd (callStep_result_slot _ _ _ _ _ _ hc) hne
  | recurse s' tok =>
    rw [hc] at h
    simp only at h
    obtain ⟨h1, h2, h3, h4⟩ := callStep_recurse s toolToken s' tok hc
    rcases h4 with h4 | ⟨h4, h5, h6⟩
    · exfalso
      cases hx : ParseToolCallsFuel s.length s' (some tok) with
      | none => rw [hx] at h; simp at h
      | some x =>
        rw [hx] at h
        simp only [Option.map_some', Option.some.injEq] at h
        obtain ⟨_, calls', part', ok', hx'⟩ := afterRecursion_ok x calls part ok slot h
        rw [hx'] at hx
        rcases ParseToolCallsFuel_slot _ _ _ _ _ _ _ hx with h7 | h7
        · exact hne (by rw [h7, h4])
        · exact h1 (Option.some.inj h7)
    · subst h4
      subst h5
      have := ParseToolCalls_recurse_whole s s' hc h6
      rw [this] at h0
      simp only [Option.some.injEq, Res.ret.injEq] at h0
      exact ⟨rfl, h0.2.2.2.symm, h6, h0.1.symm, h0.2.1.symm, h0.2.2.1.symm⟩

/-- The `<` branch with the empty string in the slot. -/
theorem ParseToolCalls_angle_empty (s : Bytes) (h : HasPrefix (TrimSpace s) [0x3C] = true) :
    ParseToolCalls s (some []) =
      some (if lenFields (TrimSpace s) > 1 then .ret [] false false (some [])
        else if 1 < (TrimSpace s).length ∧ (TrimSpace s).getLast? = some 0x3E
          then .ret [] true true (some (TrimSpace s))
        else .ret [] true true (some [])) := by
  have hlen : (TrimSpace s).length ≠ 0 := by
    cases hts : TrimSpace s with
    | nil => rw [hts] at h; simp [HasPrefix, List.isPrefixOf] at h
    | cons c r => simp
  have hc : ∀ p : Bytes, p.head? ≠ some 0x3C → p ≠ [] → HasPrefix (TrimSpace s) p = false := by
    intro p hp hpne
    cases hts : TrimSpace s with
    | nil => exact absurd hts (fun e => hlen (by rw [e]; rfl))
    | cons c r =>
      rw [hts] at h
      simp only [HasPrefix_singleton, decide_eq_true_eq] at h
      subst h
      cases p with
      | nil => exact absurd rfl hpne
      | cons d q =>
        simp only [List.head?_cons, ne_eq, Option.some.injEq] at hp
        simp only [HasPrefix, List.isPrefixOf, Bool.and_eq_false_imp, beq_iff_eq]
        intro e
        exact absurd e hp
  have hb := hc [0x5B] (by decide) (by decide)
  have hb2 := hc [0x7B] (by decide) (by decide)
  have hb3 := hc [0x60, 0x60, 0x60] (by decide) (by decide)
  have hstep : callStep s (some []) =
      match tokenStep (TrimSpace s) (some []) [0x3C] with
      | .done r => .result r
      | .go tok =>
        match sliceFrom (TrimSpace s) tok.length with
        | none => .result .panic
        | some r => .recurse (TrimSpace r) tok := by
    simp only [callStep, hlen, if_false, hb, hb2, hb3, h, Bool.false_eq_true, Bool.or_self,
      if_true]
  by_cases hf : lenFields (TrimSpace s) > 1
  · have hts : tokenStep (TrimSpace s) (some []) [0x3C]
        = .done (.ret [] false false (some [])) := by
      simp [tokenStep, deriveToolToken, hf]
    rw [hts] at hstep
    unfold ParseToolCalls
    rw [ParseToolCallsFuel_callStep, hstep, if_pos hf]
  · rw [if_neg hf]
    by_cases hd : 1 < (TrimSpace s).length ∧ (TrimSpace s).getLast? = some 0x3E
    · rw [if_pos hd]
      have hts : tokenStep (TrimSpace s) (some []) [0x3C] = .go (TrimSpace s) := by
        simp [tokenStep, deriveToolToken, hf, hd]
      rw [hts] at hstep
      simp only [sliceFrom, le_refl, if_true] at hstep
      exact ParseToolCalls_recurse_whole s _ hstep hd.1
    · rw [if_neg hd]
      have hts : tokenStep (TrimSpace s) (some []) [0x3C]
          = .done (.ret [] true true (some [])) := by
        simp [tokenStep, deriveToolToken, hf, hd]
      rw [hts] at hstep
      unfold ParseToolCalls
      rw [ParseToolCallsFuel_callStep, hstep]

/-- The `<` branch with a nil `toolToken`: there is no slot to write, and the
assignment `*toolToken = toolTok` of a derived token is a nil dereference. -/
theorem ParseToolCalls_angle_nil (s : Bytes) (h : HasPrefix (TrimSpace s) [0x3C] = true) :
    ParseToolCalls s none =
      some (if lenFields (TrimSpace s) > 1 then .ret [] false false none
        else if 1 < (TrimSpace s).length ∧ (TrimSpace s).getLast? = some 0x3E then .panic
        else .ret [] true true none) := by
  have hlen : (TrimSpace s).length ≠ 0 := by
    cases hts : TrimSpace s with
    | nil => rw [hts] at h; simp [HasPrefix, List.isPrefixOf] at h
    | cons c r => simp
  have hc : ∀ p : Bytes, p.head? ≠ some 0x3C → p ≠ [] → HasPrefix (TrimSpace s) p = false := by
    intro p hp hpne
    cases hts : TrimSpace s with
    | nil => exact absurd hts (fun e => hlen (by rw [e]; rfl))
    | cons c r =>
      rw [hts] at h
      simp only [HasPrefix_singleton, decide_eq_true_eq] at h
      subst h
      cases p with
      | nil => exact absurd rfl hpne
      | cons d q =>
        simp only [List.head?_cons, ne_eq, Option.some.injEq] at hp
        simp only [HasPrefix, List.isPrefixOf, Bool.and_eq_false_imp, beq_iff_eq]
        intro e
        exact absurd e hp
  have hb := hc [0x5B] (by decide) (by decide)
  have hb2 := hc [0x7B] (by decide) (by decide)
  have hb3 := hc [0x60, 0x60, 0x60] (by decide) (by decide)
  have hstep : callStep s none =
      match tokenStep (TrimSpace s) none [0x3C] with
      | .done r => .result r
      | .go tok =>
        match sliceFrom (TrimSpace s) tok.length with
        | none => .result .panic
        | some r => .recurse (TrimSpace r) tok := by
    simp only [callStep, hlen, if_false, hb, hb2, hb3, h, Bool.false_eq_true, Bool.or_self,
      if_true]
  unfold ParseToolCalls
  rw [ParseToolCallsFuel_callStep, hstep]
  by_cases hf : lenFields (TrimSpace s) > 1
  · simp [tokenStep, deriveToolToken, hf]
  · by_cases hd : 1 < (TrimSpace s).length ∧ (TrimSpace s).getLast? = some 0x3E
    · simp [tokenStep, deriveToolToken, hf, hd]
    · simp [tokenStep, deriveToolToken, hf, hd]

/-! ## The matches of the pattern are the occurrences of a call -/

theorem lazyArgs_spec (s : Bytes) :
    ∀ a r : Bytes, lazyArgs s = some (a, r) → 0x29 ∉ a ∧ 0x0A ∉ a ∧ s = a ++ 0x29 :: r := by
  induction s with
  | nil => intro a r h; simp [lazyArgs] at h
  | cons b rest ih =>
    intro a r h
    simp only [lazyArgs] at h
    split at h
    · rename_i hb
      simp only [Option.some.injEq, Prod.mk.injEq] at h
      rw [← h.1, ← h.2, hb]
      simp
    · split at h
      · simp at h
      · rename_i hb1 hb2
        cases hl : lazyArgs rest with
        | none => rw [hl] at h; simp at h
        | some p =>
          rw [hl] at h
          simp only [Option.map_some', Option.some.injEq, Prod.mk.injEq] at h
          obtain ⟨h1, h2, h3⟩ := ih p.1 p.2 (by rw [hl])
          rw [← h.1, ← h.2]
          refine ⟨?_, ?_, ?_⟩
          · simp only [List.mem_cons, not_or]
            exact ⟨fun e => hb1 e.symm, h1⟩
          · simp only [List.mem_cons, not_or]
            exact ⟨fun e => hb2 e.symm, h2⟩
          · simp only [List.cons_append]
            rw [← h3]

theorem lazyArgs_append (a r : Bytes) (h1 : 0x29 ∉ a) (h2 : 0x0A ∉ a) :
    lazyArgs (a ++ 0x29 :: r) = some (a, r) := by
  induction a with
  | nil => simp [lazyArgs]
  | cons b rest ih =>
    have hb1 : b ≠ 0x29 := fun e => h1 (by simp [e])
    have hb2 : b ≠ 0x0A := fun e => h2 (by simp [e])
    have hr1 : 0x29 ∉ rest := fun e => h1 (by simp [e])
    have hr2 : 0x0A ∉ rest := fun e => h2 (by simp [e])
    have e : lazyArgs (b :: (rest ++ 0x29 :: r))
        = (lazyArgs (rest ++ 0x29 :: r)).map (fun p => (b :: p.1, p.2)) := by
      simp only [lazyArgs, hb1, hb2, if_false]
    rw [List.cons_append, e, ih hr1 hr2]
    rfl

theorem span_word_run (w r : Bytes) (x : Nat) (hw : ∀ c ∈ w, isWordByte c = true)
    (hx : isWordByte x = false) : (w ++ x :: r).span isWordByte = (w, x :: r) := by
  rw [List.span_eq_take_drop]
  induction w with
  | nil => simp [List.takeWhile, List.dropWhile, hx]
  | cons c rest ih =>
    have hc : isWordByte c = true := hw c (by simp)
    have ih' := ih (fun d hd => hw d (by simp [hd]))
    simp only [Prod.mk.injEq] at ih'
    simp only [List.cons_append, List.takeWhile_cons, List.dropWhile_cons, hc, if_true,
      Prod.mk.injEq, List.cons.injEq, true_and]
    exact ih'

/-- The pattern matches at the start of a text exactly when an occurrence
`identifier(args)` starts there, and its groups are the identifier and the
argument text. -/
theorem matchHere_iff (s w a r : Bytes) :
    matchHere s = some (w, a, r) ↔ specStartsCall s w a r := by
  constructor
  · intro h
    unfold matchHere at h
    split at h
    · simp at h
    · rename_i w0 r0 hw0 hspan
      cases hl : lazyArgs r0 with
      | none => rw [hl] at h; simp at h
      | some p =>
        rw [hl] at h
        simp only [Option.map_some', Option.some.injEq, Prod.mk.injEq] at h
        obtain ⟨h1, h2, h3⟩ := lazyArgs_spec r0 p.1 p.2 (by rw [hl])
        have hsp := List.span_eq_take_drop isWordByte s
        rw [hspan] at hsp
        simp only [Prod.mk.injEq] at hsp
        obtain ⟨e1, e2, e3⟩ := h
        subst e1
        subst e2
        subst e3
        refine ⟨fun e => hw0 e, ?_, h1, h2, ?_⟩
        · intro c hc
          rw [hsp.1] at hc
          exact List.mem_takeWhile_imp hc
        · rw [← h3]
          conv_lhs => rw [← List.takeWhile_append_dropWhile isWordByte s]
          rw [← hsp.1, ← hsp.2]
    · simp at h
  · rintro ⟨h1, h2, h3, h4, h5⟩
    unfold matchHere
    rw [h5, span_word_run w _ 0x28 h2 (by decide)]
    cases w with
    | nil => exact absurd rfl h1
    | cons c rest =>
      simp only [lazyArgs_append a r h3 h4, Option.map_some']

theorem matchHere_shorter (s w a r : Bytes) (h : matchHere s = some (w, a, r)) :
    r.length < s.length := by
  obtain ⟨_, _, _, _, h5⟩ := (matchHere_iff s w a r).mp h
  rw [h5]
  simp only [List.length_append, List.length_cons]
  omega

theorem findAllFuel_enough (f : Nat) :
    ∀ (g : Nat) (s : Bytes), s.length ≤ f → s.length ≤ g →
      findAllFuel f s = findAllFuel g s := by
  induction f with
  | zero =>
    intro g s hf _
    have hs : s = [] := List.length_eq_zero.mp (Nat.le_zero.mp hf)
    subst hs
    cases g <;> rfl
  | succ n ih =>
    intro g s hf hg
    cases s with
    | nil => cases g <;> rfl
    | cons c rest =>
      obtain ⟨g', hg'⟩ : ∃ g', g = g' + 1 := ⟨g - 1, by simp only [List.length_cons] at hg; omega⟩
      subst hg'
      simp only [List.length_cons] at hf hg
      simp only [findAllFuel]
      cases hm : matchHere (c :: rest) with
      | none => exact ih g' rest (by omega) (by omega)
      | some m =>
        obtain ⟨w, a, r⟩ := m
        have := matchHere_shorter _ _ _ _ hm
        simp only [List.length_cons] at this
        simp only
        rw [ih g' r (by omega) (by omega)]

/-- The matches of the pattern are the occurrences of the text. -/
theorem SpecOccurrences_findAllFuel (fuel : Nat) :
    ∀ s : Bytes, s.length ≤ fuel → SpecOccurrences s (findAllFuel fuel s) := by
  induction fuel with
  | zero =>
    intro s hf
    have hs : s = [] := List.length_eq_zero.mp (Nat.le_zero.mp hf)
    subst hs
    exact SpecOccurrences.done
  | succ n ih =>
    intro s hf
    cases s with
    | nil => exact SpecOccurrences.done
    | cons c rest =>
      simp only [List.length_cons] at hf
      simp only [findAllFuel]
      cases hm : matchHere (c :: rest) with
      | none =>
        simp only
        refine SpecOccurrences.skip c rest _ ?_ (ih rest (by omega))
        intro w a r' hst
        rw [(matchHere_iff _ _ _ _).mpr hst] at hm
        simp at hm
      | some m =>
        obtain ⟨w, a, r⟩ := m
        have hlt := matchHere_shorter _ _ _ _ hm
        simp only [List.length_cons] at hlt
        simp only
        exact SpecOccurrences.call _ w a r _ ((matchHere_iff _ _ _ _).mp hm) (ih r (by omega))

theorem SpecOccurrences_pythonFuncRegex (s : Bytes) : SpecOccurrences s (pythonFuncRegex s) :=
  SpecOccurrences_findAllFuel s.length s (le_refl _)

/-- The occurrences of a text are the matches of the pattern: there is one
sequence of occurrences only. -/
theorem SpecOccurrences_eq (s : Bytes) (l : List (Bytes × Bytes)) (h : SpecOccurrences s l) :
    l = pythonFuncRegex s := by
  induction h with
  | done => rfl
  | call s w a r l hst _ ih =>
    have hm := (matchHere_iff _ _ _ _).mpr hst
    have hlt := matchHere_shorter _ _ _ _ hm
    unfold pythonFuncRegex at ih ⊢
    cases s with
    | nil => simp at hlt
    | cons c rest =>
      simp only [List.length_cons] at hlt
      simp only [List.length_cons, findAllFuel, hm]
      rw [ih, findAllFuel_enough r.length rest.length r (le_refl _) (by omega)]
  | skip c r l hno _ ih =>
    unfold pythonFuncRegex at ih ⊢
    cases hm : matchHere (c :: r) with
    | none =>
      simp only [List.length_cons, findAllFuel, hm]
      exact ih
    | some m =>
      obtain ⟨w, a, r'⟩ := m
      exact absurd ((matchHere_iff _ _ _ _).mp hm) (hno w a r')

/-- The calls of `parsePythonFunctionCall` are those of the matches of the
pattern whose second group contains `=`, and the flag tells whether there is
one. -/
theorem parsePythonFunctionCall_matches (s : Bytes) :
    (parsePythonFunctionCall s).1 =
      ((pythonFuncRegex s).filter (fun m => Contains m.2 [0x3D])).map
        (fun m => ({ Function := { Name := m.1, Arguments := some (keywordArguments m.2) } } :
          ToolCall)) ∧
    ((parsePythonFunctionCall s).2 = true ↔
      ∃ m ∈ pythonFuncRegex s, Contains m.2 [0x3D] = true) := by
  refine ⟨?_, ?_⟩
  · unfold parsePythonFunctionCall
    simp only [foldl_pythonStep, List.nil_append]
    split
    · rename_i h0
      rw [List.length_eq_zero.mp h0]; rfl
    · split
      · rfl
      · rename_i h1
        symm
        apply List.length_eq_zero.mp
        omega
  · unfold parsePythonFunctionCall
    simp only [foldl_pythonStep, List.nil_append]
    split
    · rename_i h0
      rw [List.length_eq_zero.mp h0]; simp
    · split
      · rename_i h1
        simp only [true_iff]
        have hne : ((pythonFuncRegex s).filter (fun m => Contains m.2 [0x3D])) ≠ [] := by
          intro e; rw [e] at h1; simp at h1
        obtain ⟨m, hm⟩ := List.exists_mem_of_ne_nil _ hne
        exact ⟨m, (List.mem_filter.mp hm).1, (List.mem_filter.mp hm).2⟩
      · rename_i h1
        simp only [Bool.false_eq_true, false_iff, not_exists, not_and]
        intro m hm hc
        apply h1
        have : m ∈ (pythonFuncRegex s).filter (fun m => Contains m.2 [0x3D]) :=
          List.mem_filter.mpr ⟨hm, hc⟩
        simp only [List.length_map, gt_iff_lt]
        exact List.length_pos_of_mem this

/-! ## Objects that `encoding/json` does not decode -/

set_option exponentiation.threshold 400 in
/-- A number out of the range of `float64` is valid JSON, but the decoder
returns an `UnmarshalTypeError` for the object that holds it, and
`parseObjects` goes on inside the object: an array with such an element gives
no object and is Partial, and an object nested after the number is returned
on its own. -/
theorem ParseToolCalls_array_out_of_range :
    checkValid (ofString "[\x7b\"name\":\"a\",\"arguments\":\x7b\"x\":1e309\x7d\x7d]") = true ∧
    parseObjects (ofString "[\x7b\"name\":\"a\",\"arguments\":\x7b\"x\":1e309\x7d\x7d]") = [] ∧
    ParseToolCalls (ofString "[\x7b\"name\":\"a\",\"arguments\":\x7b\"x\":1e309\x7d\x7d]") (some [])
      = some (Partial (some [])) ∧
    ParseToolCalls (ofString
        "[\x7b\"name\":\"a\",\"arguments\":\x7b\"x\":1e309,\"y\":\x7b\"name\":\"evil\",\"arguments\":\x7b\x7d\x7d\x7d\x7d]")
        (some [])
      = some (Complete [⟨⟨ofString "evil", some []⟩⟩] (some [])) := by
  decide

/-- An object with a recognised field of the wrong type: `json.Unmarshal`
returns an error and `parseJSONToolCalls` returns no call, whatever shapes the
other fields of the object match. -/
theorem parseJSONToolCalls_type_error :
    parseJSONToolCalls (some
        [(ofString "arguments", .obj []), (ofString "name", .str (ofString "a")),
         (ofString "parameters", .obj []), (ofString "tool_name", .num (ofString "1"))])
      = ([], false) := by
  decide

/-! ## The claims -/

/-- C1 (the code departs from the claim): with the token `<tool_call>` in the
slot and the text `<`, the `<` branch evaluates `s[len(*toolToken):]` with
`len(*toolToken) = 11 > 1 = len(s)`: `ParseToolCalls` panics instead of
returning one of the three outcomes. -/
theorem C1_slice_fault :
    ParseToolCalls (ofString "<") (some (ofString "<tool_call>")) = some Res.panic := by
  decide

/-- C2 (as stated, refuted): `{"name":"","arguments":{}}` is valid JSON, one
object with a `name` field and an `arguments` field, but its name is empty:
`makeToolCall` rejects it and `ParseToolCalls` yields Partial. -/
theorem C2_empty_name_counterexample :
    Decode (ofString "\x7b\"name\":\"\",\"arguments\":\x7b\x7d\x7d")
      = .ok (some [(ofString "arguments", .obj []), (ofString "name", .str [])]) 26 ∧
    ParseToolCalls (ofString "\x7b\"name\":\"\",\"arguments\":\x7b\x7d\x7d") none
      = some (Partial none) := by
  decide

/-- C2 (amended): when the trimmed text starts with `{` and is, as a whole,
valid JSON that decodes to one object whose entries for the fields of the
tool-call format are a string `name` that is not empty and an object
`arguments`, `ParseToolCalls` yields Complete with exactly one ToolCall, of
that name and with those arguments, and leaves the slot. -/
theorem C2_single_object (s : Bytes) (toolToken : Option Bytes)
    (obj : List (Bytes × JVal)) (n : Bytes) (a : List (Bytes × JVal))
    (hstart : HasPrefix (TrimSpace s) [0x7B] = true)
    (hdec : Decode (TrimSpace s) = .ok (some obj) (TrimSpace s).length)
    (hobj : obj.filter (fun e => isFormatKey e.1)
      = [(ofString "arguments", .obj a), (ofString "name", .str n)])
    (hn : n ≠ []) :
    ParseToolCalls s toolToken
      = some (Complete [{ Function := { Name := n, Arguments := some a } }] toolToken) := by
  generalize ht : TrimSpace s = t at hstart hdec
  cases t with
  | nil => simp [HasPrefix] at hstart
  | cons c r =>
    have hc : c = 0x7B := by
      simp only [HasPrefix, List.isPrefixOf, Bool.and_eq_true, beq_iff_eq] at hstart
      exact hstart.1.symm
    subst hc
    have hobjs := parseObjects_single _ (some obj) (List.cons_ne_nil _ _) hdec
    have hjson := parseJSON_single _ _ _ hobjs
      (parseJSONToolCalls_name_arguments obj n a hn hobj) (List.cons_ne_nil _ _)
    simp [ParseToolCalls, ParseToolCallsFuel, ht, HasPrefix, List.isPrefixOf, hjson, Complete]

theorem C2_single_object_witness :
    ParseToolCalls (ofString " \x7b\"name\": \"f\", \"id\": 7, \"arguments\": \x7b\"x\": 1\x7d\x7d ")
        (some [])
      = some (Complete [⟨⟨ofString "f", some [(ofString "x", .num (ofString "1"))]⟩⟩]
          (some [])) :=
  C2_single_object
    (ofString " \x7b\"name\": \"f\", \"id\": 7, \"arguments\": \x7b\"x\": 1\x7d\x7d ") (some [])
    [(ofString "arguments", .obj [(ofString "x", .num (ofString "1"))]),
     (ofString "id", .num (ofString "7")), (ofString "name", .str (ofString "f"))]
    (ofString "f") [(ofString "x", .num (ofString "1"))]
    (by decide) (by decide) (by decide) (by decide)

/-- C3 (the code departs from the claim): `[` is a non-empty strict prefix of
the array `[{"name":"a","arguments":{}}]`, which is Complete with the token
`[TOOL_CALLS]` in the slot; on the prefix `[` with the same slot the `[` branch
slices past the end of the text and `ParseToolCalls` panics instead of
yielding Partial. -/
theorem C3_prefix_fault :
    ParseToolCalls (ofString "[\x7b\"name\":\"a\",\"arguments\":\x7b\x7d\x7d]")
        (some (ofString "[TOOL_CALLS]"))
      = some (Complete [{ Function := { Name := ofString "a", Arguments := some [] } }]
          (some (ofString "[TOOL_CALLS]"))) ∧
    HasPrefix (ofString "[\x7b\"name\":\"a\",\"arguments\":\x7b\x7d\x7d]") (ofString "[") = true ∧
    ParseToolCalls (ofString "[") (some (ofString "[TOOL_CALLS]")) = some Res.panic := by
  decide

/-- C4 (as stated, refuted): `[ {"name":"a","arguments":{}}]` is a valid JSON
array of one object of the stated form, and `parseObjects` returns that
object; but with white space after the `[` the text does not start with `[{`,
so `ParseToolCalls` does not reach `parseJSON`: the result is NoMatch. -/
theorem C4_space_after_bracket_counterexample :
    readValue (ofString "[ \x7b\"name\":\"a\",\"arguments\":\x7b\x7d\x7d]") = .value 30 ∧
    parseObjects (ofString "[ \x7b\"name\":\"a\",\"arguments\":\x7b\x7d\x7d]")
      = [some [(ofString "arguments", .obj []), (ofString "name", .str (ofString "a"))]] ∧
    ParseToolCalls (ofString "[ \x7b\"name\":\"a\",\"arguments\":\x7b\x7d\x7d]") none
      = some (NoMatch none) := by
  decide

/-- C4 (amended): when the trimmed text starts with `[{` and is, as a whole, a
valid JSON array whose elements each decode, without error, to an object with
exactly the keys `name`, a string that is not empty, and `arguments`, an
object, then `parseObjects` returns these objects in the order of the array
and `ParseToolCalls` yields Complete with one ToolCall for each element, in
the order of the array, with the name and the arguments of the element. (An
element with a number out of the range of `float64` is not decoded:
`ParseToolCalls_array_out_of_range`.) -/
theorem C4_array_complete (s : Bytes) (toolToken : Option Bytes) (items : List ArrayElem)
    (hne : items ≠ [])
    (htext : TrimSpace s = 0x5B :: arrayText items)
    (hstart : HasPrefix (TrimSpace s) [0x5B, 0x7B] = true)
    (hvalid : readValue (TrimSpace s) = .value (TrimSpace s).length)
    (hitems : ∀ x ∈ items, Decode x.text = .ok (some x.object) x.text.length ∧
      x.name ≠ [] ∧ ∀ c ∈ x.space, isJSONSpace c = true) :
    parseObjects (TrimSpace s) = items.map (fun x => some x.object) ∧
    ParseToolCalls s toolToken = some (Complete (items.map ArrayElem.call) toolToken) := by
  have hobjs : parseObjects (TrimSpace s) = items.map (fun x => some x.object) := by
    rw [htext]
    apply parseObjects_array
    · rw [htext] at hvalid; exact hvalid
    · intro x hx; exact ⟨(hitems x hx).1, (hitems x hx).2.2⟩
  refine ⟨hobjs, ?_⟩
  have hcalls : items.map ArrayElem.call ≠ [] := by
    intro h; exact hne (List.map_eq_nil_iff.mp h)
  have hjson : parseJSON (TrimSpace s) = (items.map ArrayElem.call, true) := by
    have hpos : 0 < (items.map ArrayElem.call).length := List.length_pos.mpr hcalls
    unfold parseJSON
    simp only [hobjs, foldl_parseJSON_elems items (fun x hx => (hitems x hx).2.1),
      List.nil_append]
    simp [hpos, hne]
  have hlen : (TrimSpace s).length ≠ 0 := by rw [htext]; simp
  have hb : HasPrefix (TrimSpace s) [0x5B] = true := by
    rw [htext]; simp [HasPrefix, List.isPrefixOf]
  simp only [ParseToolCalls, ParseToolCallsFuel, hlen, if_false, hb, if_true, hstart, hjson,
    Complete]

theorem C4_array_complete_witness :
    parseObjects (TrimSpace (ofString
      "[\x7b\"name\": \"a\", \"arguments\": \x7b\"x\": 1\x7d\x7d , \x7b\"name\":\"b\",\"arguments\":\x7b\x7d\x7d]\n"))
      = [some [(ofString "arguments", .obj [(ofString "x", .num (ofString "1"))]),
               (ofString "name", .str (ofString "a"))],
         some [(ofString "arguments", .obj []), (ofString "name", .str (ofString "b"))]] ∧
    ParseToolCalls (ofString
      "[\x7b\"name\": \"a\", \"arguments\": \x7b\"x\": 1\x7d\x7d , \x7b\"name\":\"b\",\"arguments\":\x7b\x7d\x7d]\n")
        (some (ofString "[TOOL_CALLS]"))
      = some (Complete
          [⟨⟨ofString "a", some [(ofString "x", .num (ofString "1"))]⟩⟩,
           ⟨⟨ofString "b", some []⟩⟩]
          (some (ofString "[TOOL_CALLS]"))) :=
  C4_array_complete
    (ofString
      "[\x7b\"name\": \"a\", \"arguments\": \x7b\"x\": 1\x7d\x7d , \x7b\"name\":\"b\",\"arguments\":\x7b\x7d\x7d]\n")
    (some (ofString "[TOOL_CALLS]"))
    [⟨ofString "\x7b\"name\": \"a\", \"arguments\": \x7b\"x\": 1\x7d\x7d", ofString " ",
        ofString "a", [(ofString "x", .num (ofString "1"))]⟩,
     ⟨ofString " \x7b\"name\":\"b\",\"arguments\":\x7b\x7d\x7d", [], ofString "b", []⟩]
    (List.cons_ne_nil _ _) (by decide) (by decide) (by decide) (by decide)

/-- C5: token stability. With a non-empty token `t` in the slot, a call of
`ParseToolCalls` (with all its recursive calls) comes to an end and, when it
returns, the slot still holds `t`; and for any slot, a call that returns with
the slot changed started with the empty string in the slot. -/
theorem C5_token_stability (s : Bytes) :
    (∀ t : Bytes, t ≠ [] →
      ∃ r, ParseToolCalls s (some t) = some r ∧
        (r = Res.panic ∨ ∃ calls part ok, r = Res.ret calls part ok (some t))) ∧
    (∀ (toolToken : Option Bytes) (calls : List ToolCall) (part ok : Bool)
      (slot : Option Bytes),
      ParseToolCalls s toolToken = some (Res.ret calls part ok slot) →
      slot ≠ toolToken → toolToken = some []) := by
  constructor
  · intro t ht
    obtain ⟨r, hr⟩ := ParseToolCalls_isSome s (some t)
    refine ⟨r, hr, ?_⟩
    cases r with
    | panic => exact Or.inl rfl
    | ret calls part ok slot =>
      right
      rcases ParseToolCallsFuel_slot _ _ _ _ _ _ _ hr with h | h
      · exact ⟨calls, part, ok, by rw [h]⟩
      · exact absurd (Option.some.inj h) ht
  · intro toolToken calls part ok slot h hne
    rcases ParseToolCallsFuel_slot _ _ _ _ _ _ _ h with h1 | h1
    · exact absurd h1 hne
    · exact h1

theorem C5_token_stability_witness :
    ofString "[TOOL_CALLS]" ≠ [] ∧
    ∃ r, ParseToolCalls (ofString "[TOOL_CALLS] [\x7b\"name\":\"a\",\"arguments\":\x7b\x7d\x7d]")
        (some (ofString "[TOOL_CALLS]")) = some r ∧
      (r = Res.panic ∨ ∃ calls part ok, r = Res.ret calls part ok (some (ofString "[TOOL_CALLS]"))) :=
  ⟨by decide,
   (C5_token_stability (ofString "[TOOL_CALLS] [\x7b\"name\":\"a\",\"arguments\":\x7b\x7d\x7d]")).1
     (ofString "[TOOL_CALLS]") (by decide)⟩

/-- C6: idempotence of rejection. If `ParseToolCalls(s, slot)` returns NoMatch,
then the call has left the slot as it was, and the same call made again
returns NoMatch again. -/
theorem C6_rejection_idempotent (s : Bytes) (toolToken slot : Option Bytes)
    (h : ParseToolCalls s toolToken = some (NoMatch slot)) :
    slot = toolToken ∧ ParseToolCalls s slot = some (NoMatch slot) := by
  have hs : slot = toolToken := ParseToolCallsFuel_notOk_slot _ _ _ _ _ _ h
  exact ⟨hs, by rw [hs]; rw [hs] at h; exact h⟩

theorem C6_rejection_idempotent_witness :
    ParseToolCalls (ofString "The weather is fine.") (some []) = some (NoMatch (some [])) ∧
    (some [] : Option Bytes) = some [] ∧
    ParseToolCalls (ofString "The weather is fine.") (some []) = some (NoMatch (some [])) :=
  ⟨by decide, C6_rejection_idempotent (ofString "The weather is fine.") (some []) (some [])
    (by decide)⟩

/-- C7: a text whose trimmed form does not start with `[`, `{`, three
backticks or `<`, has no `(` and has more than one field is NoMatch, whatever
the slot holds, and the slot is left as it was. -/
theorem C7_leading_text_rejected (s : Bytes) (toolToken : Option Bytes)
    (h1 : HasPrefix (TrimSpace s) [0x5B] = false)
    (h2 : HasPrefix (TrimSpace s) [0x7B] = false)
    (h3 : HasPrefix (TrimSpace s) [0x60, 0x60, 0x60] = false)
    (h4 : HasPrefix (TrimSpace s) [0x3C] = false)
    (h5 : Contains (TrimSpace s) [0x28] = false)
    (h6 : 1 < lenFields (TrimSpace s)) :
    ParseToolCalls s toolToken = some (NoMatch toolToken) := by
  have hlen : (TrimSpace s).length ≠ 0 := by
    intro h0
    rw [List.length_eq_zero.mp h0] at h6
    simp [lenFields, fieldsFuel] at h6
  have h7 : lenFields (TrimSpace s) ≠ 1 := by omega
  simp [ParseToolCalls, ParseToolCallsFuel, hlen, h1, h2, h3, h4, h5, h7, NoMatch]

theorem C7_leading_text_rejected_witness :
    ParseToolCalls (ofString "functools[\x7b\"name\": \"x\", \"arguments\": \x7b\x7d\x7d]")
        (some (ofString "functools"))
      = some (NoMatch (some (ofString "functools"))) :=
  C7_leading_text_rejected (ofString "functools[\x7b\"name\": \"x\", \"arguments\": \x7b\x7d\x7d]")
    (some (ofString "functools")) (by decide) (by decide) (by decide) (by decide) (by decide)
    (by decide)

/-- C8 (as stated, refuted): the text `f(a=` + line feed + `) g(b=2)` has the
occurrence `f(...)` with `=` in its argument text, but the argument text has a
line feed, which the `.` of the pattern does not match:
`parsePythonFunctionCall` returns the call `g` only. -/
theorem C8_line_feed_counterexample :
    ofString "f(a=\n) g(b=2)"
      = ofString "f" ++ 0x28 :: (ofString "a=\n" ++ 0x29 :: ofString " g(b=2)") ∧
    Contains (ofString "a=\n") [0x3D] = true ∧
    parsePythonFunctionCall (ofString "f(a=\n) g(b=2)")
      = ([{ Function := { Name := ofString "g",
                          Arguments := some [(ofString "b", .str (ofString "2"))] } }], true) := by
  decide

/-- C8 (amended): every text has one sequence of non-overlapping occurrences
`identifier(args)` with the argument text on one line, and
`parsePythonFunctionCall(s)` returns one ToolCall for each occurrence whose
argument text contains `=`, in the order of the occurrences and named by the
identifier; occurrences without `=` add nothing; the found flag is true
exactly when there is such an occurrence. On the text
`get_current_weather(format="fahrenheit", location="San Francisco, CA")` the
result is exactly one ToolCall. -/
theorem C8_single_line_calls (s : Bytes) :
    (∃ l, SpecOccurrences s l) ∧
    (∀ l, SpecOccurrences s l →
      (parsePythonFunctionCall s).1 =
        (l.filter (fun m => Contains m.2 [0x3D])).map
          (fun m => ({ Function := { Name := m.1, Arguments := some (keywordArguments m.2) } } :
            ToolCall)) ∧
      ((parsePythonFunctionCall s).2 = true ↔ ∃ m ∈ l, Contains m.2 [0x3D] = true)) ∧
    parsePythonFunctionCall
        (ofString "get_current_weather(format=\"fahrenheit\", location=\"San Francisco, CA\")")
      = ([{ Function := { Name := ofString "get_current_weather",
                          Arguments := some [(ofString "format", .str (ofString "\"fahrenheit\"")),
                            (ofString "location", .str (ofString "\"San Francisco"))] } }], true) ∧
    parsePythonFunctionCall (ofString "a(x=1) b(2) c(y=3)")
      = ([{ Function := { Name := ofString "a",
                          Arguments := some [(ofString "x", .str (ofString "1"))] } },
          { Function := { Name := ofString "c",
                          Arguments := some [(ofString "y", .str (ofString "3"))] } }], true) := by
  refine ⟨⟨_, SpecOccurrences_pythonFuncRegex s⟩, ?_, by decide, by decide⟩
  intro l hl
  rw [SpecOccurrences_eq s l hl]
  exact parsePythonFunctionCall_matches s

theorem C8_single_line_calls_witness :
    SpecOccurrences
        (ofString "get_current_weather(format=\"fahrenheit\", location=\"San Francisco, CA\")")
        [(ofString "get_current_weather",
          ofString "format=\"fahrenheit\", location=\"San Francisco, CA\"")] ∧
    (parsePythonFunctionCall
        (ofString "get_current_weather(format=\"fahrenheit\", location=\"San Francisco, CA\")")).1
      = [{ Function := { Name := ofString "get_current_weather",
                         Arguments := some [(ofString "format", .str (ofString "\"fahrenheit\"")),
                           (ofString "location", .str (ofString "\"San Francisco"))] } }] :=
  (fun h => ⟨h, ((C8_single_line_calls _).2.1 _ h).1.trans (by decide)⟩)
    (SpecOccurrences.call _ _ _ [] [] (by decide) SpecOccurrences.done)

/-- C9 (as stated, refuted): the text
`get_current_weather(format="fahrenheit", "San Francisco, CA")` still has
`format=` in its argument text, and both `parsePythonFunctionCall` and
`ParseToolCalls` produce one ToolCall from it. -/
theorem C9_mixed_call_counterexample :
    parsePythonFunctionCall
        (ofString "get_current_weather(format=\"fahrenheit\", \"San Francisco, CA\")")
      = ([{ Function := { Name := ofString "get_current_weather",
                          Arguments := some [(ofString "format",
                            .str (ofString "\"fahrenheit\""))] } }], true) ∧
    ParseToolCalls
        (ofString "get_current_weather(format=\"fahrenheit\", \"San Francisco, CA\")") none
      = some (Complete [⟨⟨ofString "get_current_weather",
          some [(ofString "format", .str (ofString "\"fahrenheit\""))]⟩⟩] none) := by
  decide

/-- C9 (amended): a text in which no occurrence of `identifier(args)` has a
`=` in its argument text yields no ToolCall from `parsePythonFunctionCall`;
and when its trimmed form does not start with `[`, `{`, three backticks or
`<`, `ParseToolCalls` returns no ToolCall either and leaves the slot. -/
theorem C9_positional_only (s : Bytes) (toolToken : Option Bytes) :
    ((∀ m ∈ pythonFuncRegex s, Contains m.2 [0x3D] = false) →
      parsePythonFunctionCall s = ([], false)) ∧
    ((∀ m ∈ pythonFuncRegex (TrimSpace s), Contains m.2 [0x3D] = false) →
      HasPrefix (TrimSpace s) [0x5B] = false →
      HasPrefix (TrimSpace s) [0x7B] = false →
      HasPrefix (TrimSpace s) [0x60, 0x60, 0x60] = false →
      HasPrefix (TrimSpace s) [0x3C] = false →
      ∃ part ok, ParseToolCalls s toolToken = some (Res.ret [] part ok toolToken)) := by
  have key : ∀ t : Bytes, (∀ m ∈ pythonFuncRegex t, Contains m.2 [0x3D] = false) →
      parsePythonFunctionCall t = ([], false) := by
    intro t h
    have hf : (pythonFuncRegex t).filter (fun m => Contains m.2 [0x3D]) = [] := by
      rw [List.filter_eq_nil_iff]
      intro m hm
      simp [h m hm]
    unfold parsePythonFunctionCall
    simp only [foldl_pythonStep, hf, List.nil_append, List.map_nil, List.length_nil,
      gt_iff_lt, lt_self_iff_false, if_false, ite_self]
  refine ⟨key s, ?_⟩
  intro hpos h1 h2 h3 h4
  have hk := key _ hpos
  simp only [ParseToolCalls, ParseToolCallsFuel, h1, h2, h3, h4, hk]
  split
  · exact ⟨_, _, rfl⟩
  · simp only [Bool.false_eq_true, if_false, Bool.or_self]
    split <;> exact ⟨_, _, rfl⟩

theorem C9_positional_only_witness :
    parsePythonFunctionCall (ofString "get_current_weather(\"fahrenheit\", \"San Francisco, CA\")")
      = ([], false) ∧
    ∃ part ok,
      ParseToolCalls (ofString "get_current_weather(\"fahrenheit\", \"San Francisco, CA\")") none
        = some (Res.ret [] part ok none) :=
  ⟨(C9_positional_only
      (ofString "get_current_weather(\"fahrenheit\", \"San Francisco, CA\")") none).1 (by decide),
   (C9_positional_only
      (ofString "get_current_weather(\"fahrenheit\", \"San Francisco, CA\")") none).2
      (by decide) (by decide) (by decide) (by decide) (by decide)⟩

/-- C10 (as stated, refuted): in `f(a=b=c)` the piece `a=b=c` has a value with
a further `=`; `strings.Split` cuts it in three, the test `len(kv) == 2` fails
and the piece is dropped: the arguments are empty and do not map `a` to `b=c`. -/
theorem C10_second_equals_counterexample :
    parsePythonFunctionCall (ofString "f(a=b=c)")
      = ([{ Function := { Name := ofString "f", Arguments := some [] } }], true) ∧
    keywordArguments (ofString "a=b=c") ≠ [(ofString "a", JVal.str (ofString "b=c"))] := by
  decide

/-- C10 (amended): a comma-delimited piece with exactly one `=`, of the form
`k=v`, maps the trimmed text before the `=` to the trimmed literal text after
it; a piece whose count of `=` is not one adds no entry. -/
theorem C10_single_equals (arguments : List (Bytes × JVal)) (pair : Bytes) :
    (∀ k v : Bytes, TrimSpace pair = k ++ 0x3D :: v → 0x3D ∉ k → 0x3D ∉ v →
      keywordPair arguments pair = mapSet arguments (TrimSpace k) (JVal.str (TrimSpace v))) ∧
    (Count (TrimSpace pair) 0x3D ≠ 1 → keywordPair arguments pair = arguments) := by
  constructor
  · intro k v hp hk hv
    have hs : Split (TrimSpace pair) 0x3D = [k, v] := by
      rw [hp, Split_append k v _ hk, Split_not_mem v _ hv]
    simp only [keywordPair, hs]
  · intro hc
    have hl := Split_length (TrimSpace pair) 0x3D
    unfold keywordPair
    simp only
    split
    · rename_i k v hs
      rw [hs] at hl
      simp only [List.length_cons, List.length_nil] at hl
      omega
    · rfl

theorem C10_single_equals_witness :
    keywordPair [] (ofString " e = 4 ")
        = mapSet [] (TrimSpace (ofString "e ")) (JVal.str (TrimSpace (ofString " 4"))) ∧
    keywordPair [] (ofString "a=b=c") = [] :=
  ⟨(C10_single_equals [] (ofString " e = 4 ")).1 (ofString "e ") (ofString " 4")
      (by decide) (by decide) (by decide),
   (C10_single_equals [] (ofString "a=b=c")).2 (by decide)⟩

/-- C11: a text that is cut before the end of the JSON encoding of one object
(white space before the object allowed) gives the empty sequence in
`parseObjects`: the decoder comes to the end of the input, which is not an
error for `parseObjects`, and nothing is appended. -/
theorem C11_truncated_object (p q : Bytes) (hq : q ≠ [])
    (hobj : ((p ++ q).dropWhile isJSONSpace).head? = some 0x7B)
    (hvalid : readValue (p ++ q) = .value (p ++ q).length) :
    parseObjects p = [] := by
  have hbody : ∃ body, (p ++ q).dropWhile isJSONSpace = 0x7B :: body := by
    cases hd : (p ++ q).dropWhile isJSONSpace with
    | nil => rw [hd] at hobj; simp at hobj
    | cons c r =>
      rw [hd] at hobj
      simp only [List.head?_cons, Option.some.injEq] at hobj
      exact ⟨r, by rw [hobj]⟩
  have h := parseObjects_turn_eof p [] (Decode_object_cut p q (p ++ q) hq rfl hbody hvalid).symm
  unfold parseObjects
  rw [h]

theorem C11_truncated_object_witness :
    parseObjects (ofString "\x7b\"name\": \"get_current_weather\", \"arguments\": ") = [] :=
  C11_truncated_object (ofString "\x7b\"name\": \"get_current_weather\", \"arguments\": ")
    (ofString "\x7b\x7d\x7d") (by decide) (by decide) (by decide)

set_option exponentiation.threshold 400 in
/-- C12 (as stated, refuted): `{"a":1e309}` is a JSON object, but its number is
out of the range of `float64`: the decoder returns an `UnmarshalTypeError`,
`parseObjects` goes on inside the object and returns nothing for the wrapped
text. With an object nested after the number, it returns that inner object
alone. -/
theorem C12_out_of_range_counterexample :
    checkValid (ofString "\x7b\"a\":1e309\x7d") = true ∧
    Decode (ofString "\x7b\"a\":1e309\x7d") = .unmarshalTypeError 11 ∧
    parseObjects (ofString "<toolcall>\x7b\"a\":1e309\x7d</toolcall>") = [] ∧
    parseObjects (ofString "<toolcall>\x7b\"a\":1e309,\"b\":\x7b\"c\":1\x7d\x7d</toolcall>")
      = [some [(ofString "c", .num (ofString "1"))]] := by
  decide

/-- C12 (amended): for a sequence of texts that the decoder decodes without
error to the objects `o1..on` (so with no number out of the range of
`float64`), each wrapped as `<toolcall>`…`</toolcall>` (white space allowed
before `</toolcall>` and after it), `parseObjects` returns exactly `o1..on` in
order: the wrappers are stepped over by the offsets of the syntax errors and
add no element. -/
theorem C12_wrapped_objects (items : List WrappedElem)
    (hitems : ∀ x ∈ items, Decode x.text = .ok (some x.object) x.text.length ∧
      (∀ c ∈ x.inner, isJSONSpace c = true) ∧ (∀ c ∈ x.outer, isJSONSpace c = true)) :
    parseObjects (wrappedText items) = items.map (fun x => some x.object) := by
  have h := parseObjects_wrappedText items [] [] (by simp) hitems
  simp only [List.nil_append] at h
  unfold parseObjects
  rw [h]

theorem C12_wrapped_objects_witness :
    wrappedText
        [⟨ofString "\x7b\"name\":\"a\",\"arguments\":\x7b\x7d\x7d", ofString " ", ofString " ",
            [(ofString "arguments", .obj []), (ofString "name", .str (ofString "a"))]⟩,
         ⟨ofString "\x7b\"name\":\"b\",\"arguments\":\x7b\x7d\x7d", [], [],
            [(ofString "arguments", .obj []), (ofString "name", .str (ofString "b"))]⟩]
      = ofString
        "<toolcall>\x7b\"name\":\"a\",\"arguments\":\x7b\x7d\x7d </toolcall> <toolcall>\x7b\"name\":\"b\",\"arguments\":\x7b\x7d\x7d</toolcall>" ∧
    parseObjects (wrappedText
        [⟨ofString "\x7b\"name\":\"a\",\"arguments\":\x7b\x7d\x7d", ofString " ", ofString " ",
            [(ofString "arguments", .obj []), (ofString "name", .str (ofString "a"))]⟩,
         ⟨ofString "\x7b\"name\":\"b\",\"arguments\":\x7b\x7d\x7d", [], [],
            [(ofString "arguments", .obj []), (ofString "name", .str (ofString "b"))]⟩])
      = [some [(ofString "arguments", .obj []), (ofString "name", .str (ofString "a"))],
         some [(ofString "arguments", .obj []), (ofString "name", .str (ofString "b"))]] :=
  ⟨by decide,
   C12_wrapped_objects
    [⟨ofString "\x7b\"name\":\"a\",\"arguments\":\x7b\x7d\x7d", ofString " ", ofString " ",
        [(ofString "arguments", .obj []), (ofString "name", .str (ofString "a"))]⟩,
     ⟨ofString "\x7b\"name\":\"b\",\"arguments\":\x7b\x7d\x7d", [], [],
        [(ofString "arguments", .obj []), (ofString "name", .str (ofString "b"))]⟩]
    (by decide)⟩

/-- C13 (the code departs from the claim at the fault of C1): with the token
`<tool_call>` in the slot and the text `<`, the slice expression
`s[len(*toolToken):]` panics and there is no result triple. Apart from a
panic, the claim holds: every call of `ParseToolCalls` comes to an end, and a
result that is returned is exactly one of NoMatch (no calls, partial false, ok
false), Partial (no calls, partial true, ok true) and Complete (calls, not
empty, partial false, ok true); no other triple is returned. -/
theorem C13_three_outcomes :
    ParseToolCalls (ofString "<") (some (ofString "<tool_call>")) = some Res.panic ∧
    ∀ (s : Bytes) (toolToken : Option Bytes),
      ∃ r, ParseToolCalls s toolToken = some r ∧
        (r = Res.panic ∨ ∃ slot, r = NoMatch slot ∨ r = Partial slot ∨
          ∃ calls, calls ≠ [] ∧ r = Complete calls slot) := by
  refine ⟨by decide, ?_⟩
  intro s toolToken
  obtain ⟨r, hr⟩ := ParseToolCalls_isSome s toolToken
  refine ⟨r, hr, ?_⟩
  refine ParseToolCallsFuel_cases
    (fun r => r = Res.panic ∨ ∃ slot, r = NoMatch slot ∨ r = Partial slot ∨
      ∃ calls, calls ≠ [] ∧ r = Complete calls slot)
    ?_ ?_ ?_ ?_ ?_ ?_ _ s toolToken r hr
  · intro slot; exact Or.inr ⟨slot, Or.inl rfl⟩
  · intro slot; exact Or.inr ⟨slot, Or.inr (Or.inl rfl)⟩
  · intro t calls slot h
    exact Or.inr ⟨slot, Or.inr (Or.inr ⟨calls, parseJSON_ok_ne_nil t calls h, rfl⟩)⟩
  · intro t tc slot h
    exact Or.inr ⟨slot, Or.inr (Or.inr ⟨tc, parsePythonFunctionCall_ok_ne_nil t tc h, rfl⟩)⟩
  · exact Or.inl rfl
  · intro x hx
    rcases hx with hx | ⟨slot, hx | hx | ⟨calls, hne, hx⟩⟩
    · rw [hx]; exact Or.inl rfl
    · rw [hx]; exact Or.inr ⟨slot, Or.inr (Or.inl rfl)⟩
    · rw [hx]; exact Or.inr ⟨slot, Or.inr (Or.inl rfl)⟩
    · rw [hx]; exact Or.inr ⟨slot, Or.inr (Or.inr ⟨calls, hne, rfl⟩)⟩

/-- C14: every ToolCall has a function name that is not empty: each call
returned by `parseJSONToolCalls`, each call returned by
`parsePythonFunctionCall`, and each call of a result of `ParseToolCalls`. -/
theorem C14_names_not_empty :
    (∀ (obj : GoMap), ∀ c ∈ (parseJSONToolCalls obj).1, c.Function.Name ≠ []) ∧
    (∀ (s : Bytes), ∀ c ∈ (parsePythonFunctionCall s).1, c.Function.Name ≠ []) ∧
    (∀ (s : Bytes) (toolToken : Option Bytes) (calls : List ToolCall) (part ok : Bool)
      (slot : Option Bytes),
      ParseToolCalls s toolToken = some (Res.ret calls part ok slot) →
      ∀ c ∈ calls, c.Function.Name ≠ []) := by
  refine ⟨parseJSONToolCalls_name, parsePythonFunctionCall_name, ?_⟩
  intro s toolToken calls part ok slot h
  have key := ParseToolCallsFuel_cases
    (fun r => ∀ calls part ok slot, r = Res.ret calls part ok slot →
      ∀ c ∈ calls, c.Function.Name ≠ [])
    ?_ ?_ ?_ ?_ ?_ ?_ _ s toolToken _ h
  · exact key calls part ok slot rfl
  · intro slot calls part ok slot' h c hc
    simp only [Res.ret.injEq] at h
    rw [← h.1] at hc; simp at hc
  · intro slot calls part ok slot' h c hc
    simp only [Res.ret.injEq] at h
    rw [← h.1] at hc; simp at hc
  · intro t calls0 slot0 hj calls part ok slot' h c hc
    simp only [Res.ret.injEq] at h
    rw [← h.1] at hc
    have := parseJSON_name t c
    rw [hj] at this
    exact this hc
  · intro t tc slot0 hp calls part ok slot' h c hc
    simp only [Res.ret.injEq] at h
    rw [← h.1] at hc
    have := parsePythonFunctionCall_name t c
    rw [hp] at this
    exact this hc
  · intro calls part ok slot' h; simp at h
  · intro x hx calls part ok slot' h c hc
    unfold afterRecursion at h
    split at h
    · simp only [Res.ret.injEq] at h
      rw [← h.1] at hc
      exact hx _ _ _ _ rfl c hc
    · simp only [Res.ret.injEq] at h
      rw [← h.1] at hc; simp at hc
    · simp at h

/-- C15 (as stated, refuted): the decoded object
`{"arguments": {}, "name": "a", "tool_calls": [{"name": "z", "parameters": {}}]}`
has a non-empty `name` with `arguments` and a `tool_calls` array of one valid
call. The order of the claim gives the single call `a`; `parseJSONToolCalls`
looks at `tool_calls` first and returns the call `z`. -/
theorem C15_tool_calls_counterexample :
    parseJSONToolCalls (some
        [(ofString "arguments", .obj []), (ofString "name", .str (ofString "a")),
         (ofString "tool_calls", .arr [.obj [(ofString "name", .str (ofString "z")),
            (ofString "parameters", .obj [])]])])
      = ([⟨⟨ofString "z", some []⟩⟩], true) ∧
    specPriority (Unmarshal (Marshal (some
        [(ofString "arguments", .obj []), (ofString "name", .str (ofString "a")),
         (ofString "tool_calls", .arr [.obj [(ofString "name", .str (ofString "z")),
            (ofString "parameters", .obj [])]])])) toolCallFormat.zero).1
      = some [⟨⟨ofString "a", some []⟩⟩] := by
  decide

/-- C15 (amended): `parseJSONToolCalls` tries the `tool_calls` array first
(each element by the single-object shapes, at least one success required),
and then the single-object shapes in the order name+arguments,
name+parameters, tool_name+parameters, nested function object: for every
decoded object, the result is the call or calls of the first shape that
matches the struct the object is unmarshalled into, and no call when
`json.Unmarshal` fails (`parseJSONToolCalls_type_error`) or no shape
matches. -/
theorem C15_tool_calls_first (obj : GoMap) :
    parseJSONToolCalls obj =
      match Unmarshal (Marshal obj) toolCallFormat.zero with
      | (_, true) => ([], false)
      | (f, false) =>
        match toolCallsFirstPriority f with
        | some calls => (calls, true)
        | none => ([], false) :=
  parseJSONToolCalls_eq_priority obj

/-- C16: for a decoded object with no other keys than `name` and `arguments`,
`parseJSONToolCalls` produces a ToolCall exactly when `name` is a string that
is not empty and `arguments` is an object, and then it is the one ToolCall
with that name and those arguments; an empty object `{}` as `arguments` counts
as present. -/
theorem C16_field_presence (name arguments : Option JVal) :
    parseJSONToolCalls (some (nameArgumentsObject name arguments)) =
      (match name, arguments with
       | some (.str n), some (.obj a) =>
         if n ≠ [] then ([{ Function := { Name := n, Arguments := some a } }], true)
         else ([], false)
       | _, _ => ([], false)) ∧
    parseJSONToolCalls (some (nameArgumentsObject (some (.str (ofString "f"))) (some (.obj []))))
      = ([{ Function := { Name := ofString "f", Arguments := some [] } }], true) := by
  have h1 : lookupField formatFields (ofString "arguments") = some (ofString "arguments") := by
    decide
  have h2 : lookupField formatFields (ofString "name") = some (ofString "name") := by decide
  have h3 : ofString "arguments" ≠ ofString "tool_calls" := by decide
  have h4 : ofString "name" ≠ ofString "tool_calls" := by decide
  have h5 : ofString "arguments" ≠ ofString "name" := by decide
  refine ⟨?_, by decide⟩
  cases name with
  | none =>
    cases arguments with
    | none => decide
    | some va =>
      cases va <;>
        simp [nameArgumentsObject, parseJSONToolCalls, toArray, Marshal, Unmarshal,
          unmarshalFields_cons, unmarshalEntry, unmarshalFields, h1, h2, h3, h4, h5, storeField,
          storeString, storeMap, toolCallFormat.zero, makeToolCall, toolCallFormat.Name,
          toolCallFormat.Arguments, toolCallFormat.ToolCalls, toolCallFormat.ToolName,
          toolCallFormat.Parameters, toolCallFormat.Function]
  | some vn =>
    cases arguments with
    | none =>
      cases vn <;>
        simp [nameArgumentsObject, parseJSONToolCalls, toArray, Marshal, Unmarshal,
          unmarshalFields_cons, unmarshalEntry, unmarshalFields, h1, h2, h3, h4, h5, storeField,
          storeString, storeMap, toolCallFormat.zero, makeToolCall, toolCallFormat.Name,
          toolCallFormat.Arguments, toolCallFormat.ToolCalls, toolCallFormat.ToolName,
          toolCallFormat.Parameters, toolCallFormat.Function]
    | some va =>
      cases vn <;> cases va <;>
        simp [nameArgumentsObject, parseJSONToolCalls, toArray, Marshal, Unmarshal,
          unmarshalFields_cons, unmarshalEntry, unmarshalFields, h1, h2, h3, h4, h5, storeField,
          storeString, storeMap, toolCallFormat.zero, makeToolCall, toolCallFormat.Name,
          toolCallFormat.Arguments, toolCallFormat.ToolCalls, toolCallFormat.ToolName,
          toolCallFormat.Parameters, toolCallFormat.Function]
      split_ifs <;> simp

/-- C17 (as stated, refuted): in the output `-> <tool_call>` a `>` comes
before the first `<`, and the first `<` is followed by a `>`; `strings.Index`
finds the earlier `>`, the test `end > start` fails and `TemplateToolToken`
reports no token, where the claim has the token `<tool_call>`. -/
theorem C17_earlier_close_counterexample :
    TemplateToolToken (some (ofString "-> <tool_call>")) = ([], [], false) := by
  decide

/-- C17 (amended): for a rendered output that contains `<`, the token is the
text from the first `<` to the first `>` of the whole output, inclusive, and
the call succeeds, when that first `>` comes after the first `<`; when a `>`
comes before the first `<`, or there is no `>`, no token is reported. -/
theorem C17_first_angle_pair (b : Bytes) :
    (∀ pre mid post : Bytes, TrimSpace b = pre ++ 0x3C :: (mid ++ 0x3E :: post) →
      0x3C ∉ pre → 0x3E ∉ pre → 0x3E ∉ mid →
      TemplateToolToken (some b) = (TrimSpace b, 0x3C :: (mid ++ [0x3E]), true)) ∧
    (∀ pre post : Bytes, TrimSpace b = pre ++ 0x3E :: post →
      0x3E ∉ pre → 0x3C ∉ pre → 0x3C ∈ post →
      TemplateToolToken (some b) = ([], [], false)) ∧
    (0x3C ∈ TrimSpace b → 0x3E ∉ TrimSpace b →
      TemplateToolToken (some b) = ([], [], false)) := by
  refine ⟨?_, ?_, ?_⟩
  · intro pre mid post ht h1 h2 h3
    have hc : Contains (TrimSpace b) [0x3C] = true := by
      rw [Contains_singleton, ht]; simp
    have hs : Index (TrimSpace b) [0x3C] = some pre.length := by
      rw [ht]; exact Index_singleton pre _ _ h1
    have he : Index (TrimSpace b) [0x3E] = some (pre.length + (mid.length + 1)) := by
      rw [ht]
      have := Index_singleton (pre ++ 0x3C :: mid) post 0x3E (by simp [h2, h3])
      simpa using this
    have hsl : slice (TrimSpace b) pre.length (pre.length + (mid.length + 1) + 1)
        = 0x3C :: (mid ++ [0x3E]) := by
      rw [ht]
      unfold slice
      rw [List.drop_left' rfl,
        show 0x3C :: (mid ++ 0x3E :: post) = (0x3C :: (mid ++ [0x3E])) ++ post by simp]
      exact List.take_left' (by simp; omega)
    simp only [TemplateToolToken, hc, if_true, hs, he]
    rw [if_pos (by omega), hsl]
  · intro pre post ht h1 h2 h3
    have hc : Contains (TrimSpace b) [0x3C] = true := by
      rw [Contains_singleton, ht]; simp [h3]
    have he : Index (TrimSpace b) [0x3E] = some pre.length := by
      rw [ht]; exact Index_singleton pre _ _ h1
    obtain ⟨p1, p2, hp, hp1⟩ : ∃ p1 p2, post = p1 ++ 0x3C :: p2 ∧ 0x3C ∉ p1 := by
      obtain ⟨p1, p2, hp, hp1⟩ := List.eq_append_cons_of_mem h3
      exact ⟨p1, p2, hp, hp1⟩
    have hs : Index (TrimSpace b) [0x3C] = some (pre.length + (p1.length + 1)) := by
      rw [ht, hp]
      have := Index_singleton (pre ++ 0x3E :: p1) p2 0x3C (by simp [h2, hp1])
      simpa using this
    simp only [TemplateToolToken, hc, if_true, hs, he]
    rw [if_neg (by omega)]
  · intro h1 h2
    have hc : Contains (TrimSpace b) [0x3C] = true := (Contains_singleton _ _).mpr h1
    obtain ⟨p1, p2, hp, hp1⟩ := List.eq_append_cons_of_mem h1
    have hs : Index (TrimSpace b) [0x3C] = some p1.length := by
      rw [hp]; exact Index_singleton p1 _ _ hp1
    simp only [TemplateToolToken, hc, if_true, hs, Index_singleton_none _ _ h2]

theorem C17_first_angle_pair_witness :
    TemplateToolToken (some (ofString " a<b<tool_call> x > <y> "))
      = (TrimSpace (ofString " a<b<tool_call> x > <y> "), 0x3C :: (ofString "b<tool_call" ++ [0x3E]),
          true) :=
  (C17_first_angle_pair (ofString " a<b<tool_call> x > <y> ")).1
    (ofString "a") (ofString "b<tool_call") (ofString " x > <y>")
    (by decide) (by decide) (by decide) (by decide)

/-- C18: for the openers `[` and `<`, `deriveToolToken` is the reference
definition: failure when `s` has more than one field; otherwise success with
the token `s` when `s` is longer than one byte and ends with the closer of the
opener; otherwise partial. A bare opener is partial, not failed. -/
theorem C18_deriveToolToken_reference (s : Bytes) :
    deriveToolToken s [0x5B] = deriveToolTokenSpec s 0x5B ∧
    deriveToolToken s [0x3C] = deriveToolTokenSpec s 0x3C ∧
    deriveToolToken [0x5B] [0x5B] = ([], true, true) ∧
    deriveToolToken [0x3C] [0x3C] = ([], true, true) := by
  have h1 : ([0x3C] : Bytes) ≠ [0x5B] := by decide
  have h2 : ([0x5B] : Bytes) ≠ [0x3C] := by decide
  refine ⟨?_, ?_, by decide, by decide⟩
  · unfold deriveToolToken deriveToolTokenSpec
    simp only [h2, false_and, if_false, true_and, if_true]
  · unfold deriveToolToken deriveToolTokenSpec
    have h3 : ¬ ((0x3C : Nat) = 0x5B) := by decide
    simp only [h1, false_and, if_false, true_and, h3]

/-- C19: strip and recurse. With a non-empty token `t` in the slot and a text
whose trimmed form is `t ++ rest` and starts with `<` (or starts with `[` but
not with `[\x7b` and has no opening parenthesis), `ParseToolCalls` returns, and
its result is that of the recursive call on `rest` passed through the end of
the branch: a Partial or Complete result of the recursive call is returned
unchanged, a NoMatch of the recursive call becomes Partial, and the result is
never NoMatch. -/
theorem C19_strip_and_recurse (s t rest : Bytes) (ht : t ≠ [])
    (hs : TrimSpace s = t ++ rest)
    (hbranch : HasPrefix (TrimSpace s) [0x3C] = true ∨
      (HasPrefix (TrimSpace s) [0x5B] = true ∧ HasPrefix (TrimSpace s) [0x5B, 0x7B] = false ∧
        Contains (TrimSpace s) [0x28] = false)) :
    (∃ r, ParseToolCalls s (some t) = some r) ∧
    ParseToolCalls s (some t) = (ParseToolCalls rest (some t)).map afterRecursion ∧
    (∀ slot, ParseToolCalls rest (some t) = some (Partial slot) →
      ParseToolCalls s (some t) = some (Partial slot)) ∧
    (∀ calls slot, ParseToolCalls rest (some t) = some (Complete calls slot) →
      ParseToolCalls s (some t) = some (Complete calls slot)) ∧
    (∀ slot, ParseToolCalls rest (some t) = some (NoMatch slot) →
      ParseToolCalls s (some t) = some (Partial slot)) ∧
    (∀ slot, ParseToolCalls s (some t) ≠ some (NoMatch slot)) := by
  have key := ParseToolCalls_strip s t rest ht hs hbranch
  refine ⟨ParseToolCalls_isSome s (some t), key, ?_, ?_, ?_, ?_⟩
  · intro slot h
    rw [key, h]
    rfl
  · intro calls slot h
    rw [key, h]
    rfl
  · intro slot h
    rw [key, h]
    rfl
  · intro slot h
    rw [key] at h
    obtain ⟨r, hr⟩ := ParseToolCalls_isSome rest (some t)
    rw [hr] at h
    simp only [Option.map_some', Option.some.injEq] at h
    cases r with
    | panic => simp [afterRecursion, NoMatch] at h
    | ret calls part ok slot2 =>
      cases ok <;> simp [afterRecursion, NoMatch] at h

theorem C19_strip_and_recurse_witness :
    TrimSpace (ofString " <tool_call> \x7b\"name\": \"f\", \"arguments\": \x7b\x7d\x7d")
      = ofString "<tool_call>" ++ ofString " \x7b\"name\": \"f\", \"arguments\": \x7b\x7d\x7d" ∧
    ParseToolCalls (ofString " \x7b\"name\": \"f\", \"arguments\": \x7b\x7d\x7d")
      (some (ofString "<tool_call>"))
      = some (Complete [⟨⟨ofString "f", some []⟩⟩] (some (ofString "<tool_call>"))) ∧
    ParseToolCalls (ofString " <tool_call> \x7b\"name\": \"f\", \"arguments\": \x7b\x7d\x7d")
      (some (ofString "<tool_call>"))
      = some (Complete [⟨⟨ofString "f", some []⟩⟩] (some (ofString "<tool_call>"))) :=
  ⟨by decide, by decide,
    (C19_strip_and_recurse
      (ofString " <tool_call> \x7b\"name\": \"f\", \"arguments\": \x7b\x7d\x7d")
      (ofString "<tool_call>")
      (ofString " \x7b\"name\": \"f\", \"arguments\": \x7b\x7d\x7d")
      (by decide) (by decide) (Or.inl (by decide))).2.2.2.1 _ _ (by decide)⟩

/-- C20: when the trimmed text starts with `{`, with three backticks or with
`[{`, `ParseToolCalls` is Complete with exactly the calls of `parseJSON` when
`parseJSON` finds at least one call, and Partial otherwise; it is never
NoMatch and the slot is left as it was. -/
theorem C20_json_branches (s : Bytes) (toolToken : Option Bytes)
    (h : HasPrefix (TrimSpace s) [0x7B] = true ∨
      HasPrefix (TrimSpace s) [0x60, 0x60, 0x60] = true ∨
      HasPrefix (TrimSpace s) [0x5B, 0x7B] = true) :
    ParseToolCalls s toolToken =
      some (if (parseJSON (TrimSpace s)).2 = true
        then Complete (parseJSON (TrimSpace s)).1 toolToken
        else Partial toolToken) := by
  have hres : (match parseJSON (TrimSpace s) with
      | (calls, true) => some (Res.ret calls false true toolToken)
      | (_, false) => some (Res.ret [] true true toolToken))
      = some (if (parseJSON (TrimSpace s)).2 = true
        then Complete (parseJSON (TrimSpace s)).1 toolToken
        else Partial toolToken) := by
    generalize parseJSON (TrimSpace s) = r
    obtain ⟨calls, ok⟩ := r
    cases ok <;> simp [Complete, Partial]
  rw [← hres]
  generalize ht : TrimSpace s = t at h ⊢
  cases t with
  | nil => simp [HasPrefix, List.isPrefixOf] at h
  | cons c r =>
    rcases h with h | h | h
    · have hc : c = 0x7B := by
        simp only [HasPrefix, List.isPrefixOf, Bool.and_eq_true, beq_iff_eq] at h
        exact h.1.symm
      subst hc
      simp [ParseToolCalls, ParseToolCallsFuel, ht, HasPrefix, List.isPrefixOf]
    · have hc : c = 0x60 := by
        cases r with
        | nil => simp [HasPrefix, List.isPrefixOf] at h
        | cons c2 r2 =>
          simp only [HasPrefix, List.isPrefixOf, Bool.and_eq_true, beq_iff_eq] at h
          exact h.1.symm
      subst hc
      have h1 : HasPrefix (0x60 :: r) [0x5B] = false := by simp [HasPrefix, List.isPrefixOf]
      simp only [ParseToolCalls, ParseToolCallsFuel, ht, List.length_cons, Nat.succ_ne_zero,
        if_false, h, h1, Bool.or_true, if_true, Bool.false_eq_true]
    · have hc : c = 0x5B := by
        cases r with
        | nil => simp [HasPrefix, List.isPrefixOf] at h
        | cons c2 r2 =>
          simp only [HasPrefix, List.isPrefixOf, Bool.and_eq_true, beq_iff_eq] at h
          exact h.1.symm
      subst hc
      have h1 : HasPrefix (0x5B :: r) [0x5B] = true := by simp [HasPrefix, List.isPrefixOf]
      simp only [ParseToolCalls, ParseToolCallsFuel, ht, List.length_cons, Nat.succ_ne_zero,
        if_false, h, h1, if_true]

theorem C20_json_branches_witness :
    ParseToolCalls (ofString " \x7b\"a\": 1\x7d ") (some (ofString "<tool_call>"))
      = some (Partial (some (ofString "<tool_call>"))) :=
  (C20_json_branches (ofString " \x7b\"a\": 1\x7d ") (some (ofString "<tool_call>"))
    (Or.inl (by decide))).trans (by decide)

/-- C21: `ParseToolCalls` comes to an end on every text and every slot. A
recursive call strips a token that is not empty (the token the slot held, or
the whole trimmed text, freshly derived as a token of more than one byte), so
its text is shorter than the text of its caller; the number of recursive
calls, one inside the other, is at most the length of the text, and the
result is reached at every bound on the depth above that length. -/
theorem C21_terminates (s : Bytes) (toolToken : Option Bytes) :
    (∃ r, ParseToolCalls s toolToken = some r) ∧
    (∀ fuel, s.length < fuel →
      ParseToolCallsFuel fuel s toolToken = ParseToolCalls s toolToken) ∧
    (∀ fuel, ParseToolCallsFuel (fuel + 1) s toolToken =
      match callStep s toolToken with
      | .result r => some r
      | .recurse s' tok => (ParseToolCallsFuel fuel s' (some tok)).map afterRecursion) ∧
    (∀ s' tok, callStep s toolToken = .recurse s' tok →
      tok ≠ [] ∧
      (toolToken = some tok ∨ (toolToken = some [] ∧ tok = TrimSpace s ∧ 1 < tok.length)) ∧
      s'.length + tok.length ≤ s.length ∧ s'.length < s.length) ∧
    (∀ fuel, recursionDepth fuel s toolToken ≤ s.length) ∧
    recursionDepth 10 (ofString "<a> <a> x") (some (ofString "<a>")) = 2 := by
  refine ⟨ParseToolCalls_isSome s toolToken,
    fun fuel h => ParseToolCalls_eq_fuel s toolToken fuel h,
    fun fuel => ParseToolCallsFuel_callStep fuel s toolToken, ?_,
    fun fuel => recursionDepth_le fuel s toolToken, by decide⟩
  intro s' tok h
  obtain ⟨h1, _, _, h4⟩ := callStep_recurse s toolToken s' tok h
  obtain ⟨h5, h6⟩ := callStep_shorter s toolToken s' tok h
  exact ⟨h1, h4, h5, h6⟩

/-- C22: a call of `ParseToolCalls` that returns with the slot changed had the
empty string in the slot; the token it has written is the whole trimmed text,
of more than one byte, and its result is Partial. So with the empty string in
the slot, a text whose trimmed form starts with `<` is never Complete: it is
NoMatch when it has more than one field (white space inside), and Partial
otherwise, with the text written into the slot when it ends with `>` and the
slot left as it was when it does not. A nil `toolToken` is not a slot: nothing
can be written through it (`ParseToolCalls_angle_nil`). -/
theorem C22_slot_write (s : Bytes) :
    (∀ (toolToken : Option Bytes) (calls : List ToolCall) (part ok : Bool)
      (slot : Option Bytes),
      ParseToolCalls s toolToken = some (Res.ret calls part ok slot) → slot ≠ toolToken →
      toolToken = some [] ∧ slot = some (TrimSpace s) ∧ 1 < (TrimSpace s).length ∧
        Res.ret calls part ok slot = Partial (some (TrimSpace s))) ∧
    (HasPrefix (TrimSpace s) [0x3C] = true →
      ParseToolCalls s (some []) =
        some (if lenFields (TrimSpace s) > 1 then NoMatch (some [])
          else if 1 < (TrimSpace s).length ∧ (TrimSpace s).getLast? = some 0x3E
            then Partial (some (TrimSpace s))
          else Partial (some [])) ∧
      ∀ calls slot, ParseToolCalls s (some []) ≠ some (Complete calls slot)) := by
  constructor
  · intro toolToken calls part ok slot h hne
    obtain ⟨h1, h2, h3, h4, h5, h6⟩ := ParseToolCalls_write s toolToken calls part ok slot h hne
    refine ⟨h1, h2, h3, ?_⟩
    rw [h2, h4, h5, h6]
    rfl
  · intro h
    have key := ParseToolCalls_angle_empty s h
    refine ⟨key, ?_⟩
    intro calls slot hc
    rw [key] at hc
    simp only [Option.some.injEq] at hc
    split at hc
    · simp [Complete] at hc
    · split at hc <;> simp [Complete] at hc

theorem C22_slot_write_witness :
    ParseToolCalls
        (ofString "<tool_call>\x7b\"name\":\"f\",\"arguments\":\x7b\x7d\x7d</tool_call>")
        (some [])
      = some (Partial (some
          (ofString "<tool_call>\x7b\"name\":\"f\",\"arguments\":\x7b\x7d\x7d</tool_call>"))) ∧
    ((some [] : Option Bytes) = some [] ∧
      some (ofString "<tool_call>\x7b\"name\":\"f\",\"arguments\":\x7b\x7d\x7d</tool_call>")
        = some (TrimSpace
          (ofString "<tool_call>\x7b\"name\":\"f\",\"arguments\":\x7b\x7d\x7d</tool_call>")) ∧
      1 < (TrimSpace
          (ofString "<tool_call>\x7b\"name\":\"f\",\"arguments\":\x7b\x7d\x7d</tool_call>")).length ∧
      Res.ret [] true true (some
          (ofString "<tool_call>\x7b\"name\":\"f\",\"arguments\":\x7b\x7d\x7d</tool_call>"))
        = Partial (some (TrimSpace
          (ofString "<tool_call>\x7b\"name\":\"f\",\"arguments\":\x7b\x7d\x7d</tool_call>")))) ∧
    ParseToolCalls
        (ofString "<tool_call> \x7b\"name\":\"f\",\"arguments\":\x7b\x7d\x7d </tool_call>")
        (some [])
      = some (NoMatch (some [])) :=
  ⟨by decide,
   (C22_slot_write
      (ofString "<tool_call>\x7b\"name\":\"f\",\"arguments\":\x7b\x7d\x7d</tool_call>")).1
      (some []) [] true true
      (some (ofString "<tool_call>\x7b\"name\":\"f\",\"arguments\":\x7b\x7d\x7d</tool_call>"))
      (by decide) (by decide),
   ((C22_slot_write
      (ofString "<tool_call> \x7b\"name\":\"f\",\"arguments\":\x7b\x7d\x7d </tool_call>")).2
      (by decide)).1.trans (by decide)⟩

end Server
